import Mathlib

/-!
# swearfilter: a shallow embedding of `swearfilter.go`

Go strings are byte sequences, so messages and vocabulary words are lists of
bytes.  The Go standard library and `golang.org/x/text` are not part of the
repository: the string functions, the UTF-8 codec and the regular-expression
matcher are transcribed below, ASCII behaviour of the Unicode functions is
written out, and the Unicode data beyond it (case mapping, category `Mn`,
the `NFD` and `NFC` forms) is a parameter `UnicodeTables` of the model.
-/

namespace swearfilter

/-! ## Bytes, runes and UTF-8 -/

/-- A Go `string`: a sequence of bytes. -/
abbrev Bytes := List UInt8

/-- The bytes of a Go string literal (its UTF-8 encoding). -/
def str (s : String) : Bytes := s.data.flatMap String.utf8EncodeChar

/-- The rune `utf8.RuneError`, U+FFFD. -/
def RuneError : Nat := 0xFFFD

/-- The lead-byte table `first` of `unicode/utf8` together with `acceptRanges`:
for a lead byte of a multi-byte sequence, the sequence length and the range
allowed for the second byte. -/
def leadInfo (s0 : Nat) : Option (Nat × Nat × Nat) :=
  if 0xC2 ≤ s0 ∧ s0 ≤ 0xDF then some (2, 0x80, 0xBF)
  else if s0 = 0xE0 then some (3, 0xA0, 0xBF)
  else if 0xE1 ≤ s0 ∧ s0 ≤ 0xEC then some (3, 0x80, 0xBF)
  else if s0 = 0xED then some (3, 0x80, 0x9F)
  else if s0 = 0xEE ∨ s0 = 0xEF then some (3, 0x80, 0xBF)
  else if s0 = 0xF0 then some (4, 0x90, 0xBF)
  else if 0xF1 ≤ s0 ∧ s0 ≤ 0xF3 then some (4, 0x80, 0xBF)
  else if s0 = 0xF4 then some (4, 0x80, 0x8F)
  else none

/-- A continuation byte, `locb ≤ b ≤ hicb`. -/
def isCont (b : Nat) : Bool := 0x80 ≤ b && b ≤ 0xBF

/-- The function `utf8.DecodeRuneInString`: the first rune of `s` and its width in
bytes; `(RuneError, 1)` for an invalid or incomplete encoding and
`(RuneError, 0)` for the empty string. -/
def DecodeRune (s : Bytes) : Nat × Nat :=
  match s with
  | [] => (RuneError, 0)
  | b0 :: rest =>
    let s0 := b0.toNat
    if s0 < 0x80 then (s0, 1)
    else
      match leadInfo s0 with
      | none => (RuneError, 1)
      | some (sz, lo, hi) =>
        match rest with
        | [] => (RuneError, 1)
        | b1 :: rest1 =>
          let s1 := b1.toNat
          if rest.length + 1 < sz then (RuneError, 1)
          else if s1 < lo ∨ hi < s1 then (RuneError, 1)
          else if sz ≤ 2 then ((s0 % 0x20) * 0x40 + s1 % 0x40, 2)
          else
            match rest1 with
            | [] => (RuneError, 1)
            | b2 :: rest2 =>
              let s2 := b2.toNat
              if !isCont s2 then (RuneError, 1)
              else if sz ≤ 3 then
                ((s0 % 0x10) * 0x1000 + (s1 % 0x40) * 0x40 + s2 % 0x40, 3)
              else
                match rest2 with
                | [] => (RuneError, 1)
                | b3 :: _ =>
                  let s3 := b3.toNat
                  if !isCont s3 then (RuneError, 1)
                  else ((s0 % 0x08) * 0x40000 + (s1 % 0x40) * 0x1000
                          + (s2 % 0x40) * 0x40 + s3 % 0x40, 4)

/-- The function `utf8.AppendRune`: the UTF-8 encoding of a rune; a surrogate or a value beyond
`utf8.MaxRune` is encoded as `RuneError`. -/
def EncodeRune (r : Nat) : Bytes :=
  if r ≤ 0x7F then [UInt8.ofNat r]
  else if r ≤ 0x7FF then [UInt8.ofNat (0xC0 + r / 0x40), UInt8.ofNat (0x80 + r % 0x40)]
  else if 0x10FFFF < r ∨ (0xD800 ≤ r ∧ r ≤ 0xDFFF) then [0xEF, 0xBF, 0xBD]
  else if r ≤ 0xFFFF then
    [UInt8.ofNat (0xE0 + r / 0x1000), UInt8.ofNat (0x80 + r / 0x40 % 0x40),
     UInt8.ofNat (0x80 + r % 0x40)]
  else
    [UInt8.ofNat (0xF0 + r / 0x40000), UInt8.ofNat (0x80 + r / 0x1000 % 0x40),
     UInt8.ofNat (0x80 + r / 0x40 % 0x40), UInt8.ofNat (0x80 + r % 0x40)]

/-- One step of `for _, c := range s`: a decoded rune with the bytes it was
read from (a single byte when the encoding is invalid). -/
structure Tok where
  rune : Nat
  bytes : Bytes
deriving DecidableEq, Repr

/-- An invalid byte: Go reports `RuneError` with width 1. -/
def Tok.invalid (t : Tok) : Bool := t.rune == RuneError && t.bytes.length == 1

/-- The runes of a string in order, as `range s` yields them.  The first
argument counts the bytes still belonging to the rune decoded last. -/
def decodeFrom : Nat → Bytes → List Tok
  | _, [] => []
  | 0, b :: t =>
    let d := DecodeRune (b :: t)
    ⟨d.1, (b :: t).take d.2⟩ :: decodeFrom (d.2 - 1) t
  | k + 1, _ :: t => decodeFrom k t

/-- The runes of a string. -/
def decodeRunes (s : Bytes) : List Tok := decodeFrom 0 s

/-- The bytes a sequence of decoded runes was read from. -/
def tokBytes (ts : List Tok) : Bytes := ts.flatMap Tok.bytes

/-! ## Package `strings` -/

/-- The function `strings.Index`: the byte offset of the first occurrence of `sep` in `s`,
or `-1`. -/
def Index : Bytes → Bytes → Int
  | [], sep => if sep.isEmpty then 0 else -1
  | b :: t, sep =>
    if sep.isPrefixOf (b :: t) then 0
    else
      let i := Index t sep
      if i = -1 then -1 else i + 1

/-- Replacement of the non-overlapping occurrences of a non-empty `old`, from
the left; the counter is the number of bytes of the current occurrence still
to be skipped. -/
def replaceFrom (old new : Bytes) : Nat → Bytes → Bytes
  | _, [] => []
  | 0, b :: t =>
    if old.isPrefixOf (b :: t) then new ++ replaceFrom old new (old.length - 1) t
    else b :: replaceFrom old new 0 t
  | k + 1, _ :: t => replaceFrom old new k t

/-- The call `strings.Replace(s, old, new, -1)`.  With an empty `old` the replacement
is inserted before every rune and at the end. -/
def Replace (s old new : Bytes) : Bytes :=
  if old = new then s
  else if old.isEmpty then new ++ (decodeRunes s).flatMap (fun t => t.bytes ++ new)
  else replaceFrom old new 0 s

/-! ## Unicode data -/

/-- Errors of package `golang.org/x/text/transform`. -/
inductive TransformError where
  | ErrShortDst
  | ErrShortSrc
  | errShortInternal
deriving DecidableEq, Repr

/-- Equality of results of the transform is decidable. -/
instance decEqExcept : DecidableEq (Except TransformError Bytes)
  | .ok a, .ok b => decidable_of_iff (a = b) (by simp)
  | .error a, .error b => decidable_of_iff (a = b) (by simp)
  | .ok _, .error _ => isFalse (by simp)
  | .error _, .ok _ => isFalse (by simp)

/-- The Unicode data and the normalization forms of the Go libraries, beyond
the ASCII behaviour written out below: `toLower r` is
`unicode.To(unicode.LowerCase, r)`, `isMn r` is `unicode.Is(unicode.Mn, r)`,
`nfd` and `nfc` are the text `norm.NFD` and `norm.NFC` produce, and
`internalErr n src` is the error, if any, with which the chained transform
stops on source `src` and a destination of `n` bytes that is large enough. -/
structure UnicodeTables where
  toLower : Nat → Nat
  isMn : Nat → Bool
  nfd : Bytes → Bytes
  nfc : Bytes → Bytes
  internalErr : Nat → Bytes → Option TransformError

/-- Every byte is below `utf8.RuneSelf`. -/
def isASCII (s : Bytes) : Bool := s.all (fun c => c < 0x80)

/-- The function `unicode.ToLower`. -/
def unicodeToLower (U : UnicodeTables) (r : Nat) : Nat :=
  if r ≤ 0x7F then
    if 0x41 ≤ r ∧ r ≤ 0x5A then r + 0x20 else r
  else U.toLower r

/-- The second loop of `strings.Map`: every rune is mapped and encoded. -/
def mapRest (mapping : Nat → Nat) (ts : List Tok) : Bytes :=
  ts.flatMap (fun t => EncodeRune (mapping t.rune))

/-- The first loop of `strings.Map`: input is kept byte for byte up to the
first rune that the mapping changes or that is an invalid byte. -/
def mapFrom (mapping : Nat → Nat) : List Tok → Bytes
  | [] => []
  | t :: ts =>
    let r := mapping t.rune
    if (r = t.rune ∧ t.rune ≠ RuneError) ∨
        (t.rune = RuneError ∧ t.bytes.length ≠ 1 ∧ r = t.rune) then
      t.bytes ++ mapFrom mapping ts
    else EncodeRune r ++ mapRest mapping ts

/-- The function `strings.Map`, for a mapping that drops no rune. -/
def Map (mapping : Nat → Nat) (s : Bytes) : Bytes := mapFrom mapping (decodeRunes s)

/-- The function `strings.ToLower`. -/
def ToLower (U : UnicodeTables) (s : Bytes) : Bytes :=
  if isASCII s then
    if !s.any (fun c => 0x41 ≤ c ∧ c ≤ 0x5A) then s
    else s.map (fun c => if 0x41 ≤ c ∧ c ≤ 0x5A then c + 0x20 else c)
  else Map (unicodeToLower U) s

/-- The method `unicodeSpaceSet.Contains`: `unicode.Is(unicode.Mn, r)`.  The range table `unicode.Mn`
starts at U+0300. -/
def Contains (U : UnicodeTables) (r : Nat) : Bool :=
  if r < 0x300 then false else U.isMn r

/-- The transformer `runes.Remove(set)`: runes of the set are dropped, an invalid byte
becomes `RuneError` (unless the set holds it), other runes are copied. -/
def Remove (contains : Nat → Bool) (src : Bytes) : Bytes :=
  (decodeRunes src).flatMap fun t =>
    if t.invalid then (if contains RuneError then [] else EncodeRune RuneError)
    else if contains t.rune then [] else t.bytes

/-- The form `norm.NFD`; ASCII text is in every normalization form. -/
def NFD (U : UnicodeTables) (src : Bytes) : Bytes :=
  if isASCII src then src else U.nfd src

/-- The form `norm.NFC`; ASCII text is in every normalization form. -/
def NFC (U : UnicodeTables) (src : Bytes) : Bytes :=
  if isASCII src then src else U.nfc src

/-- The call `transform.Chain(norm.NFD, runes.Remove(unicodeSet), norm.NFC).Transform(dst, src, true)`
for `dst = make([]byte, n)`: the destination after the call, or the error.
The text produced is written to the front of the zeroed destination; the
call fails when the text does not fit, and on ASCII source not otherwise. -/
def chainTransform (U : UnicodeTables) (n : Nat) (src : Bytes) :
    Except TransformError Bytes :=
  let out := NFC U (Remove (Contains U) (NFD U src))
  if n < out.length then .error .ErrShortDst
  else
    match (if isASCII src then none else U.internalErr n src) with
    | some err => .error err
    | none => .ok (out ++ List.replicate (n - out.length) 0)

/-! ## Package `regexp` -/

/-- The regular expressions `Check` compiles: anchors, greedy repetition
`[class]{min,}` of a character class, concatenation and alternation. -/
inductive Regex where
  | beginText
  | endText
  | repeatClass (p : Nat → Bool) (min : Nat)
  | concat (a b : Regex)
  | alternate (a b : Regex)

/-- The candidates `n, n - 1, ..., min` of a greedy repetition, longest first. -/
def descending (n min : Nat) : List Nat := (List.range' min (n + 1 - min)).reverse

/-- Leftmost-first backtracking match of `re` at the head of `input`;
`atStart` tells whether the head is the beginning of the text, and `k`
continues with what follows the match. -/
def matchHere : Regex → Bool → List Tok → (Bool → List Tok → Option Nat) → Option Nat
  | .beginText, atStart, input, k => if atStart then k atStart input else none
  | .endText, atStart, input, k => if input.isEmpty then k atStart input else none
  | .repeatClass p min, atStart, input, k =>
    let n := (input.takeWhile (fun t => p t.rune)).length
    (descending n min).findSome? (fun j => k (atStart && j == 0) (input.drop j))
  | .concat a b, atStart, input, k =>
    matchHere a atStart input (fun s rest => matchHere b s rest k)
  | .alternate a b, atStart, input, k =>
    (matchHere a atStart input k).orElse (fun _ => matchHere b atStart input k)

/-- The number of runes of the match of `re` at the head of `input`, if any. -/
def matchLen (re : Regex) (atStart : Bool) (input : List Tok) : Option Nat :=
  matchHere re atStart input (fun _ rest => some (input.length - rest.length))

/-- Deletion of the successive leftmost matches; the counter is the number
of runes of the current match still to be skipped.  A match of no rune
deletes nothing and the search moves on by one rune. -/
def deleteFrom (re : Regex) : Bool → Nat → List Tok → Bytes
  | _, _, [] => []
  | atStart, 0, t :: ts =>
    match matchLen re atStart (t :: ts) with
    | some (n + 1) => deleteFrom re false n ts
    | _ => t.bytes ++ deleteFrom re false 0 ts
  | _, k + 1, _ :: ts => deleteFrom re false k ts

/-- The call `re.ReplaceAllString(src, "")`. -/
def DeleteAll (re : Regex) (src : Bytes) : Bytes := deleteFrom re true 0 (decodeRunes src)

/-- The character class `[\s\p{Zs}]`: `\s` is `[\t\n\f\r ]`, and `Zs` is the
general category of space separators. -/
def isSpaceClass (r : Nat) : Bool :=
  r = 0x09 ∨ r = 0x0A ∨ r = 0x0C ∨ r = 0x0D ∨ r = 0x20
    ∨ r = 0xA0 ∨ r = 0x1680 ∨ (0x2000 ≤ r ∧ r ≤ 0x200A)
    ∨ r = 0x202F ∨ r = 0x205F ∨ r = 0x3000

/-- The pattern `^[\s\p{Zs}]+|[\s\p{Zs}]+$`. -/
def regexLeadCloseWhitepace : Regex :=
  .alternate (.concat .beginText (.repeatClass isSpaceClass 1))
    (.concat (.repeatClass isSpaceClass 1) .endText)

/-- The pattern `[\s\p{Zs}]{2,}`. -/
def regexInsideWhitespace : Regex := .repeatClass isSpaceClass 2

/-! ## The filter -/

/-- The type `Match`: a matched filtered word and its index in the final message. -/
structure Match where
  Word : Bytes
  Index : Int
deriving DecidableEq, Repr

/-- A Go `map[string]struct{}`: its keys, pairwise distinct, in the order
one `range` over the map visits them.  A nil map has no keys.  Go leaves the
order of `range` over a map open; the model takes one order (a new key is
visited last), and what is stated of the keys or of the matches as a set does
not depend on it. -/
structure WordSet where
  keys : List Bytes
  nodup : keys.Nodup

/-- The map `make(map[string]struct{})`. -/
def WordSet.empty : WordSet := ⟨[], List.nodup_nil⟩

/-- The statement `m[word] = struct{}{}`. -/
def WordSet.insert (m : WordSet) (word : Bytes) : WordSet :=
  if h : word ∈ m.keys then m
  else ⟨m.keys ++ [word], List.Nodup.append m.nodup (List.nodup_singleton word)
    (by simpa [List.disjoint_singleton] using h)⟩

/-- The statement `delete(m, word)`. -/
def WordSet.delete (m : WordSet) (word : Bytes) : WordSet :=
  ⟨m.keys.erase word, m.nodup.erase word⟩

/-- The struct `swearFilter` (the mutex apart): the settings and the words
to check against. -/
structure swearFilter where
  disableNormalize : Bool
  disableSpacedTab : Bool
  disableMultiWhitespaceStripping : Bool
  disableZeroWidthStripping : Bool
  enableSpacedBypass : Bool
  BadWords : WordSet

/-- The type `Option` of the package (named apart from the option type of
Lean): a function that changes the filter. -/
abbrev FilterOption := swearFilter → swearFilter

/-- The option `DisableNormalize`. -/
def DisableNormalize : FilterOption := fun s => { s with disableNormalize := true }

/-- The option `DisableSpacedTab`. -/
def DisableSpacedTab : FilterOption := fun s => { s with disableSpacedTab := true }

/-- The option `DisableMultiWhitespaceStripping`. -/
def DisableMultiWhitespaceStripping : FilterOption :=
  fun s => { s with disableMultiWhitespaceStripping := true }

/-- The option `DisableZeroWidthStripping`. -/
def DisableZeroWidthStripping : FilterOption :=
  fun s => { s with disableZeroWidthStripping := true }

/-- The option `EnableSpacedBypass`. -/
def EnableSpacedBypass : FilterOption := fun s => { s with enableSpacedBypass := true }

/-- The function `New`: a filter with the zero value of every setting, the options applied
in order, and the given words stored. -/
def New (filterWords : List Bytes) (opts : List FilterOption) : swearFilter :=
  let filter : swearFilter :=
    { disableNormalize := false, disableSpacedTab := false,
      disableMultiWhitespaceStripping := false, disableZeroWidthStripping := false,
      enableSpacedBypass := false, BadWords := WordSet.empty }
  let filter := opts.foldl (fun f opt => opt f) filter
  filterWords.foldl (fun f word => { f with BadWords := f.BadWords.insert word }) filter

/-- The method `Add`. -/
def Add (filter : swearFilter) (badWords : List Bytes) : swearFilter :=
  badWords.foldl (fun f word => { f with BadWords := f.BadWords.insert word }) filter

/-- The method `Delete`. -/
def Delete (filter : swearFilter) (badWords : List Bytes) : swearFilter :=
  badWords.foldl (fun f word => { f with BadWords := f.BadWords.delete word }) filter

/-- The method `Words`. -/
def Words (filter : swearFilter) : List Bytes := filter.BadWords.keys

/-- Lines 108 to 139 of `Check`: the message after case folding and the
enabled normalize, tab, zero-width and multi-whitespace stages, or the error
of the normalize transform. -/
def normalizeMessage (U : UnicodeTables) (filter : swearFilter) (msg : Bytes) :
    Except TransformError Bytes :=
  let message := ToLower U msg
  let normalized :=
    if !filter.disableNormalize then chainTransform U message.length message
    else .ok message
  match normalized with
  | .error err => .error err
  | .ok message =>
    let message :=
      if !filter.disableSpacedTab then Replace message (str "\t") (str " ") else message
    let message :=
      if !filter.disableZeroWidthStripping then Replace message (str "\u200b") (str "")
      else message
    let message :=
      if !filter.disableMultiWhitespaceStripping then
        DeleteAll regexInsideWhitespace (DeleteAll regexLeadCloseWhitepace message)
      else message
    .ok message

/-- The body of the loop over `filter.BadWords` (lines 145 to 170), on the
pair of `trippedWords` and `checkSpace`. -/
def checkWord (enableSpacedBypass : Bool) (message : Bytes)
    (st : List Match × Bool) (swear : Bytes) : List Match × Bool :=
  if swear = str " " then (st.1, true)
  else
    let idx := Index message swear
    if idx ≠ -1 then (st.1 ++ [{ Word := swear, Index := idx }], st.2)
    else if enableSpacedBypass then
      let nospaceMessage := Replace message (str " ") (str "")
      let idx := Index nospaceMessage swear
      if idx ≠ -1 then (st.1 ++ [{ Word := swear, Index := idx }], st.2) else st
    else st

/-- Lines 143 to 179 of `Check`: the matches in the normalized message. -/
def scanWords (filter : swearFilter) (message : Bytes) : List Match :=
  let st := filter.BadWords.keys.foldl (checkWord filter.enableSpacedBypass message) ([], false)
  if st.2 && message.isEmpty then st.1 ++ [{ Word := str " ", Index := 0 }] else st.1

/-- The method `Check`: the matches and the error. -/
def Check (U : UnicodeTables) (filter : swearFilter) (msg : Bytes) :
    List Match × Option TransformError :=
  if filter.BadWords.keys.length = 0 then ([], none)
  else
    match normalizeMessage U filter msg with
    | .error err => ([], some err)
    | .ok message => (scanWords filter message, none)

/-! ## Auxiliary definitions for the statements -/

/-- What one vocabulary word contributes to the matches of the loop of `Check`. -/
def wordMatch (bypass : Bool) (message swear : Bytes) : Option Match :=
  if swear = str " " then none
  else if Index message swear ≠ -1 then some { Word := swear, Index := Index message swear }
  else if bypass = true ∧ Index (Replace message (str " ") (str "")) swear ≠ -1 then
    some { Word := swear, Index := Index (Replace message (str " ") (str "")) swear }
  else none

/-- A whitespace character of stage 5: a rune of the class `[\\s\\p{Zs}]`. -/
def isSpaceTok (t : Tok) : Bool := isSpaceClass t.rune

/-- The policy of stage 5 in the words of the specification, first step: the
leading and the trailing run of whitespace characters deleted. -/
def trimSpace (ts : List Tok) : List Tok :=
  (ts.dropWhile isSpaceTok).rdropWhile isSpaceTok

/-- The policy of stage 5 in the words of the specification, second step:
every maximal run of two or more whitespace characters deleted, that is
every whitespace character with a whitespace character before it (`prev`)
or after it; a single one is kept. -/
def dropRuns : Bool → List Tok → List Tok
  | _, [] => []
  | prev, t :: ts =>
    let next := match ts with
      | [] => false
      | u :: _ => isSpaceTok u
    if isSpaceTok t && (prev || next) then dropRuns true ts
    else t :: dropRuns (isSpaceTok t) ts

/-- Stage 5 in the words of the specification, on strings. -/
def stripSpec (s : Bytes) : Bytes :=
  tokBytes (dropRuns false (decodeRunes (tokBytes (trimSpace (decodeRunes s)))))

/-- A rune read from a valid encoding: its bytes decode to it, whatever
follows them. -/
def Tok.wellFormed (t : Tok) : Prop :=
  t.bytes ≠ [] ∧ ∀ rest, DecodeRune (t.bytes ++ rest) = (t.rune, t.bytes.length)

/-- No two whitespace characters next to each other. -/
def noSpacePair (a b : Tok) : Prop := ¬ (isSpaceTok a = true ∧ isSpaceTok b = true)

/-- Text without an invalid byte: well-formed UTF-8. -/
def ValidUTF8 (s : Bytes) : Prop := ∀ t ∈ decodeRunes s, t.invalid = false

/-- Well-formedness of a text is decidable. -/
instance decValidUTF8 (s : Bytes) : Decidable (ValidUTF8 s) :=
  inferInstanceAs (Decidable (∀ t ∈ decodeRunes s, t.invalid = false))

/-- The filter with the given settings, in the order of the fields, and no
words. -/
def withOptions (dn dt dm dz sb : Bool) : swearFilter :=
  { disableNormalize := dn, disableSpacedTab := dt, disableMultiWhitespaceStripping := dm,
    disableZeroWidthStripping := dz, enableSpacedBypass := sb, BadWords := WordSet.empty }

/-- A sample of the Unicode data, used to instantiate the statements: the
canonical decompositions of the Latin-1 letters, as base letter and mark. -/
def latin1Decomp (r : Nat) : Option (Nat × Nat) :=
  if r < 0xC0 ∨ 0xFF < r then none
  else
    let i := r % 0x20
    let up : Nat := if r < 0xE0 then 0 else 0x20
    if i ≤ 5 then some (0x41 + up, [0x300, 0x301, 0x302, 0x303, 0x308, 0x30A].getD i 0)
    else if i = 7 then some (0x43 + up, 0x327)
    else if 8 ≤ i ∧ i ≤ 0xB then some (0x45 + up, [0x300, 0x301, 0x302, 0x308].getD (i - 8) 0)
    else if 0xC ≤ i ∧ i ≤ 0xF then some (0x49 + up, [0x300, 0x301, 0x302, 0x308].getD (i - 0xC) 0)
    else if i = 0x11 then some (0x4E + up, 0x303)
    else if 0x12 ≤ i ∧ i ≤ 0x16 then
      some (0x4F + up, [0x300, 0x301, 0x302, 0x303, 0x308].getD (i - 0x12) 0)
    else if 0x19 ≤ i ∧ i ≤ 0x1C then
      some (0x55 + up, [0x300, 0x301, 0x302, 0x308].getD (i - 0x19) 0)
    else if i = 0x1D then some (0x59 + up, 0x301)
    else if r = 0xFF then some (0x79, 0x308)
    else none

/-- A sample of the Unicode data, used to instantiate the statements: case
mapping and canonical decomposition of Latin-1, the marks U+0300 to U+036F
as category `Mn`, text without marks taken as composed, and a transform
that does not fail on its own. -/
def sampleTables : UnicodeTables where
  toLower := fun r => if 0xC0 ≤ r ∧ r ≤ 0xDE ∧ r ≠ 0xD7 then r + 0x20 else r
  isMn := fun r => 0x300 ≤ r ∧ r ≤ 0x36F
  nfd := fun src => (decodeRunes src).flatMap fun t =>
    match latin1Decomp t.rune with
    | some (base, mark) => EncodeRune base ++ EncodeRune mark
    | none => t.bytes
  nfc := fun src => src
  internalErr := fun _ _ => none

/-- The tables of a library whose transform stops with an error on every
source that is not ASCII. -/
def failingTables : UnicodeTables :=
  { sampleTables with internalErr := fun _ _ => some .errShortInternal }

/-- The bytes of the zero-width space U+200B. -/
def zwsp : Bytes := [0xE2, 0x80, 0x8B]

/-- The zero-width space as `range` decodes it. -/
def zwTok : Tok := { rune := 0x200B, bytes := zwsp }

/-- The runes `ts'` are the runes `ts` with zero-width spaces inserted at
arbitrary positions. -/
inductive ZwInserted : List Tok → List Tok → Prop where
  | nil : ZwInserted [] []
  | keep (t : Tok) {l l' : List Tok} : ZwInserted l l' → ZwInserted (t :: l) (t :: l')
  | ins {l l' : List Tok} : ZwInserted l l' → ZwInserted l (zwTok :: l')

/-- The rune `r` as `strings.Map` writes it: its encoding, read back as `r`,
or as `RuneError` when `r` is a surrogate or out of range. -/
def encTok (r : Nat) : Tok :=
  { rune := if 0x10FFFF < r ∨ (0xD800 ≤ r ∧ r ≤ 0xDFFF) then RuneError else r,
    bytes := EncodeRune r }

/-- The runes the second loop of `strings.Map` writes. -/
def mapRestT (mapping : Nat → Nat) (ts : List Tok) : List Tok :=
  ts.map (fun t => encTok (mapping t.rune))

/-- The runes `strings.Map` writes: the runes read, up to the first one that
changes, then the encoded results. -/
def mapFromT (mapping : Nat → Nat) : List Tok → List Tok
  | [] => []
  | t :: ts =>
    if (mapping t.rune = t.rune ∧ t.rune ≠ RuneError) ∨
        (t.rune = RuneError ∧ t.bytes.length ≠ 1 ∧ mapping t.rune = t.rune) then
      t :: mapFromT mapping ts
    else encTok (mapping t.rune) :: mapRestT mapping ts

/-- A rune after stage 3: a tab has become a space. -/
def tabTok (t : Tok) : Tok :=
  if t.bytes = [0x09] then { rune := 0x20, bytes := [0x20] } else t

/-- A rune read from a valid encoding, not an invalid byte. -/
def Tok.good (t : Tok) : Prop := t.wellFormed ∧ t.invalid = false

/-- Stage 2 of `Check` (lines 110 to 121) on the lower-cased message. -/
def stage2 (U : UnicodeTables) (filter : swearFilter) (message : Bytes) :
    Except TransformError Bytes :=
  if !filter.disableNormalize then chainTransform U message.length message else .ok message

/-- Stage 3 of `Check` (lines 123 to 126). -/
def stage3 (filter : swearFilter) (message : Bytes) : Bytes :=
  if !filter.disableSpacedTab then Replace message (str "\t") (str " ") else message

/-- Stage 4 of `Check` (lines 128 to 131). -/
def stage4 (filter : swearFilter) (message : Bytes) : Bytes :=
  if !filter.disableZeroWidthStripping then Replace message (str "\u200b") (str "") else message

/-- Stage 5 of `Check` (lines 133 to 139). -/
def stage5 (filter : swearFilter) (message : Bytes) : Bytes :=
  if !filter.disableMultiWhitespaceStripping then
    DeleteAll regexInsideWhitespace (DeleteAll regexLeadCloseWhitepace message)
  else message

/-- Stages 3 to 5 of `Check` rune by rune, on the runes of well-formed text. -/
def stages345T (f : swearFilter) (cs : List Tok) : List Tok :=
  let c3 := if f.disableSpacedTab then cs else cs.map tabTok
  let c4 := if f.disableZeroWidthStripping then c3
    else c3.filter (fun t => decide (t.bytes ≠ zwsp))
  if f.disableMultiWhitespaceStripping then c4 else dropRuns false (trimSpace c4)

/-- The values of type `Option` there are: the five option functions of the
package (the type of their argument is not exported). -/
def namedOptions : List FilterOption :=
  [DisableNormalize, DisableSpacedTab, DisableMultiWhitespaceStripping,
    DisableZeroWidthStripping, EnableSpacedBypass]

/-- The syllable of the Hangul block for a leading consonant and a vowel. -/
def jamoLV (l v : Nat) : Nat := 0xAC00 + ((l - 0x1100) * 21 + (v - 0x1161)) * 28

/-- Composition of conjoining Hangul jamo: a leading consonant U+1100 to
U+1112, a vowel U+1161 to U+1175 and, if there is one, a trailing consonant
U+11A8 to U+11C2 become the syllable of the block at U+AC00; other runes are
kept as read. -/
def composeJamo : List Tok → List Tok
  | [] => []
  | [a] => [a]
  | [a, b] =>
    if 0x1100 ≤ a.rune ∧ a.rune ≤ 0x1112 ∧ 0x1161 ≤ b.rune ∧ b.rune ≤ 0x1175 then
      [encTok (jamoLV a.rune b.rune)]
    else [a, b]
  | a :: b :: c :: ts =>
    if 0x1100 ≤ a.rune ∧ a.rune ≤ 0x1112 ∧ 0x1161 ≤ b.rune ∧ b.rune ≤ 0x1175 then
      if 0x11A8 ≤ c.rune ∧ c.rune ≤ 0x11C2 then
        encTok (jamoLV a.rune b.rune + (c.rune - 0x11A7)) :: composeJamo ts
      else encTok (jamoLV a.rune b.rune) :: composeJamo (c :: ts)
    else a :: composeJamo (b :: c :: ts)

/-- Decomposition of the Hangul syllables U+AC00 to U+D7A3 into their jamo;
other runes are kept as read. -/
def decomposeHangul (src : Bytes) : Bytes :=
  (decodeRunes src).flatMap fun t =>
    if 0xAC00 ≤ t.rune ∧ t.rune ≤ 0xD7A3 then
      EncodeRune (0x1100 + (t.rune - 0xAC00) / 588) ++
        EncodeRune (0x1161 + (t.rune - 0xAC00) % 588 / 28) ++
        (if (t.rune - 0xAC00) % 28 = 0 then [] else EncodeRune (0x11A7 + (t.rune - 0xAC00) % 28))
    else t.bytes

/-- A vowel or a trailing consonant among the conjoining jamo: in `NFC` it
may combine with the rune before it, so `NFC` does not take it as read. -/
def isJamoVT (r : Nat) : Bool := (0x1161 ≤ r ∧ r ≤ 0x1175) ∨ (0x11A8 ≤ r ∧ r ≤ 0x11C2)

/-- The span check of `norm.NFC` on the runes from the current position, up
to `limit` bytes: the number of bytes that are copied as read, and whether the
check came to the end of the span.  It stops in front of a vowel or trailing
jamo, and then gives the start `last` of the segment the jamo belongs to;
short of the end of the source it also gives the start of the last segment. -/
def quickSpanNFC (limit : Nat) (eof : Bool) : Nat → Nat → List Tok → Nat × Bool
  | _, last, [] => (if eof then limit else last, true)
  | pos, last, t :: ts =>
    if limit < pos + t.bytes.length then (if eof then limit else last, true)
    else if isJamoVT t.rune then (last, false)
    else quickSpanNFC limit eof (pos + t.bytes.length) pos ts

/-- The runes behind the first `k` bytes. -/
def dropBytes : Nat → List Tok → List Tok
  | 0, ts => ts
  | _, [] => []
  | k + 1, t :: ts => dropBytes (k + 1 - t.bytes.length) ts

/-- The loop of `norm.NFC` over the segments it has to compose, with `room`
bytes of destination left: whether it stops with `ErrShortDst`.  A segment is
a rune with the vowel and trailing jamo behind it; it is composed in a buffer
and written only when the destination has four bytes for each rune of the
result.  `short` records a destination shorter than the source left. -/
def transformShort : Nat → Nat → Bool → List Tok → Bool
  | 0, _, short, _ => short
  | _, _, short, [] => short
  | fuel + 1, room, short, t :: ts =>
    let out := composeJamo (t :: ts.takeWhile (fun u => isJamoVT u.rune))
    let rest := ts.dropWhile (fun u => isJamoVT u.rune)
    if room < 4 * out.length then true
    else
      let room1 := room - (tokBytes out).length
      let isShort : Bool := decide (room1 < (tokBytes rest).length)
      let q := quickSpanNFC (if isShort then room1 else (tokBytes rest).length) (!isShort) 0 0 rest
      if q.2 then short || isShort
      else transformShort fuel (room1 - q.1) (short || isShort) (dropBytes q.1 rest)

/-- The call `norm.NFC.Transform(dst, src, true)` for a destination of `n`
bytes and the runes `X` of the source: whether it returns `ErrShortDst`. -/
def nfcShortDst (n : Nat) (X : List Tok) : Bool :=
  let isShort : Bool := decide (n < (tokBytes X).length)
  let q := quickSpanNFC (if isShort then n else (tokBytes X).length) (!isShort) 0 0 X
  if q.2 then isShort
  else transformShort X.length (n - q.1) false (dropBytes q.1 X)

/-- A second sample of the Unicode data: Hangul.  The syllables decompose
into their jamo in `NFD` and the jamo compose in `NFC`; there is no case, and
the marks are those of `sampleTables`.  The transform stops with `ErrShortDst`
where `norm.NFC`, the last of the chain, does: it composes a segment in a
buffer and asks for four bytes of destination for each rune it writes from
there, also when the text fits.  Other runes are taken as inert, and runs of
more than 30 vowel and trailing jamo are not modelled. -/
def hangulTables : UnicodeTables where
  toLower := fun r => r
  isMn := fun r => 0x300 ≤ r ∧ r ≤ 0x36F
  nfd := decomposeHangul
  nfc := fun src => tokBytes (composeJamo (decodeRunes (decomposeHangul src)))
  internalErr := fun n src =>
    if nfcShortDst n (decodeRunes
        (Remove (fun r => 0x300 ≤ r ∧ r ≤ 0x36F) (decomposeHangul src))) then
      some .ErrShortDst
    else none

/-- The runes `ts'` are the runes `ts` with runes that satisfy `P` inserted
at arbitrary positions. -/
inductive Inserted (P : Tok → Prop) : List Tok → List Tok → Prop where
  | nil : Inserted P [] []
  | keep (t : Tok) {l l' : List Tok} : Inserted P l l' → Inserted P (t :: l) (t :: l')
  | ins (u : Tok) {l l' : List Tok} : P u → Inserted P l l' → Inserted P l (u :: l')

/-- A nonspacing combining mark as it stands in a message: the encoding of
a code point of category `Mn`, which starts at U+0300. -/
def isMark (U : UnicodeTables) (u : Tok) : Prop :=
  ∃ r, U.isMn r = true ∧ 0x300 ≤ r ∧ r ≤ 0x10FFFF ∧ ¬ (0xD800 ≤ r ∧ r ≤ 0xDFFF) ∧ u = encTok r

/-- The runes `ts'` are the runes `ts` with nonspacing combining marks
inserted at arbitrary positions. -/
def MnInserted (U : UnicodeTables) (ts ts' : List Tok) : Prop := Inserted (isMark U) ts ts'

/-- A zero byte, as a rune. -/
def nulTok : Tok := { rune := 0, bytes := [0] }

/-! ## Lemmas: package `strings` -/

theorem isPrefixOf_iff (w s : Bytes) : w.isPrefixOf s = true ↔ w <+: s :=
  List.isPrefixOf_iff_prefix

theorem Index_cases (s w : Bytes) :
    (Index s w = -1 ∧ ¬ w <:+: s) ∨
      (∃ n : Nat, Index s w = n ∧ w <+: s.drop n ∧ ∀ j < n, ¬ w <+: s.drop j) := by
  induction s with
  | nil =>
    by_cases hw : w = []
    · right; exact ⟨0, by simp [Index, hw], by simp [hw], by simp⟩
    · left; constructor
      · simp [Index, hw]
      · simpa [List.infix_nil] using hw
  | cons b t ih =>
    by_cases hp : w.isPrefixOf (b :: t) = true
    · right; exact ⟨0, by simp [Index, hp], by simpa using (isPrefixOf_iff _ _).1 hp, by simp⟩
    · have hnp : ¬ w <+: b :: t := fun h => hp ((isPrefixOf_iff _ _).2 h)
      rcases ih with ⟨h1, h2⟩ | ⟨n, h1, h2, h3⟩
      · left; constructor
        · simp [Index, hp, h1]
        · rw [List.infix_cons_iff]; tauto
      · right
        refine ⟨n + 1, ?_, by simpa using h2, ?_⟩
        · have : (n : Int) ≠ -1 := by omega
          simp [Index, hp, h1, this]
        · intro j hj
          cases j with
          | zero => simpa using hnp
          | succ j => simpa using h3 j (by omega)

theorem replaceFrom_single (a : UInt8) (new s : Bytes) :
    replaceFrom [a] new 0 s = s.flatMap (fun c => if c = a then new else [c]) := by
  induction s with
  | nil => simp [replaceFrom]
  | cons b t ih =>
    by_cases h : b = a
    · subst h; simp [replaceFrom, List.isPrefixOf, ih]
    · have h' : a ≠ b := fun e => h e.symm
      simp [replaceFrom, List.isPrefixOf, ih, h, h']

theorem str_space : str " " = [0x20] := by decide
theorem str_empty : str "" = [] := by decide
theorem str_tab : str "\t" = [0x09] := by decide
theorem str_zwsp : str "\u200b" = [0xE2, 0x80, 0x8B] := by decide

/-- Removing the spaces, as `Check` does for the spaced bypass. -/
theorem Replace_space (s : Bytes) :
    Replace s (str " ") (str "") = s.filter (fun c => c ≠ 0x20) := by
  rw [str_space, str_empty]
  simp only [Replace]
  rw [if_neg (by decide), if_neg (by decide), replaceFrom_single]
  induction s with
  | nil => rfl
  | cons b t ih =>
    by_cases h : b = 0x20
    · simp [h, List.filter_cons] at ih ⊢; exact ih
    · simp [h, List.filter_cons] at ih ⊢; exact ih

theorem Replace_tab (s : Bytes) :
    Replace s (str "\t") (str " ") = s.map (fun c => if c = 0x09 then 0x20 else c) := by
  rw [str_space, str_tab]
  simp only [Replace]
  rw [if_neg (by decide), if_neg (by decide), replaceFrom_single]
  induction s with
  | nil => rfl
  | cons b t ih =>
    by_cases h : b = 0x09
    · simp [h] at ih ⊢; exact ih
    · simp [h] at ih ⊢; exact ih

/-! ## Lemmas: ASCII messages -/

theorem lt_iff_toNat (a b : UInt8) : a < b ↔ a.toNat < b.toNat := Iff.rfl
theorem le_iff_toNat (a b : UInt8) : a ≤ b ↔ a.toNat ≤ b.toNat := Iff.rfl

theorem toNat_add (a b : UInt8) : (a + b).toNat = (a.toNat + b.toNat) % 256 := by
  rw [UInt8.add_def]; exact BitVec.toNat_add _ _

theorem isASCII_cons (b : UInt8) (t : Bytes) :
    isASCII (b :: t) = true ↔ b.toNat < 0x80 ∧ isASCII t = true := by
  have h : (0x80 : UInt8).toNat = 0x80 := rfl
  unfold isASCII
  rw [List.all_cons, Bool.and_eq_true, decide_eq_true_eq, lt_iff_toNat, h]

theorem DecodeRune_ascii (b : UInt8) (t : Bytes) (h : b.toNat < 0x80) :
    DecodeRune (b :: t) = (b.toNat, 1) := by
  simp [DecodeRune, h]

theorem decodeRunes_ascii (s : Bytes) (h : isASCII s = true) :
    decodeRunes s = s.map (fun b => ⟨b.toNat, [b]⟩) := by
  unfold decodeRunes
  induction s with
  | nil => rfl
  | cons b t ih =>
    rw [isASCII_cons] at h
    simp [decodeFrom, DecodeRune_ascii b t h.1, ih h.2]

theorem Remove_ascii (U : UnicodeTables) (s : Bytes) (h : isASCII s = true) :
    Remove (Contains U) s = s := by
  unfold Remove
  rw [decodeRunes_ascii s h]
  induction s with
  | nil => rfl
  | cons b t ih =>
    rw [isASCII_cons] at h
    have h1 : ¬ b.toNat = RuneError := by unfold RuneError; omega
    have h2 : b.toNat < 0x300 := by omega
    have h3 : ¬ 768 ≤ b.toNat := by omega
    simp [Tok.invalid, Contains, h1, h3] at ih ⊢
    exact ih h.2

theorem lower_byte_ascii (c : UInt8) (h : c.toNat < 0x80) :
    (if 0x41 ≤ c ∧ c ≤ 0x5A then c + 0x20 else c).toNat < 0x80 := by
  split
  · rename_i hc
    rw [le_iff_toNat, le_iff_toNat] at hc
    rw [toNat_add]
    have h5 : (0x20 : UInt8).toNat = 0x20 := rfl
    have h3 : (0x41 : UInt8).toNat = 0x41 := rfl
    have h4 : (0x5A : UInt8).toNat = 0x5A := rfl
    omega
  · exact h

theorem isASCII_ToLower (U : UnicodeTables) (s : Bytes) (h : isASCII s = true) :
    isASCII (ToLower U s) = true := by
  unfold ToLower
  rw [if_pos h]
  split
  · exact h
  · unfold isASCII at h ⊢
    rw [List.all_eq_true] at h ⊢
    intro x hx
    rw [List.mem_map] at hx
    obtain ⟨c, hc, rfl⟩ := hx
    have := h c hc
    simp only [decide_eq_true_eq, lt_iff_toNat] at this ⊢
    exact lower_byte_ascii c this

theorem ToLower_ascii (U U' : UnicodeTables) (s : Bytes) (h : isASCII s = true) :
    ToLower U s = ToLower U' s := by
  simp [ToLower, h]

theorem chainTransform_ascii (U : UnicodeTables) (s : Bytes) (h : isASCII s = true) :
    chainTransform U s.length s = .ok s := by
  simp [chainTransform, NFD, NFC, h, Remove_ascii U s h]

theorem normalizeMessage_ascii (U U' : UnicodeTables) (f : swearFilter) (m : Bytes)
    (h : isASCII m = true) : normalizeMessage U f m = normalizeMessage U' f m := by
  unfold normalizeMessage
  rw [ToLower_ascii U U' m h]
  have h' := isASCII_ToLower U' m h
  cases f.disableNormalize
  · simp only [Bool.not_false, if_true, chainTransform_ascii _ _ h']
  · rfl

/-- On an ASCII message `Check` does not consult the Unicode tables. -/
theorem Check_ascii (U U' : UnicodeTables) (f : swearFilter) (m : Bytes)
    (h : isASCII m = true) : Check U f m = Check U' f m := by
  unfold Check
  rw [normalizeMessage_ascii U U' f m h]

/-! ## Lemmas: the loop of `Check` -/

theorem checkWord_eq (b : Bool) (N : Bytes) (st : List Match × Bool) (w : Bytes) :
    checkWord b N st w = (st.1 ++ (wordMatch b N w).toList, st.2 || decide (w = str " ")) := by
  unfold checkWord wordMatch
  by_cases h1 : w = str " "
  · simp [h1]
  · by_cases h2 : Index N w = -1
    · cases b <;> by_cases h3 : Index (Replace N (str " ") (str "")) w = -1 <;> simp [h1, h2, h3]
    · simp [h1, h2]

theorem foldl_checkWord (b : Bool) (N : Bytes) (ks : List Bytes) (st : List Match × Bool) :
    ks.foldl (checkWord b N) st =
      (st.1 ++ ks.filterMap (wordMatch b N), st.2 || decide (str " " ∈ ks)) := by
  induction ks generalizing st with
  | nil => simp
  | cons k ks ih =>
    rw [List.foldl_cons, ih, checkWord_eq]
    by_cases h : k = str " "
    · subst h
      cases hk : wordMatch b N (str " ") <;> simp [List.filterMap_cons, hk, List.append_assoc]
    · cases hk : wordMatch b N k <;>
        simp [List.filterMap_cons, hk, h, List.append_assoc, eq_comm]

theorem scanWords_eq (f : swearFilter) (N : Bytes) :
    scanWords f N = f.BadWords.keys.filterMap (wordMatch f.enableSpacedBypass N) ++
      (if str " " ∈ f.BadWords.keys ∧ N = [] then [{ Word := str " ", Index := 0 }] else []) := by
  unfold scanWords
  rw [foldl_checkWord]
  by_cases h1 : str " " ∈ f.BadWords.keys <;> by_cases h2 : N = [] <;> simp [h1, h2]

/-! ## Lemmas: what `Check` reports -/

theorem Index_ne_iff (s w : Bytes) : Index s w ≠ -1 ↔ w <:+: s := by
  rcases Index_cases s w with ⟨h1, h2⟩ | ⟨n, h1, h2, _⟩
  · simp [h1, h2]
  · have h3 : w <:+: s := h2.isInfix.trans (List.drop_suffix n s).isInfix
    have h4 : (n : Int) ≠ -1 := by omega
    simp [h1, h3, h4]

theorem Index_first (s w : Bytes) (h : w <:+: s) :
    ∃ n : Nat, Index s w = n ∧ (s.drop n).take w.length = w ∧
      ∀ j < n, (s.drop j).take w.length ≠ w := by
  rcases Index_cases s w with ⟨_, h2⟩ | ⟨n, h1, h2, h3⟩
  · exact absurd h h2
  · refine ⟨n, h1, (List.prefix_iff_eq_take.1 h2).symm, ?_⟩
    intro j hj e
    exact h3 j hj (List.prefix_iff_eq_take.2 e.symm)

theorem wordMatch_some (b : Bool) (N k : Bytes) (mt : Match)
    (h : wordMatch b N k = some mt) :
    mt.Word = k ∧ k ≠ str " " ∧
      ((k <:+: N ∧ mt.Index = Index N k) ∨
        (¬ k <:+: N ∧ b = true ∧ k <:+: N.filter (fun c => c ≠ 0x20) ∧
          mt.Index = Index (N.filter (fun c => c ≠ 0x20)) k)) := by
  unfold wordMatch at h
  rw [Replace_space] at h
  by_cases h1 : k = str " "
  · simp [h1] at h
  · rw [if_neg h1] at h
    by_cases h2 : Index N k ≠ -1
    · rw [if_pos h2] at h
      cases h
      exact ⟨rfl, h1, Or.inl ⟨(Index_ne_iff _ _).1 h2, rfl⟩⟩
    · rw [if_neg h2] at h
      split at h
      · rename_i h3
        cases h
        exact ⟨rfl, h1, Or.inr ⟨fun hi => h2 ((Index_ne_iff _ _).2 hi), h3.1,
          (Index_ne_iff _ _).1 h3.2, rfl⟩⟩
      · cases h

theorem wordMatch_isSome (b : Bool) (N k : Bytes) (h1 : k ≠ str " ") :
    (∃ mt, wordMatch b N k = some mt) ↔
      (k <:+: N ∨ (b = true ∧ k <:+: N.filter (fun c => c ≠ 0x20))) := by
  constructor
  · rintro ⟨mt, h⟩
    rcases (wordMatch_some b N k mt h).2.2 with h2 | h2
    · exact Or.inl h2.1
    · exact Or.inr ⟨h2.2.1, h2.2.2.1⟩
  · intro h
    unfold wordMatch
    rw [Replace_space, if_neg h1]
    by_cases h2 : Index N k ≠ -1
    · rw [if_pos h2]; exact ⟨_, rfl⟩
    · rw [if_neg h2]
      rcases h with h | h
      · exact absurd ((Index_ne_iff _ _).2 h) h2
      · rw [if_pos ⟨h.1, (Index_ne_iff _ _).2 h.2⟩]; exact ⟨_, rfl⟩

theorem mem_scanWords (f : swearFilter) (N : Bytes) (mt : Match) :
    mt ∈ scanWords f N ↔
      (∃ k ∈ f.BadWords.keys, wordMatch f.enableSpacedBypass N k = some mt) ∨
        (str " " ∈ f.BadWords.keys ∧ N = [] ∧ mt = { Word := str " ", Index := 0 }) := by
  rw [scanWords_eq, List.mem_append, List.mem_filterMap]
  by_cases h : str " " ∈ f.BadWords.keys ∧ N = []
  · rw [if_pos h]; simp [h.1, h.2]
  · rw [if_neg h]
    constructor
    · rintro (h1 | h1)
      · exact Or.inl h1
      · simp at h1
    · rintro (h1 | h1)
      · exact Or.inl h1
      · exact absurd ⟨h1.1, h1.2.1⟩ h

theorem reported_iff (f : swearFilter) (N w : Bytes) (hw : w ∈ f.BadWords.keys)
    (hsp : w ≠ str " ") :
    (∃ mt ∈ scanWords f N, mt.Word = w) ↔
      (w <:+: N ∨ (f.enableSpacedBypass = true ∧ w <:+: N.filter (fun c => c ≠ 0x20))) := by
  rw [← wordMatch_isSome _ _ _ hsp]
  constructor
  · rintro ⟨mt, hmt, rfl⟩
    rcases (mem_scanWords f N mt).1 hmt with ⟨k, _, hk⟩ | ⟨_, _, h3⟩
    · have := (wordMatch_some _ _ _ _ hk).1
      exact ⟨mt, this ▸ hk⟩
    · rw [h3] at hsp; exact absurd rfl hsp
  · rintro ⟨mt, h⟩
    exact ⟨mt, (mem_scanWords f N mt).2 (Or.inl ⟨w, hw, h⟩), (wordMatch_some _ _ _ _ h).1⟩

theorem Check_ok (U : UnicodeTables) (f : swearFilter) (m N : Bytes)
    (hN : normalizeMessage U f m = .ok N) (hne : f.BadWords.keys ≠ []) :
    Check U f m = (scanWords f N, none) := by
  unfold Check
  rw [if_neg (by simpa using hne), hN]

theorem Check_no_error (U : UnicodeTables) (f : swearFilter) (m : Bytes)
    (h : (Check U f m).2 = none) (hne : f.BadWords.keys ≠ []) :
    ∃ N, normalizeMessage U f m = .ok N := by
  unfold Check at h
  rw [if_neg (by simpa using hne)] at h
  cases hN : normalizeMessage U f m with
  | error e => rw [hN] at h; simp at h
  | ok N => exact ⟨N, rfl⟩

theorem normalizeMessage_flags (U : UnicodeTables) (f : swearFilter) (m : Bytes) :
    normalizeMessage U f m = normalizeMessage U
      (withOptions f.disableNormalize f.disableSpacedTab f.disableMultiWhitespaceStripping
        f.disableZeroWidthStripping f.enableSpacedBypass) m := rfl

theorem words_sublist (b : Bool) (N : Bytes) (ks : List Bytes) :
    List.Sublist ((ks.filterMap (wordMatch b N)).map Match.Word) ks := by
  induction ks with
  | nil => simp
  | cons k ks ih =>
    rw [List.filterMap_cons]
    cases hk : wordMatch b N k with
    | none => exact List.Sublist.cons k ih
    | some mt =>
      simp only [List.map_cons]
      rw [(wordMatch_some b N k mt hk).1]
      exact List.Sublist.cons₂ k ih

theorem words_nodup (f : swearFilter) (N : Bytes) :
    ((scanWords f N).map Match.Word).Nodup := by
  rw [scanWords_eq, List.map_append]
  have h1 := (words_sublist f.enableSpacedBypass N f.BadWords.keys).nodup f.BadWords.nodup
  split
  · refine List.Nodup.append h1 (List.nodup_singleton _) ?_
    simp only [List.map_cons, List.map_nil, List.disjoint_singleton]
    intro h
    rw [List.mem_map] at h
    obtain ⟨mt, hmt, hw⟩ := h
    rw [List.mem_filterMap] at hmt
    obtain ⟨k, _, hk⟩ := hmt
    have := wordMatch_some _ _ _ _ hk
    exact this.2.1 (this.1 ▸ hw)
  · simpa using h1

theorem words_mem (f : swearFilter) (N : Bytes) (mt : Match) (h : mt ∈ scanWords f N) :
    mt.Word ∈ f.BadWords.keys := by
  rcases (mem_scanWords f N mt).1 h with ⟨k, hk, hm⟩ | ⟨h1, _, h3⟩
  · rw [(wordMatch_some _ _ _ _ hm).1]; exact hk
  · rw [h3]; exact h1

/-! ## Lemmas: the regular expressions of stage 5 -/

theorem descending_lt (n lo : Nat) (h : n < lo) : descending n lo = [] := by
  unfold descending
  have : n + 1 - lo = 0 := by omega
  rw [this]; rfl

theorem descending_ge (n lo : Nat) (h : lo ≤ n) :
    descending n lo = n :: (List.range' lo (n - lo)).reverse := by
  unfold descending
  have h1 : n + 1 - lo = (n - lo) + 1 := by omega
  rw [h1, List.range'_concat, List.reverse_append]
  have h3 : lo + 1 * (n - lo) = n := by omega
  rw [h3]
  rfl

theorem mem_descending (n lo j : Nat) (h : j ∈ descending n lo) : lo ≤ j ∧ j ≤ n := by
  unfold descending at h
  simp [List.mem_range'] at h
  omega

/-- The length of the run of whitespace characters at the head. -/
theorem takeWhile_space (ts : List Tok) :
    ts.takeWhile (fun t => isSpaceClass t.rune) = ts.takeWhile isSpaceTok := rfl

theorem matchLen_inside (a : Bool) (ts : List Tok) :
    matchLen regexInsideWhitespace a ts =
      if 2 ≤ (ts.takeWhile isSpaceTok).length then some (ts.takeWhile isSpaceTok).length
      else none := by
  unfold matchLen regexInsideWhitespace matchHere
  simp only [takeWhile_space]
  have hle : (ts.takeWhile isSpaceTok).length ≤ ts.length :=
    (List.takeWhile_sublist _).length_le
  split
  · rename_i h
    rw [descending_ge _ _ h, List.findSome?_cons]
    simp only [List.length_drop]
    congr 1
    omega
  · rename_i h
    rw [descending_lt _ _ (by omega)]
    rfl

theorem deleteFrom_skip (re : Regex) (a : Bool) (k : Nat) (ts : List Tok) :
    deleteFrom re a (k + 1) ts = deleteFrom re false 0 (ts.drop (k + 1)) := by
  induction k generalizing a ts with
  | zero =>
    cases ts with
    | nil => simp [deleteFrom]
    | cons t ts => simp [deleteFrom]
  | succ k ih =>
    cases ts with
    | nil => simp [deleteFrom]
    | cons t ts => simp only [deleteFrom, List.drop_succ_cons]; exact ih false ts

theorem dropRuns_head (p : Bool) (ts : List Tok)
    (h : ∀ t, ts.head? = some t → isSpaceTok t = false) :
    dropRuns p ts = dropRuns false ts := by
  cases ts with
  | nil => rfl
  | cons t ts =>
    have := h t rfl
    simp [dropRuns, this]

theorem takeWhile_length_zero (ts : List Tok) (h : (ts.takeWhile isSpaceTok).length = 0) :
    ∀ t, ts.head? = some t → isSpaceTok t = false := by
  intro t ht
  cases ts with
  | nil => simp at ht
  | cons u ts =>
    simp at ht; subst ht
    by_cases hu : isSpaceTok u = true
    · simp [List.takeWhile_cons, hu] at h
    · simpa using hu

theorem next_space (ts : List Tok) :
    (match ts with
      | [] => false
      | u :: _ => isSpaceTok u) = decide (1 ≤ (ts.takeWhile isSpaceTok).length) := by
  cases ts with
  | nil => rfl
  | cons u ts =>
    by_cases hu : isSpaceTok u = true <;> simp [List.takeWhile_cons, hu]

theorem dropRuns_cons (p : Bool) (t : Tok) (ts : List Tok) :
    dropRuns p (t :: ts) =
      if isSpaceTok t && (p || decide (1 ≤ (ts.takeWhile isSpaceTok).length)) then
        dropRuns true ts
      else t :: dropRuns (isSpaceTok t) ts := by
  rw [← next_space]
  rfl

theorem deleteFrom_inside (ts : List Tok) :
    (∀ a, deleteFrom regexInsideWhitespace a 0 ts = tokBytes (dropRuns false ts)) ∧
    (∀ a, 1 ≤ (ts.takeWhile isSpaceTok).length →
      deleteFrom regexInsideWhitespace a (ts.takeWhile isSpaceTok).length ts
        = tokBytes (dropRuns true ts)) := by
  induction ts with
  | nil => exact ⟨fun _ => rfl, fun _ h => by simp at h⟩
  | cons t ts ih =>
    obtain ⟨ih1, ih2⟩ := ih
    constructor
    · intro a
      simp only [deleteFrom, matchLen_inside]
      by_cases ht : isSpaceTok t = true
      · rw [List.takeWhile_cons, if_pos ht, List.length_cons]
        by_cases hr : 1 ≤ (ts.takeWhile isSpaceTok).length
        · rw [if_pos (by omega)]
          simp only []
          rw [ih2 false hr]
          simp [dropRuns_cons, ht, hr]
        · rw [if_neg (by omega)]
          simp only []
          rw [ih1 false]
          have h0 := takeWhile_length_zero ts (by omega)
          simp [dropRuns_cons, ht, hr, tokBytes, dropRuns_head true ts h0]
      · rw [List.takeWhile_cons, if_neg ht]
        simp only [List.length_nil, Nat.not_succ_le_zero, if_false]
        rw [ih1 false]
        simp [dropRuns_cons, ht, tokBytes]
    · intro a h1
      by_cases ht : isSpaceTok t = true
      · rw [List.takeWhile_cons, if_pos ht, List.length_cons]
        simp only [deleteFrom]
        by_cases hr : 1 ≤ (ts.takeWhile isSpaceTok).length
        · rw [ih2 false hr]; simp [dropRuns_cons, ht]
        · have h0 : (ts.takeWhile isSpaceTok).length = 0 := by omega
          rw [h0, ih1 false]
          simp [dropRuns_cons, ht, dropRuns_head true ts (takeWhile_length_zero ts h0)]
      · simp [List.takeWhile_cons, ht] at h1

theorem DeleteAll_inside (s : Bytes) :
    DeleteAll regexInsideWhitespace s = tokBytes (dropRuns false (decodeRunes s)) :=
  (deleteFrom_inside _).1 true

theorem takeWhile_length_le (ts : List Tok) : (ts.takeWhile isSpaceTok).length ≤ ts.length :=
  (List.takeWhile_sublist _).length_le

theorem matchLen_leadClose_start (ts : List Tok) :
    matchLen regexLeadCloseWhitepace true ts =
      if 1 ≤ (ts.takeWhile isSpaceTok).length then some (ts.takeWhile isSpaceTok).length
      else none := by
  unfold matchLen regexLeadCloseWhitepace
  simp only [matchHere, takeWhile_space, if_true]
  have hle := takeWhile_length_le ts
  split
  · rename_i h
    rw [descending_ge _ _ h, List.findSome?_cons]
    simp only [List.length_drop]
    have : ts.length - (ts.length - (ts.takeWhile isSpaceTok).length)
        = (ts.takeWhile isSpaceTok).length := by omega
    rw [this]; rfl
  · rename_i h
    rw [descending_lt _ _ (by omega)]
    rfl

theorem matchLen_leadClose_inner (ts : List Tok) :
    matchLen regexLeadCloseWhitepace false ts =
      if 1 ≤ (ts.takeWhile isSpaceTok).length ∧ (ts.takeWhile isSpaceTok).length = ts.length
      then some ts.length else none := by
  unfold matchLen regexLeadCloseWhitepace
  simp only [matchHere, takeWhile_space, Bool.false_eq_true, if_false, Option.orElse]
  have hle := takeWhile_length_le ts
  by_cases h : 1 ≤ (ts.takeWhile isSpaceTok).length
  · rw [descending_ge _ _ h, List.findSome?_cons]
    by_cases h2 : (ts.takeWhile isSpaceTok).length = ts.length
    · rw [show (if 1 ≤ (ts.takeWhile isSpaceTok).length ∧
          (ts.takeWhile isSpaceTok).length = ts.length then some ts.length else none)
          = some ts.length from if_pos ⟨h, h2⟩, h2]
      simp
    · rw [show (if 1 ≤ (ts.takeWhile isSpaceTok).length ∧
          (ts.takeWhile isSpaceTok).length = ts.length then some ts.length else none)
          = none from if_neg (fun hh => h2 hh.2)]
      have h3 : ts.drop (ts.takeWhile isSpaceTok).length ≠ [] := by
        intro e
        have := congrArg List.length e
        simp at this
        omega
      have h4 : (ts.drop (ts.takeWhile isSpaceTok).length).isEmpty = false := by
        simpa [List.isEmpty_iff] using h3
      simp only [h4, Bool.false_eq_true, if_false]
      rw [List.findSome?_eq_none_iff]
      intro j hj
      simp only [List.mem_reverse, List.mem_range'_1] at hj
      have h5 : (ts.drop j).isEmpty = false := by
        have : ts.drop j ≠ [] := by
          intro e
          have := congrArg List.length e
          simp at this
          omega
        simpa [List.isEmpty_iff] using this
      simp [h5]
  · rw [descending_lt _ _ (by omega), if_neg (fun hh => h hh.1)]
    rfl

theorem rdropWhile_cons (t : Tok) (ts : List Tok)
    (h : ¬ ∀ x ∈ t :: ts, isSpaceTok x = true) :
    (t :: ts).rdropWhile isSpaceTok = t :: ts.rdropWhile isSpaceTok := by
  induction ts using List.reverseRecOn with
  | nil =>
    have ht : ¬ isSpaceTok t = true := by simpa using h
    have := List.rdropWhile_concat_neg isSpaceTok [] t ht
    simpa using this
  | append_singleton l x ih =>
    by_cases hx : isSpaceTok x = true
    · have h' : ¬ ∀ y ∈ t :: l, isSpaceTok y = true := by
        intro hall
        apply h
        intro y hy
        rw [← List.cons_append, List.mem_append, List.mem_singleton] at hy
        rcases hy with hy | rfl
        · exact hall y hy
        · exact hx
      rw [← List.cons_append, List.rdropWhile_concat_pos _ _ _ hx,
        List.rdropWhile_concat_pos _ _ _ hx, ih h']
    · rw [← List.cons_append, List.rdropWhile_concat_neg _ _ _ hx,
        List.rdropWhile_concat_neg _ _ _ hx]
      rfl

theorem deleteFrom_nil (re : Regex) (a : Bool) (k : Nat) : deleteFrom re a k [] = [] := by
  cases k <;> rfl

theorem deleteFrom_leadClose_inner (ts : List Tok) :
    deleteFrom regexLeadCloseWhitepace false 0 ts = tokBytes (ts.rdropWhile isSpaceTok) := by
  induction ts with
  | nil => rfl
  | cons t ts ih =>
    simp only [deleteFrom, matchLen_leadClose_inner]
    by_cases h : 1 ≤ ((t :: ts).takeWhile isSpaceTok).length ∧
        ((t :: ts).takeWhile isSpaceTok).length = (t :: ts).length
    · rw [if_pos h]
      have hall : ∀ x ∈ t :: ts, isSpaceTok x = true := by
        have h1 : (t :: ts).takeWhile isSpaceTok = t :: ts :=
          (List.takeWhile_sublist _).eq_of_length h.2
        exact List.takeWhile_eq_self_iff.1 h1
      rw [List.rdropWhile_eq_nil_iff.2 hall]
      simp only [List.length_cons]
      cases hts : ts.length with
      | zero => rw [List.length_eq_zero.1 hts]; rfl
      | succ m =>
        rw [deleteFrom_skip, ← hts, List.drop_length]
        rfl
    · rw [if_neg h]
      have hnall : ¬ ∀ x ∈ t :: ts, isSpaceTok x = true := by
        intro hall
        apply h
        have h1 : (t :: ts).takeWhile isSpaceTok = t :: ts := List.takeWhile_eq_self_iff.2 hall
        rw [h1]
        exact ⟨by simp, rfl⟩
      simp only []
      rw [ih, rdropWhile_cons t ts hnall]
      simp [tokBytes]

theorem dropWhile_eq_drop (ts : List Tok) :
    ts.dropWhile isSpaceTok = ts.drop (ts.takeWhile isSpaceTok).length := by
  conv_rhs => rw [← List.takeWhile_append_dropWhile isSpaceTok ts]
  rw [List.drop_left']
  simp

theorem deleteFrom_leadClose_start (ts : List Tok) :
    deleteFrom regexLeadCloseWhitepace true 0 ts = tokBytes (trimSpace ts) := by
  unfold trimSpace
  cases ts with
  | nil => rfl
  | cons t ts =>
    simp only [deleteFrom, matchLen_leadClose_start]
    by_cases h : 1 ≤ ((t :: ts).takeWhile isSpaceTok).length
    · rw [if_pos h, dropWhile_eq_drop]
      obtain ⟨m, hm⟩ : ∃ m, ((t :: ts).takeWhile isSpaceTok).length = m + 1 :=
        ⟨((t :: ts).takeWhile isSpaceTok).length - 1, by omega⟩
      rw [hm]
      simp only [List.drop_succ_cons]
      cases m with
      | zero => simpa using deleteFrom_leadClose_inner ts
      | succ m => rw [deleteFrom_skip, deleteFrom_leadClose_inner]
    · rw [if_neg h]
      have ht : ¬ isSpaceTok t = true := by
        intro ht
        simp [List.takeWhile_cons, ht] at h
      have hd : (t :: ts).dropWhile isSpaceTok = t :: ts := by
        simp [List.dropWhile_cons, ht]
      simp only []
      rw [hd, deleteFrom_leadClose_inner,
        rdropWhile_cons t ts (fun hall => ht (hall t (List.mem_cons_self _ _)))]
      simp [tokBytes]

theorem DeleteAll_leadClose (s : Bytes) :
    DeleteAll regexLeadCloseWhitepace s = tokBytes (trimSpace (decodeRunes s)) :=
  deleteFrom_leadClose_start _

/-- Stage 5 as `Check` computes it, by the two regular expressions, is the
policy in the words of the specification. -/
theorem stage5_eq_stripSpec (s : Bytes) :
    DeleteAll regexInsideWhitespace (DeleteAll regexLeadCloseWhitepace s) = stripSpec s := by
  rw [DeleteAll_leadClose, DeleteAll_inside]
  rfl

/-! ## Lemmas: well-formed UTF-8 -/

theorem leadInfo_size (s0 sz lo hi : Nat) (h : leadInfo s0 = some (sz, lo, hi)) :
    sz = 2 ∨ sz = 3 ∨ sz = 4 := by
  unfold leadInfo at h
  repeat' split at h
  all_goals simp at h
  all_goals omega

/-- A rune that was decoded from a valid encoding is decoded from its own
bytes alone: what follows them does not matter. -/
theorem DecodeRune_local (b : UInt8) (rest : Bytes) (r k : Nat)
    (h : DecodeRune (b :: rest) = (r, k)) (hv : ¬ (r = RuneError ∧ k = 1)) (rest' : Bytes) :
    DecodeRune ((b :: rest).take k ++ rest') = (r, k) ∧ ((b :: rest).take k).length = k ∧
      1 ≤ k := by
  unfold DecodeRune at h
  simp only at h
  by_cases h0 : b.toNat < 0x80
  · rw [if_pos h0] at h
    cases h
    simp [DecodeRune, h0]
  · rw [if_neg h0] at h
    cases hli : leadInfo b.toNat with
    | none => rw [hli] at h; simp at h; exact absurd ⟨h.1.symm, h.2.symm⟩ hv
    | some info =>
      obtain ⟨sz, lo, hi⟩ := info
      have hsz := leadInfo_size _ _ _ _ hli
      rw [hli] at h
      simp only at h
      rcases rest with _ | ⟨b1, rest1⟩
      · simp at h; exact absurd ⟨h.1.symm, h.2.symm⟩ hv
      · simp only at h
        split at h
        · simp at h; exact absurd ⟨h.1.symm, h.2.symm⟩ hv
        · rename_i hlen
          split at h
          · simp at h; exact absurd ⟨h.1.symm, h.2.symm⟩ hv
          · rename_i hrange
            split at h
            · rename_i hsz2
              cases h
              simp [DecodeRune, h0, hli, hrange, hsz2]
              omega
            · rename_i hsz2
              rcases rest1 with _ | ⟨b2, rest2⟩
              · simp at h; exact absurd ⟨h.1.symm, h.2.symm⟩ hv
              · simp only at h
                split at h
                · simp at h; exact absurd ⟨h.1.symm, h.2.symm⟩ hv
                · rename_i hc2
                  split at h
                  · rename_i hsz3
                    cases h
                    simp [DecodeRune, h0, hli, hrange, hsz2, hc2, hsz3]
                    omega
                  · rename_i hsz3
                    rcases rest2 with _ | ⟨b3, rest3⟩
                    · simp at h; exact absurd ⟨h.1.symm, h.2.symm⟩ hv
                    · simp only at h
                      split at h
                      · simp at h; exact absurd ⟨h.1.symm, h.2.symm⟩ hv
                      · rename_i hc3
                        cases h
                        simp [DecodeRune, h0, hli, hrange, hsz2, hc2, hsz3, hc3]
                        omega

theorem DecodeRune_size_pos (b : UInt8) (rest : Bytes) : 1 ≤ (DecodeRune (b :: rest)).2 := by
  unfold DecodeRune
  simp only
  repeat' split
  all_goals simp

theorem tokBytes_decodeFrom (k : Nat) (s : Bytes) : tokBytes (decodeFrom k s) = s.drop k := by
  induction s generalizing k with
  | nil => cases k <;> simp [decodeFrom, tokBytes]
  | cons b t ih =>
    cases k with
    | zero =>
      have hpos := DecodeRune_size_pos b t
      obtain ⟨n, hn⟩ : ∃ n, (DecodeRune (b :: t)).2 = n + 1 :=
        ⟨(DecodeRune (b :: t)).2 - 1, by omega⟩
      have := ih n
      simp only [tokBytes] at this
      simp only [decodeFrom, tokBytes, List.flatMap_cons, hn, Nat.add_sub_cancel, this,
        List.take_succ_cons, List.drop_zero, List.cons_append, List.take_append_drop]
    | succ k =>
      simp only [decodeFrom, List.drop_succ_cons]
      exact ih k

/-- The runes of a string partition it. -/
theorem tokBytes_decodeRunes (s : Bytes) : tokBytes (decodeRunes s) = s :=
  tokBytes_decodeFrom 0 s

theorem decodeFrom_skip (xs rest : Bytes) : decodeFrom xs.length (xs ++ rest) = decodeRunes rest := by
  induction xs with
  | nil => rfl
  | cons x xs ih =>
    simp only [List.length_cons, List.cons_append, decodeFrom]
    exact ih

theorem decodeRunes_cons (t : Tok) (rest : Bytes) (h : t.wellFormed) :
    decodeRunes (t.bytes ++ rest) = t :: decodeRunes rest := by
  obtain ⟨hne, hdec⟩ := h
  obtain ⟨r, bs⟩ := t
  simp only at hne hdec ⊢
  cases bs with
  | nil => exact absurd rfl hne
  | cons b bs =>
    have hd : DecodeRune (b :: (bs ++ rest)) = (r, bs.length + 1) := hdec rest
    have hk := decodeFrom_skip bs rest
    have ht : List.take bs.length (bs ++ rest) = bs := List.take_left' rfl
    show decodeFrom 0 (b :: (bs ++ rest)) = _
    rw [decodeFrom, hd]
    simp only [Nat.add_sub_cancel, List.take_succ_cons, hk, ht]

theorem decodeRunes_tokBytes (ts : List Tok) (h : ∀ t ∈ ts, t.wellFormed) :
    decodeRunes (tokBytes ts) = ts := by
  induction ts with
  | nil => rfl
  | cons t ts ih =>
    have := decodeRunes_cons t (tokBytes ts) (h t (List.mem_cons_self _ _))
    simp only [tokBytes, List.flatMap_cons] at this ⊢
    rw [this]
    congr 1
    exact ih (fun u hu => h u (List.mem_cons_of_mem _ hu))

theorem wellFormed_of_decodeFrom (k : Nat) (s : Bytes) :
    ∀ t ∈ decodeFrom k s, t.invalid = false → t.wellFormed := by
  induction s generalizing k with
  | nil => cases k <;> simp [decodeFrom]
  | cons b rest ih =>
    cases k with
    | zero =>
      intro t ht hv
      simp only [decodeFrom, List.mem_cons] at ht
      rcases ht with rfl | ht
      · generalize hd : DecodeRune (b :: rest) = d at hv
        obtain ⟨r, n⟩ := d
        simp only at hv ⊢
        have hnv : ¬ (r = RuneError ∧ n = 1) := by
          intro hh
          have hl : (List.take n (b :: rest)).length = 1 := by simp [hh.2]
          simp [Tok.invalid, hh.1, hl] at hv
        have hl := DecodeRune_local b rest r n hd hnv
        refine ⟨?_, fun rest' => ?_⟩
        · intro e
          have h1 := (hl []).2.1
          have h2 := (hl []).2.2
          simp only at e
          rw [e] at h1
          simp only [List.length_nil] at h1
          omega
        · have h1 := (hl rest').1
          have h2 := (hl rest').2.1
          simp only [h2]
          exact h1
      · exact ih _ t ht hv
    | succ k =>
      intro t ht hv
      simp only [decodeFrom] at ht
      exact ih _ t ht hv

theorem wellFormed_of_valid (s : Bytes) (h : ValidUTF8 s) : ∀ t ∈ decodeRunes s, t.wellFormed :=
  fun t ht => wellFormed_of_decodeFrom 0 s t ht (h t ht)

/-! ## Lemmas: the result of stage 5 -/

theorem dropRuns_sublist (p : Bool) (ts : List Tok) : List.Sublist (dropRuns p ts) ts := by
  induction ts generalizing p with
  | nil => exact List.Sublist.slnil
  | cons t ts ih =>
    rw [dropRuns_cons]
    split
    · exact List.Sublist.cons t (ih true)
    · exact List.Sublist.cons₂ t (ih _)

theorem trimSpace_sublist (ts : List Tok) : List.Sublist (trimSpace ts) ts :=
  (List.rdropWhile_prefix isSpaceTok _).sublist.trans (List.dropWhile_sublist _)

theorem dropRuns_true_head (ts : List Tok) :
    ∀ t, (dropRuns true ts).head? = some t → isSpaceTok t = false := by
  induction ts with
  | nil => intro t h; simp [dropRuns] at h
  | cons u ts ih =>
    intro t h
    rw [dropRuns_cons] at h
    by_cases hu : isSpaceTok u = true
    · simp only [hu, Bool.true_or, Bool.and_self, if_true] at h
      exact ih t h
    · simp only [hu, Bool.false_and, Bool.false_eq_true, if_false, List.head?_cons,
        Option.some.injEq] at h
      subst h
      simpa using hu

theorem dropRuns_chain (p : Bool) (ts : List Tok) : List.Chain' noSpacePair (dropRuns p ts) := by
  induction ts generalizing p with
  | nil => simp [dropRuns]
  | cons u ts ih =>
    rw [dropRuns_cons]
    split
    · exact ih true
    · refine List.Chain'.cons' (ih _) ?_
      intro y hy
      by_cases hu : isSpaceTok u = true
      · rw [hu] at hy
        have := dropRuns_true_head ts y hy
        intro hh
        rw [hh.2] at this
        exact Bool.noConfusion this
      · intro hh; exact hu hh.1

theorem dropRuns_head_keep (p : Bool) (ts : List Tok)
    (h : ∀ t, ts.head? = some t → isSpaceTok t = false) :
    (dropRuns p ts).head? = ts.head? := by
  cases ts with
  | nil => rfl
  | cons u ts =>
    have hu := h u rfl
    rw [dropRuns_cons]
    simp [hu]

theorem takeWhile_concat_pos (l : List Tok) (x : Tok) (hx : isSpaceTok x = false) :
    decide (1 ≤ ((l ++ [x]).takeWhile isSpaceTok).length)
      = decide (1 ≤ (l.takeWhile isSpaceTok).length) := by
  cases l with
  | nil => simp [List.takeWhile_cons, hx]
  | cons v l =>
    by_cases hv : isSpaceTok v = true <;> simp [List.takeWhile_cons, hv]

theorem dropRuns_concat (p : Bool) (l : List Tok) (x : Tok) (hx : isSpaceTok x = false) :
    dropRuns p (l ++ [x]) = dropRuns p l ++ [x] := by
  induction l generalizing p with
  | nil =>
    show dropRuns p [x] = [x]
    rw [dropRuns_cons]
    simp [hx, dropRuns]
  | cons u l ih =>
    rw [List.cons_append, dropRuns_cons, dropRuns_cons, takeWhile_concat_pos l x hx, ih, ih]
    split <;> rfl

theorem trimSpace_head (ts : List Tok) :
    ∀ t, (trimSpace ts).head? = some t → isSpaceTok t = false := by
  intro t h
  unfold trimSpace at h
  have hp : (ts.dropWhile isSpaceTok).rdropWhile isSpaceTok <+: ts.dropWhile isSpaceTok :=
    List.rdropWhile_prefix isSpaceTok _
  have h2 := List.head?_dropWhile_not isSpaceTok ts
  obtain ⟨r, hr⟩ := hp
  cases hl : (ts.dropWhile isSpaceTok).rdropWhile isSpaceTok with
  | nil => rw [hl] at h; simp at h
  | cons a l =>
    rw [hl] at h hr
    simp only [List.head?_cons, Option.some.injEq] at h
    subst h
    rw [← hr] at h2
    simpa using h2

theorem trimSpace_last (ts : List Tok) :
    trimSpace ts = [] ∨ ∃ l x, trimSpace ts = l ++ [x] ∧ isSpaceTok x = false := by
  by_cases h : trimSpace ts = []
  · exact Or.inl h
  · right
    have hl := List.rdropWhile_last_not isSpaceTok (ts.dropWhile isSpaceTok) h
    refine ⟨(trimSpace ts).dropLast, (trimSpace ts).getLast h,
      (List.dropLast_append_getLast h).symm, ?_⟩
    simpa using hl

/-- The runes of the result of stage 5, on well-formed text: the runes of the
input with the runs deleted; none is whitespace at either end and no two
whitespace characters are adjacent. -/
theorem stripSpec_runes (s : Bytes) (h : ValidUTF8 s) :
    decodeRunes (stripSpec s) = dropRuns false (trimSpace (decodeRunes s)) ∧
      (∀ t, (decodeRunes (stripSpec s)).head? = some t → isSpaceTok t = false) ∧
      (∀ t, (decodeRunes (stripSpec s)).getLast? = some t → isSpaceTok t = false) ∧
      List.Chain' noSpacePair (decodeRunes (stripSpec s)) := by
  have hwf := wellFormed_of_valid s h
  have h1 : decodeRunes (tokBytes (trimSpace (decodeRunes s))) = trimSpace (decodeRunes s) :=
    decodeRunes_tokBytes _ (fun t ht => hwf t ((trimSpace_sublist _).subset ht))
  have h2 : decodeRunes (stripSpec s) = dropRuns false (trimSpace (decodeRunes s)) := by
    unfold stripSpec
    rw [h1]
    exact decodeRunes_tokBytes _
      (fun t ht => hwf t ((trimSpace_sublist _).subset ((dropRuns_sublist _ _).subset ht)))
  refine ⟨h2, ?_, ?_, ?_⟩
  · rw [h2, dropRuns_head_keep false _ (trimSpace_head _)]
    exact trimSpace_head _
  · rw [h2]
    rcases trimSpace_last (decodeRunes s) with h3 | ⟨l, x, h3, hx⟩
    · rw [h3]; intro t ht; simp [dropRuns] at ht
    · rw [h3, dropRuns_concat false l x hx, List.getLast?_concat]
      intro t ht
      cases ht
      exact hx
  · rw [h2]
    exact dropRuns_chain _ _

theorem normalizeMessage_stage5 (U : UnicodeTables) (f : swearFilter) (m s : Bytes)
    (hf : f.disableMultiWhitespaceStripping = false)
    (hs : normalizeMessage U { f with disableMultiWhitespaceStripping := true } m = .ok s) :
    normalizeMessage U f m = .ok (stripSpec s) := by
  unfold normalizeMessage at hs ⊢
  simp only [hf, Bool.not_true, Bool.false_eq_true, if_false, Bool.not_false, if_true] at hs ⊢
  split at hs
  · cases hs
  · rename_i x msg hx
    rw [hx]
    simp only [Except.ok.injEq] at hs ⊢
    rw [stage5_eq_stripSpec, hs]

/-! ## Lemmas: the shape of UTF-8 encodings -/

theorem leadInfo_range (s0 sz lo hi : Nat) (h : leadInfo s0 = some (sz, lo, hi)) :
    0x80 ≤ lo ∧ hi ≤ 0xBF ∧ 0xC2 ≤ s0 ∧ s0 ≤ 0xF4 := by
  unfold leadInfo at h
  repeat' split at h
  all_goals simp at h
  all_goals omega

/-- A valid encoding is one ASCII byte, or a lead byte followed by
continuation bytes. -/
theorem DecodeRune_shape (b : UInt8) (rest : Bytes) (r k : Nat)
    (h : DecodeRune (b :: rest) = (r, k)) (hv : ¬ (r = RuneError ∧ k = 1)) :
    (k = 1 ∧ b.toNat < 0x80 ∧ r = b.toNat) ∨
      (0xC2 ≤ b.toNat ∧ ∃ cs rest', rest = cs ++ rest' ∧ cs.length + 1 = k ∧ 1 ≤ cs.length ∧
        ∀ c ∈ cs, isCont c.toNat = true) := by
  unfold DecodeRune at h
  simp only at h
  by_cases h0 : b.toNat < 0x80
  · rw [if_pos h0] at h
    cases h
    exact Or.inl ⟨rfl, h0, rfl⟩
  · rw [if_neg h0] at h
    right
    cases hli : leadInfo b.toNat with
    | none => rw [hli] at h; simp at h; exact absurd ⟨h.1.symm, h.2.symm⟩ hv
    | some info =>
      obtain ⟨sz, lo, hi⟩ := info
      have hrg := leadInfo_range _ _ _ _ hli
      refine ⟨hrg.2.2.1, ?_⟩
      rw [hli] at h
      simp only at h
      rcases rest with _ | ⟨b1, rest1⟩
      · simp at h; exact absurd ⟨h.1.symm, h.2.symm⟩ hv
      · simp only at h
        split at h
        · simp at h; exact absurd ⟨h.1.symm, h.2.symm⟩ hv
        · split at h
          · simp at h; exact absurd ⟨h.1.symm, h.2.symm⟩ hv
          · rename_i hrange
            have hc1 : isCont b1.toNat = true := by
              simp only [isCont, Bool.and_eq_true, decide_eq_true_eq]
              omega
            split at h
            · cases h
              exact ⟨[b1], rest1, rfl, rfl, by simp, by simpa using hc1⟩
            · rcases rest1 with _ | ⟨b2, rest2⟩
              · simp at h; exact absurd ⟨h.1.symm, h.2.symm⟩ hv
              · simp only at h
                split at h
                · simp at h; exact absurd ⟨h.1.symm, h.2.symm⟩ hv
                · rename_i hc2
                  have hc2' : isCont b2.toNat = true := by simpa using hc2
                  split at h
                  · cases h
                    exact ⟨[b1, b2], rest2, rfl, rfl, by simp, by simp [hc1, hc2']⟩
                  · rcases rest2 with _ | ⟨b3, rest3⟩
                    · simp at h; exact absurd ⟨h.1.symm, h.2.symm⟩ hv
                    · simp only at h
                      split at h
                      · simp at h; exact absurd ⟨h.1.symm, h.2.symm⟩ hv
                      · rename_i hc3
                        have hc3' : isCont b3.toNat = true := by simpa using hc3
                        cases h
                        exact ⟨[b1, b2, b3], rest3, rfl, rfl, by simp,
                          by simp [hc1, hc2', hc3']⟩

theorem toNat_ofNat' (n : Nat) : (UInt8.ofNat n).toNat = n % 256 := rfl

/-- The rune that the encoding of `r` holds: `r` itself, or `RuneError` when
`r` is a surrogate or out of range. -/
theorem DecodeRune_EncodeRune (r : Nat) (rest : Bytes) :
    DecodeRune (EncodeRune r ++ rest) =
      (if 0x10FFFF < r ∨ (0xD800 ≤ r ∧ r ≤ 0xDFFF) then RuneError else r,
        (EncodeRune r).length) := by
  unfold EncodeRune
  by_cases h1 : r ≤ 0x7F
  · have hb : (UInt8.ofNat r).toNat = r := by rw [toNat_ofNat']; omega
    have h2 : ¬ (0x10FFFF < r ∨ (0xD800 ≤ r ∧ r ≤ 0xDFFF)) := by omega
    rw [if_pos h1, if_neg h2]
    simp only [List.singleton_append, DecodeRune, hb]
    rw [if_pos (by omega)]
    rfl
  · rw [if_neg h1]
    by_cases h2 : r ≤ 0x7FF
    · have hb0 : (UInt8.ofNat (0xC0 + r / 0x40)).toNat = 0xC0 + r / 0x40 := by
        rw [toNat_ofNat']; omega
      have hb1 : (UInt8.ofNat (0x80 + r % 0x40)).toNat = 0x80 + r % 0x40 := by
        rw [toNat_ofNat']; omega
      have h3 : ¬ (0x10FFFF < r ∨ (0xD800 ≤ r ∧ r ≤ 0xDFFF)) := by omega
      have hl : leadInfo (0xC0 + r / 0x40) = some (2, 0x80, 0xBF) := by
        unfold leadInfo
        rw [if_pos (by omega)]
      rw [if_pos h2, if_neg h3]
      simp only [List.cons_append, List.nil_append, DecodeRune, hb0, hb1, hl]
      rw [if_neg (by omega), if_neg (by simp), if_neg (by omega), if_pos (by omega)]
      simp only [List.length_cons, List.length_nil, Prod.mk.injEq, and_true]
      omega
    · rw [if_neg h2]
      by_cases h3 : 0x10FFFF < r ∨ (0xD800 ≤ r ∧ r ≤ 0xDFFF)
      · rw [if_pos h3, if_pos h3]
        rfl
      · rw [if_neg h3, if_neg h3]
        by_cases h4 : r ≤ 0xFFFF
        · have hb0 : (UInt8.ofNat (0xE0 + r / 0x1000)).toNat = 0xE0 + r / 0x1000 := by
            rw [toNat_ofNat']; omega
          have hb1 : (UInt8.ofNat (0x80 + r / 0x40 % 0x40)).toNat = 0x80 + r / 0x40 % 0x40 := by
            rw [toNat_ofNat']; omega
          have hb2 : (UInt8.ofNat (0x80 + r % 0x40)).toNat = 0x80 + r % 0x40 := by
            rw [toNat_ofNat']; omega
          rw [if_pos h4]
          obtain ⟨lo, hi, hl, hlo, hhi⟩ : ∃ lo hi, leadInfo (0xE0 + r / 0x1000) = some (3, lo, hi) ∧
              lo ≤ 0x80 + r / 0x40 % 0x40 ∧ 0x80 + r / 0x40 % 0x40 ≤ hi := by
            unfold leadInfo
            by_cases c1 : 0xE0 + r / 0x1000 = 0xE0
            · exact ⟨0xA0, 0xBF, by rw [if_neg (by omega), if_pos c1], by omega, by omega⟩
            · by_cases c2 : 0xE0 + r / 0x1000 ≤ 0xEC
              · exact ⟨0x80, 0xBF, by rw [if_neg (by omega), if_neg c1, if_pos (by omega)],
                  by omega, by omega⟩
              · by_cases c3 : 0xE0 + r / 0x1000 = 0xED
                · exact ⟨0x80, 0x9F,
                    by rw [if_neg (by omega), if_neg c1, if_neg (by omega), if_pos c3],
                    by omega, by omega⟩
                · exact ⟨0x80, 0xBF,
                    by rw [if_neg (by omega), if_neg c1, if_neg (by omega), if_neg c3,
                      if_pos (by omega)],
                    by omega, by omega⟩
          simp only [List.cons_append, List.nil_append, DecodeRune, hb0, hb1, hb2, hl]
          rw [if_neg (by omega), if_neg (by simp), if_neg (by omega), if_neg (by omega)]
          have hc : isCont (0x80 + r % 0x40) = true := by
            simp only [isCont, Bool.and_eq_true, decide_eq_true_eq]; omega
          simp only [hc, Bool.not_true, Bool.false_eq_true, if_false]
          rw [if_pos (by omega)]
          simp only [List.length_cons, List.length_nil, Prod.mk.injEq, and_true]
          omega
        · have hb0 : (UInt8.ofNat (0xF0 + r / 0x40000)).toNat = 0xF0 + r / 0x40000 := by
            rw [toNat_ofNat']; omega
          have hb1 : (UInt8.ofNat (0x80 + r / 0x1000 % 0x40)).toNat
              = 0x80 + r / 0x1000 % 0x40 := by
            rw [toNat_ofNat']; omega
          have hb2 : (UInt8.ofNat (0x80 + r / 0x40 % 0x40)).toNat = 0x80 + r / 0x40 % 0x40 := by
            rw [toNat_ofNat']; omega
          have hb3 : (UInt8.ofNat (0x80 + r % 0x40)).toNat = 0x80 + r % 0x40 := by
            rw [toNat_ofNat']; omega
          rw [if_neg h4]
          obtain ⟨lo, hi, hl, hlo, hhi⟩ : ∃ lo hi,
              leadInfo (0xF0 + r / 0x40000) = some (4, lo, hi) ∧
              lo ≤ 0x80 + r / 0x1000 % 0x40 ∧ 0x80 + r / 0x1000 % 0x40 ≤ hi := by
            unfold leadInfo
            by_cases c1 : 0xF0 + r / 0x40000 = 0xF0
            · exact ⟨0x90, 0xBF,
                by rw [if_neg (by omega), if_neg (by omega), if_neg (by omega), if_neg (by omega),
                  if_neg (by omega), if_pos c1],
                by omega, by omega⟩
            · by_cases c2 : 0xF0 + r / 0x40000 ≤ 0xF3
              · exact ⟨0x80, 0xBF,
                  by rw [if_neg (by omega), if_neg (by omega), if_neg (by omega),
                    if_neg (by omega), if_neg (by omega), if_neg c1, if_pos (by omega)],
                  by omega, by omega⟩
              · exact ⟨0x80, 0x8F,
                  by rw [if_neg (by omega), if_neg (by omega), if_neg (by omega),
                    if_neg (by omega), if_neg (by omega), if_neg c1, if_neg (by omega),
                    if_pos (by omega)],
                  by omega, by omega⟩
          simp only [List.cons_append, List.nil_append, DecodeRune, hb0, hb1, hb2, hb3, hl]
          rw [if_neg (by omega), if_neg (by simp), if_neg (by omega), if_neg (by omega)]
          have hc2 : isCont (0x80 + r / 0x40 % 0x40) = true := by
            simp only [isCont, Bool.and_eq_true, decide_eq_true_eq]; omega
          have hc3 : isCont (0x80 + r % 0x40) = true := by
            simp only [isCont, Bool.and_eq_true, decide_eq_true_eq]; omega
          simp only [hc2, hc3, Bool.not_true, Bool.false_eq_true, if_false]
          rw [if_neg (by omega)]
          simp only [List.length_cons, List.length_nil, Prod.mk.injEq, and_true]
          omega

/-! ## Lemmas: inserting zero-width spaces -/

theorem zwTok_wellFormed : zwTok.wellFormed := by
  refine ⟨by decide, fun rest => ?_⟩
  have := DecodeRune_EncodeRune 0x200B rest
  have he : EncodeRune 0x200B = zwsp := by decide
  rw [he] at this
  rw [show zwTok.bytes = zwsp from rfl, this]
  rfl

theorem encTok_wellFormed (r : Nat) : (encTok r).wellFormed := by
  refine ⟨?_, fun rest => DecodeRune_EncodeRune r rest⟩
  show EncodeRune r ≠ []
  unfold EncodeRune
  repeat' split
  all_goals simp

theorem decodeFrom_drop (k : Nat) (s : Bytes) : decodeFrom k s = decodeRunes (s.drop k) := by
  induction s generalizing k with
  | nil => cases k <;> rfl
  | cons b t ih =>
    cases k with
    | zero => rfl
    | succ k => simp only [decodeFrom, List.drop_succ_cons]; exact ih k

theorem decodeRunes_cons_eq (b : UInt8) (rest : Bytes) :
    decodeRunes (b :: rest) =
      ⟨(DecodeRune (b :: rest)).1, (b :: rest).take (DecodeRune (b :: rest)).2⟩ ::
        decodeRunes (rest.drop ((DecodeRune (b :: rest)).2 - 1)) := by
  show decodeFrom 0 (b :: rest) = _
  rw [decodeFrom, decodeFrom_drop]

theorem decodeRunes_invalid (b : UInt8) (rest : Bytes)
    (h : DecodeRune (b :: rest) = (RuneError, 1)) :
    decodeRunes (b :: rest) = ⟨RuneError, [b]⟩ :: decodeRunes rest := by
  rw [decodeRunes_cons_eq, h]
  rfl

theorem leadInfo_cont (s : Nat) (h : isCont s = true) : leadInfo s = none := by
  cases hl : leadInfo s with
  | none => rfl
  | some info =>
    obtain ⟨sz, lo, hi⟩ := info
    have := leadInfo_range _ _ _ _ hl
    simp only [isCont, Bool.and_eq_true, decide_eq_true_eq] at h
    omega

theorem DecodeRune_cont (b : UInt8) (rest : Bytes) (h : isCont b.toNat = true) :
    DecodeRune (b :: rest) = (RuneError, 1) := by
  have h0 : ¬ b.toNat < 0x80 := by
    simp only [isCont, Bool.and_eq_true, decide_eq_true_eq] at h
    omega
  simp [DecodeRune, h0, leadInfo_cont _ h]

theorem inserted_head_cont (rest : Bytes) (l' : List Tok) (c : UInt8) (x : Bytes)
    (h : ZwInserted (decodeRunes rest) l') (hx : tokBytes l' = c :: x)
    (hc : isCont c.toNat = true) :
    ∃ rest₂ l'', rest = c :: rest₂ ∧ x = tokBytes l'' ∧ ZwInserted (decodeRunes rest₂) l'' := by
  generalize hts : decodeRunes rest = ts at h
  cases h with
  | nil => simp [tokBytes] at hx
  | ins h' =>
    simp only [tokBytes, List.flatMap_cons, zwTok, zwsp, List.cons_append] at hx
    have : c = 0xE2 := (List.cons.inj hx).1.symm
    rw [this] at hc
    exact absurd hc (by decide)
  | keep t h' =>
    rename_i l l''
    cases rest with
    | nil => simp [decodeRunes, decodeFrom] at hts
    | cons b r₂ =>
      have hpos := DecodeRune_size_pos b r₂
      rw [decodeRunes_cons_eq] at hts
      obtain ⟨ht, hl⟩ := List.cons.inj hts
      obtain ⟨n, hn⟩ : ∃ n, (DecodeRune (b :: r₂)).2 = n + 1 :=
        ⟨(DecodeRune (b :: r₂)).2 - 1, by omega⟩
      have hb : c = b := by
        rw [← ht] at hx
        simp only [tokBytes, List.flatMap_cons, hn, List.take_succ_cons, List.cons_append] at hx
        exact (List.cons.inj hx).1.symm
      subst hb
      have hd := DecodeRune_cont c r₂ hc
      rw [hd] at ht hl
      refine ⟨r₂, l'', rfl, ?_, ?_⟩
      · rw [← ht] at hx
        simp only [tokBytes, List.flatMap_cons] at hx
        simpa [tokBytes] using (List.cons.inj hx).2.symm
      · simp only [Nat.sub_self, List.drop_zero] at hl
        rw [hl]; exact h'

theorem inserted_agree (cs : Bytes) :
    ∀ (rest : Bytes) (l' : List Tok) (x : Bytes), ZwInserted (decodeRunes rest) l' →
      tokBytes l' = cs ++ x → (∀ c ∈ cs, isCont c.toNat = true) → ∃ rest', rest = cs ++ rest' := by
  induction cs with
  | nil => intro rest _ _ _ _ _; exact ⟨rest, rfl⟩
  | cons c cs ih =>
    intro rest l' x h hx hc
    obtain ⟨rest₂, l'', h1, h2, h3⟩ :=
      inserted_head_cont rest l' c (cs ++ x) h hx (hc c (List.mem_cons_self _ _))
    obtain ⟨rest', h4⟩ := ih rest₂ l'' x h3 h2.symm (fun d hd => hc d (List.mem_cons_of_mem _ hd))
    exact ⟨rest', by rw [h1, h4]; rfl⟩

/-- An invalid byte stays invalid when zero-width spaces are inserted between
the runes that follow it. -/
theorem DecodeRune_invalid_inserted (b : UInt8) (rest : Bytes) (l' : List Tok)
    (h : DecodeRune (b :: rest) = (RuneError, 1)) (hi : ZwInserted (decodeRunes rest) l') :
    DecodeRune (b :: tokBytes l') = (RuneError, 1) := by
  generalize hd : DecodeRune (b :: tokBytes l') = d
  obtain ⟨r, k⟩ := d
  by_cases hv : r = RuneError ∧ k = 1
  · rw [hv.1, hv.2]
  · exfalso
    rcases DecodeRune_shape b _ r k hd hv with ⟨_, h1, _⟩ | ⟨_, cs, x, hcs, hlen, _, hcont⟩
    · rw [DecodeRune_ascii b rest h1] at h
      have := (Prod.mk.inj h).1
      unfold RuneError at this
      omega
    · obtain ⟨rest', hr⟩ := inserted_agree cs rest l' x hi hcs hcont
      have hl := (DecodeRune_local b _ r k hd hv rest').1
      have ht : List.take k (b :: tokBytes l') = b :: cs := by
        rw [hcs, ← hlen, List.take_succ_cons, List.take_left' rfl]
      rw [ht] at hl
      rw [hr] at h
      rw [show (b :: cs) ++ rest' = b :: (cs ++ rest') from rfl, h] at hl
      exact hv ⟨(Prod.mk.inj hl).1.symm, (Prod.mk.inj hl).2.symm⟩

/-- The runes of a message with zero-width spaces inserted between its runes
are the runes of the message and the inserted ones. -/
theorem decodeRunes_inserted (m : Bytes) (ts' : List Tok)
    (h : ZwInserted (decodeRunes m) ts') : decodeRunes (tokBytes ts') = ts' := by
  generalize hts : decodeRunes m = ts at h
  induction h generalizing m with
  | nil => rfl
  | ins h' ih =>
    rename_i l l'
    have := decodeRunes_cons zwTok (tokBytes l') zwTok_wellFormed
    simp only [tokBytes, List.flatMap_cons] at this ⊢
    rw [this]
    congr 1
    exact ih m hts
  | keep t h' ih =>
    rename_i l l'
    cases m with
    | nil => simp [decodeRunes, decodeFrom] at hts
    | cons b rest =>
      have hts' := hts
      rw [decodeRunes_cons_eq] at hts
      obtain ⟨ht, hl⟩ := List.cons.inj hts
      have ih' := ih _ hl
      by_cases hv : (DecodeRune (b :: rest)).1 = RuneError ∧ (DecodeRune (b :: rest)).2 = 1
      · have hd : DecodeRune (b :: rest) = (RuneError, 1) := Prod.ext hv.1 hv.2
        rw [hd] at ht hl
        simp only [Nat.sub_self, List.drop_zero] at hl
        have hinv := DecodeRune_invalid_inserted b rest l' hd (hl ▸ h')
        rw [← ht]
        show decodeRunes (b :: tokBytes l') = _
        rw [decodeRunes_invalid b _ hinv]
        congr 1
      · have hwf : t.wellFormed := by
          generalize hd : DecodeRune (b :: rest) = d at hv ht hl
          obtain ⟨r, n⟩ := d
          have hl' := DecodeRune_local b rest r n hd hv
          rw [← ht]
          refine ⟨?_, fun rest' => ?_⟩
          · intro e
            have h1 := (hl' []).2.1
            have h2 := (hl' []).2.2
            simp only at e
            rw [e] at h1
            simp only [List.length_nil] at h1
            omega
          · have h1 := (hl' rest').1
            have h2 := (hl' rest').2.1
            simp only [h2]
            exact h1
        have := decodeRunes_cons t (tokBytes l') hwf
        simp only [tokBytes, List.flatMap_cons] at this ⊢
        rw [this]
        congr 1

/-! ## Lemmas: `strings.ToLower` rune by rune -/

theorem tokBytes_cons (t : Tok) (ts : List Tok) : tokBytes (t :: ts) = t.bytes ++ tokBytes ts := by
  simp [tokBytes]

theorem tokBytes_mapRestT (f : Nat → Nat) (ts : List Tok) :
    tokBytes (mapRestT f ts) = mapRest f ts := by
  induction ts with
  | nil => rfl
  | cons t ts ih =>
    simp only [mapRestT, List.map_cons, tokBytes_cons, mapRest, List.flatMap_cons] at ih ⊢
    rw [ih]; rfl

theorem tokBytes_mapFromT (f : Nat → Nat) (ts : List Tok) :
    tokBytes (mapFromT f ts) = mapFrom f ts := by
  induction ts with
  | nil => rfl
  | cons t ts ih =>
    simp only [mapFromT, mapFrom]
    split
    · rw [tokBytes_cons, ih]
    · rw [tokBytes_cons, tokBytes_mapRestT]; rfl

theorem encTok_invalid (r : Nat) : (encTok r).invalid = false := by
  unfold Tok.invalid encTok EncodeRune RuneError
  by_cases h1 : r ≤ 0x7F
  · have h2 : ¬ (0x10FFFF < r ∨ (0xD800 ≤ r ∧ r ≤ 0xDFFF)) := by omega
    have h3 : ¬ r = 0xFFFD := by omega
    simp [h1, h2, h3]
  · simp only [h1, if_false]
    repeat' split
    all_goals simp

theorem encTok_good (r : Nat) : (encTok r).good := ⟨encTok_wellFormed r, encTok_invalid r⟩

theorem zwTok_good : zwTok.good := ⟨zwTok_wellFormed, by decide⟩

theorem good_of_decodeRunes (s : Bytes) (t : Tok) (h : t ∈ decodeRunes s)
    (hv : t.invalid = false) : t.good :=
  ⟨wellFormed_of_decodeFrom 0 s t h hv, hv⟩

theorem mapRestT_good (f : Nat → Nat) (ts : List Tok) : ∀ c ∈ mapRestT f ts, c.good := by
  intro c hc
  simp only [mapRestT, List.mem_map] at hc
  obtain ⟨t, _, rfl⟩ := hc
  exact encTok_good _

theorem mapFromT_good (f : Nat → Nat) (ts : List Tok)
    (h : ∀ t ∈ ts, t.invalid = false → t.wellFormed) : ∀ c ∈ mapFromT f ts, c.good := by
  induction ts with
  | nil => intro c hc; simp [mapFromT] at hc
  | cons t ts ih =>
    intro c hc
    simp only [mapFromT] at hc
    split at hc
    · rename_i hcond
      rcases List.mem_cons.1 hc with rfl | hc
      · have hv : c.invalid = false := by
          unfold Tok.invalid
          rcases hcond with ⟨_, h2⟩ | ⟨_, h2, _⟩
          · simp [h2]
          · simp [h2]
        exact ⟨h c (List.mem_cons_self _ _) hv, hv⟩
      · exact ih (fun u hu => h u (List.mem_cons_of_mem _ hu)) c hc
    · rcases List.mem_cons.1 hc with rfl | hc
      · exact encTok_good _
      · exact mapRestT_good f ts c hc

theorem encTok_zw : encTok 0x200B = zwTok := by decide

theorem mapRestT_inserted (f : Nat → Nat) (hf : f 0x200B = 0x200B) (ts ts' : List Tok)
    (h : ZwInserted ts ts') : ZwInserted (mapRestT f ts) (mapRestT f ts') := by
  induction h with
  | nil => exact ZwInserted.nil
  | keep t _ ih => exact ZwInserted.keep _ ih
  | ins _ ih =>
    simp only [mapRestT, List.map_cons] at ih ⊢
    rw [show zwTok.rune = 0x200B from rfl, hf, encTok_zw]
    exact ZwInserted.ins ih

theorem mapFromT_inserted (f : Nat → Nat) (hf : f 0x200B = 0x200B) (ts ts' : List Tok)
    (h : ZwInserted ts ts') : ZwInserted (mapFromT f ts) (mapFromT f ts') := by
  induction h with
  | nil => exact ZwInserted.nil
  | keep t h' ih =>
    simp only [mapFromT]
    split
    · exact ZwInserted.keep _ ih
    · exact ZwInserted.keep _ (mapRestT_inserted f hf _ _ h')
  | ins h' ih =>
    rename_i l l'
    have : mapFromT f (zwTok :: l') = zwTok :: mapFromT f l' := by
      simp only [mapFromT]
      rw [if_pos]
      left
      exact ⟨hf, by decide⟩
    rw [this]
    exact ZwInserted.ins ih

theorem ofNat_toNat (b : UInt8) : UInt8.ofNat b.toNat = b := by
  apply UInt8.ext
  rw [toNat_ofNat']
  exact Nat.mod_eq_of_lt b.toNat_lt

theorem upper_iff (c : UInt8) : (0x41 ≤ c ∧ c ≤ 0x5A) ↔ (0x41 ≤ c.toNat ∧ c.toNat ≤ 0x5A) := by
  rw [le_iff_toNat, le_iff_toNat]
  rfl

theorem EncodeRune_lower (U : UnicodeTables) (b : UInt8) (h : b.toNat < 0x80) :
    EncodeRune (unicodeToLower U b.toNat) = [if 0x41 ≤ b ∧ b ≤ 0x5A then b + 0x20 else b] := by
  unfold unicodeToLower
  rw [if_pos (by omega)]
  by_cases hu : 0x41 ≤ b.toNat ∧ b.toNat ≤ 0x5A
  · rw [if_pos hu, if_pos ((upper_iff b).2 hu)]
    unfold EncodeRune
    rw [if_pos (by omega)]
    congr 1
  · rw [if_neg hu, if_neg (fun h' => hu ((upper_iff b).1 h'))]
    unfold EncodeRune
    rw [if_pos (by omega), ofNat_toNat]

theorem mapRest_ascii (U : UnicodeTables) (s : Bytes) (h : isASCII s = true) :
    mapRest (unicodeToLower U) (s.map (fun b => ⟨b.toNat, [b]⟩))
      = s.map (fun c => if 0x41 ≤ c ∧ c ≤ 0x5A then c + 0x20 else c) := by
  induction s with
  | nil => rfl
  | cons b t ih =>
    rw [isASCII_cons] at h
    simp only [mapRest, List.map_cons, List.flatMap_cons] at ih ⊢
    rw [ih h.2, EncodeRune_lower U b h.1]
    rfl

theorem mapFrom_ascii (U : UnicodeTables) (s : Bytes) (h : isASCII s = true) :
    mapFrom (unicodeToLower U) (s.map (fun b => ⟨b.toNat, [b]⟩))
      = s.map (fun c => if 0x41 ≤ c ∧ c ≤ 0x5A then c + 0x20 else c) := by
  induction s with
  | nil => rfl
  | cons b t ih =>
    rw [isASCII_cons] at h
    simp only [List.map_cons, mapFrom]
    by_cases hu : 0x41 ≤ b.toNat ∧ b.toNat ≤ 0x5A
    · have hne : ¬ unicodeToLower U b.toNat = b.toNat := by
        unfold unicodeToLower
        rw [if_pos (by omega), if_pos hu]
        omega
      have hr : ¬ b.toNat = RuneError := by unfold RuneError; omega
      rw [if_neg (by simp [hne, hr]), mapRest_ascii U t h.2, EncodeRune_lower U b h.1]
      rfl
    · have he : unicodeToLower U b.toNat = b.toNat := by
        unfold unicodeToLower
        rw [if_pos (by omega), if_neg hu]
      have hr : ¬ b.toNat = RuneError := by unfold RuneError; omega
      rw [if_pos (Or.inl ⟨he, hr⟩), ih h.2, if_neg (fun h' => hu ((upper_iff b).1 h'))]
      rfl

/-- The ASCII path of `strings.ToLower` gives what the general path gives. -/
theorem ToLower_eq_Map (U : UnicodeTables) (s : Bytes) :
    ToLower U s = Map (unicodeToLower U) s := by
  unfold ToLower
  by_cases h : isASCII s = true
  · rw [if_pos h]
    unfold Map
    rw [decodeRunes_ascii s h, mapFrom_ascii U s h]
    split
    · rename_i hn
      symm
      have : ∀ c ∈ s, ¬ (0x41 ≤ c ∧ c ≤ 0x5A) := by
        intro c hc hu
        simp only [Bool.not_eq_true', List.any_eq_false, decide_eq_true_eq] at hn
        exact hn c hc hu
      conv_rhs => rw [← List.map_id s]
      apply List.map_congr_left
      intro c hc
      rw [if_neg (this c hc)]
      rfl
    · rfl
  · rw [if_neg h]

/-- The lower-cased message as runes: the runes `strings.Map` writes. -/
theorem ToLower_eq_tokBytes (U : UnicodeTables) (s : Bytes) :
    ToLower U s = tokBytes (mapFromT (unicodeToLower U) (decodeRunes s)) := by
  rw [ToLower_eq_Map, tokBytes_mapFromT]
  rfl

theorem lowered_good (U : UnicodeTables) (s : Bytes) :
    ∀ c ∈ mapFromT (unicodeToLower U) (decodeRunes s), c.good :=
  mapFromT_good _ _ (fun t ht hv => wellFormed_of_decodeFrom 0 s t ht hv)

/-! ## Lemmas: stages 3 and 4 rune by rune -/

theorem good_shape (t : Tok) (h : t.good) :
    (∃ b, t.bytes = [b] ∧ b.toNat < 0x80 ∧ t.rune = b.toNat) ∨
      (∃ b cs, t.bytes = b :: cs ∧ 0xC2 ≤ b.toNat ∧ ∀ c ∈ cs, isCont c.toNat = true) := by
  obtain ⟨⟨hne, hdec⟩, hinv⟩ := h
  obtain ⟨r, bs⟩ := t
  simp only at hne hdec hinv ⊢
  cases bs with
  | nil => exact absurd rfl hne
  | cons b bs =>
    have hd := hdec []
    simp only [List.append_nil] at hd
    have hv : ¬ (r = RuneError ∧ (b :: bs).length = 1) := by
      intro hh
      simp [Tok.invalid, hh.1, hh.2] at hinv
    rcases DecodeRune_shape b bs r _ hd hv with ⟨h1, h2, h3⟩ | ⟨h1, cs, rest', h2, h3, _, h4⟩
    · left
      have : bs = [] := by
        simp only [List.length_cons, Nat.add_left_eq_self] at h1
        exact List.length_eq_zero.1 h1
      exact ⟨b, by rw [this], h2, h3⟩
    · right
      refine ⟨b, cs, ?_, h1, h4⟩
      have hl : cs.length = bs.length := by
        simp only [List.length_cons] at h3; omega
      have : rest' = [] := by
        have := congrArg List.length h2
        simp only [List.length_append] at this
        exact List.length_eq_zero.1 (by omega)
      rw [h2, this, List.append_nil]

theorem cont_ne (c : UInt8) (h : isCont c.toNat = true) : c ≠ 0x09 ∧ c ≠ 0xE2 := by
  simp only [isCont, Bool.and_eq_true, decide_eq_true_eq] at h
  constructor <;> intro e <;> rw [e] at h <;> exact absurd h (by decide)

theorem sp_good : Tok.good { rune := 0x20, bytes := [0x20] } := by
  have := encTok_good 0x20
  have he : encTok 0x20 = { rune := 0x20, bytes := [0x20] } := by decide
  rw [he] at this
  exact this

theorem tabTok_good (t : Tok) (h : t.good) : (tabTok t).good := by
  unfold tabTok
  split
  · exact sp_good
  · exact h

theorem tabTok_bytes (t : Tok) (h : t.good) :
    t.bytes.map (fun c => if c = 0x09 then 0x20 else c) = (tabTok t).bytes := by
  unfold tabTok
  split
  · rename_i h9; rw [h9]; rfl
  · rename_i h9
    rcases good_shape t h with ⟨b, hb, _, _⟩ | ⟨b, cs, hb, hlead, hcs⟩
    · rw [hb] at h9 ⊢
      have : b ≠ 0x09 := fun e => h9 (by rw [e])
      simp [this]
    · rw [hb]
      have hb9 : b ≠ 0x09 := by
        intro e; rw [e] at hlead; exact absurd hlead (by decide)
      simp only [List.map_cons, if_neg hb9]
      congr 1
      conv_rhs => rw [← List.map_id cs]
      apply List.map_congr_left
      intro c hc
      rw [if_neg (cont_ne c (hcs c hc)).1]
      rfl

theorem tab_chunks (cs : List Tok) (h : ∀ t ∈ cs, t.good) :
    (tokBytes cs).map (fun c => if c = 0x09 then 0x20 else c) = tokBytes (cs.map tabTok) := by
  induction cs with
  | nil => rfl
  | cons t cs ih =>
    rw [List.map_cons, tokBytes_cons, tokBytes_cons, List.map_append,
      tabTok_bytes t (h t (List.mem_cons_self _ _)),
      ih (fun u hu => h u (List.mem_cons_of_mem _ hu))]

theorem map_inserted (F : Tok → Tok) (hF : F zwTok = zwTok) (a b : List Tok)
    (h : ZwInserted a b) : ZwInserted (a.map F) (b.map F) := by
  induction h with
  | nil => exact ZwInserted.nil
  | keep t _ ih => exact ZwInserted.keep _ ih
  | ins _ ih =>
    rw [List.map_cons, hF]
    exact ZwInserted.ins ih

theorem filter_inserted (a b : List Tok) (h : ZwInserted a b) :
    a.filter (fun t => decide (t.bytes ≠ zwsp)) = b.filter (fun t => decide (t.bytes ≠ zwsp)) := by
  induction h with
  | nil => rfl
  | keep t _ ih => simp only [List.filter_cons, ih]
  | ins _ ih =>
    rw [ih, List.filter_cons_of_neg (by decide)]

theorem mem_inserted (a b : List Tok) (h : ZwInserted a b) : ∀ t ∈ b, t ∈ a ∨ t = zwTok := by
  induction h with
  | nil => intro t ht; simp at ht
  | keep u _ ih =>
    intro t ht
    rcases List.mem_cons.1 ht with rfl | ht
    · exact Or.inl (List.mem_cons_self _ _)
    · rcases ih t ht with h1 | h1
      · exact Or.inl (List.mem_cons_of_mem _ h1)
      · exact Or.inr h1
  | ins _ ih =>
    intro t ht
    rcases List.mem_cons.1 ht with rfl | ht
    · exact Or.inr rfl
    · exact ih t ht

theorem replace_cont (cs rest : Bytes) (h : ∀ c ∈ cs, isCont c.toNat = true) :
    replaceFrom zwsp [] 0 (cs ++ rest) = cs ++ replaceFrom zwsp [] 0 rest := by
  induction cs with
  | nil => rfl
  | cons c cs ih =>
    have hc := (cont_ne c (h c (List.mem_cons_self _ _))).2
    have hp : zwsp.isPrefixOf (c :: (cs ++ rest)) = false := by
      have : ¬ ((0xE2 : UInt8) = c) := fun e => hc e.symm
      simp [zwsp, List.isPrefixOf, this]
    rw [List.cons_append, replaceFrom, hp]
    simp only [Bool.false_eq_true, if_false]
    rw [ih (fun d hd => h d (List.mem_cons_of_mem _ hd))]
    rfl

theorem zwsp_at_head (t : Tok) (h : t.good) (rest : Bytes)
    (hp : zwsp <+: t.bytes ++ rest) : t.bytes = zwsp := by
  obtain ⟨rest', hr⟩ := hp
  have h1 := h.1.2 rest
  have h2 := zwTok_wellFormed.2 rest'
  rw [show zwTok.bytes = zwsp from rfl, hr, h1] at h2
  have hl : t.bytes.length = 3 := (Prod.mk.inj h2).2
  have := congrArg (List.take 3) hr
  rw [List.take_left' (by rfl), List.take_left' hl] at this
  exact this.symm

theorem strip_chunk (t : Tok) (h : t.good) (rest : Bytes) :
    replaceFrom zwsp [] 0 (t.bytes ++ rest) =
      (if t.bytes = zwsp then [] else t.bytes) ++ replaceFrom zwsp [] 0 rest := by
  by_cases hz : t.bytes = zwsp
  · rw [if_pos hz, hz]
    simp [zwsp, replaceFrom, List.isPrefixOf]
  · rw [if_neg hz]
    have hp : zwsp.isPrefixOf (t.bytes ++ rest) = false := by
      cases hh : zwsp.isPrefixOf (t.bytes ++ rest) with
      | false => rfl
      | true => exact absurd (zwsp_at_head t h rest ((isPrefixOf_iff _ _).1 hh)) hz
    rcases good_shape t h with ⟨b, hb, _, _⟩ | ⟨b, cs, hb, _, hcs⟩
    · rw [hb] at hp ⊢
      rw [List.singleton_append] at hp ⊢
      rw [replaceFrom, hp]
      rfl
    · rw [hb] at hp ⊢
      rw [List.cons_append] at hp ⊢
      rw [replaceFrom, hp]
      simp only [Bool.false_eq_true, if_false]
      rw [replace_cont cs rest hcs]
      rfl

theorem strip_chunks (cs : List Tok) (h : ∀ t ∈ cs, t.good) :
    replaceFrom zwsp [] 0 (tokBytes cs)
      = tokBytes (cs.filter (fun t => decide (t.bytes ≠ zwsp))) := by
  induction cs with
  | nil => rfl
  | cons t cs ih =>
    rw [tokBytes_cons, strip_chunk t (h t (List.mem_cons_self _ _)),
      ih (fun u hu => h u (List.mem_cons_of_mem _ hu)), List.filter_cons]
    by_cases hz : t.bytes = zwsp
    · simp [hz]
    · simp [hz, tokBytes_cons]

theorem Replace_zwsp (s : Bytes) :
    Replace s (str "\u200b") (str "") = replaceFrom zwsp [] 0 s := by
  rw [str_zwsp, str_empty]
  unfold Replace
  rw [if_neg (by decide), if_neg (by decide)]
  rfl

theorem no_zwsp_cont (cs rest : Bytes) (h : ∀ c ∈ cs, isCont c.toNat = true)
    (hi : zwsp <:+: cs ++ rest) : zwsp <:+: rest := by
  induction cs with
  | nil => exact hi
  | cons c cs ih =>
    rw [List.cons_append, List.infix_cons_iff] at hi
    rcases hi with hp | hi
    · obtain ⟨r, hr⟩ := hp
      have : (0xE2 : UInt8) = c := by
        simp only [zwsp, List.cons_append] at hr
        exact (List.cons.inj hr).1
      exact absurd this.symm (cont_ne c (h c (List.mem_cons_self _ _))).2
    · exact ih (fun d hd => h d (List.mem_cons_of_mem _ hd)) hi

/-- Well-formed text none of whose runes is U+200B holds the bytes of U+200B
nowhere. -/
theorem no_zwsp_chunks (cs : List Tok) (h : ∀ t ∈ cs, t.good)
    (hz : ∀ t ∈ cs, t.bytes ≠ zwsp) : ¬ zwsp <:+: tokBytes cs := by
  induction cs with
  | nil => intro hi; simp [tokBytes, zwsp, List.infix_nil] at hi
  | cons t cs ih =>
    intro hi
    have ht := h t (List.mem_cons_self _ _)
    apply ih (fun u hu => h u (List.mem_cons_of_mem _ hu))
      (fun u hu => hz u (List.mem_cons_of_mem _ hu))
    rw [tokBytes_cons] at hi
    rcases good_shape t ht with ⟨b, hb, hb7, _⟩ | ⟨b, bs, hb, _, hbs⟩
    · rw [hb, List.singleton_append, List.infix_cons_iff] at hi
      rcases hi with hp | hi
      · have := zwsp_at_head t ht (tokBytes cs) (by rw [hb]; exact hp)
        exact absurd this (hz t (List.mem_cons_self _ _))
      · exact hi
    · rw [hb, List.cons_append, List.infix_cons_iff] at hi
      rcases hi with hp | hi
      · have := zwsp_at_head t ht (tokBytes cs) (by rw [hb]; exact hp)
        exact absurd this (hz t (List.mem_cons_self _ _))
      · exact no_zwsp_cont bs _ hbs hi

theorem Remove_id (contains : Nat → Bool) (s : Bytes)
    (h : ∀ t ∈ decodeRunes s, t.invalid = false ∧ contains t.rune = false) :
    Remove contains s = s := by
  unfold Remove
  conv_rhs => rw [← tokBytes_decodeRunes s]
  unfold tokBytes
  apply List.flatMap_congr
  intro t ht
  obtain ⟨h1, h2⟩ := h t ht
  simp [h1, h2]

/-! ## Lemmas: the pipeline as a composition of its stages -/

theorem normalizeMessage_eq (U : UnicodeTables) (f : swearFilter) (m : Bytes) :
    normalizeMessage U f m =
      (stage2 U f (ToLower U m)).map (fun s => stage5 f (stage4 f (stage3 f s))) := by
  unfold normalizeMessage stage2
  dsimp only
  generalize (if (!f.disableNormalize) = true then
      chainTransform U (ToLower U m).length (ToLower U m) else Except.ok (ToLower U m)) = r
  cases r with
  | error e => rfl
  | ok s => rfl

theorem normalizeMessage_ok (U : UnicodeTables) (f : swearFilter) (m s : Bytes)
    (h : stage2 U f (ToLower U m) = .ok s) :
    normalizeMessage U f m = .ok (stage5 f (stage4 f (stage3 f s))) := by
  rw [normalizeMessage_eq, h]; rfl

theorem stage3_chunks (f : swearFilter) (cs : List Tok) (h : ∀ t ∈ cs, t.good) :
    stage3 f (tokBytes cs) = tokBytes (if f.disableSpacedTab then cs else cs.map tabTok) := by
  unfold stage3
  cases f.disableSpacedTab with
  | true => rfl
  | false =>
    simp only [Bool.not_false, if_true, Bool.false_eq_true, if_false]
    rw [Replace_tab, tab_chunks cs h]

theorem stage4_chunks (f : swearFilter) (cs : List Tok) (h : ∀ t ∈ cs, t.good) :
    stage4 f (tokBytes cs) =
      tokBytes (if f.disableZeroWidthStripping then cs
        else cs.filter (fun t => decide (t.bytes ≠ zwsp))) := by
  unfold stage4
  cases f.disableZeroWidthStripping with
  | true => rfl
  | false =>
    simp only [Bool.not_false, if_true, Bool.false_eq_true, if_false]
    rw [Replace_zwsp, strip_chunks cs h]

theorem stage5_chunks (f : swearFilter) (cs : List Tok) (h : ∀ t ∈ cs, t.good) :
    stage5 f (tokBytes cs) =
      tokBytes (if f.disableMultiWhitespaceStripping then cs
        else dropRuns false (trimSpace cs)) := by
  unfold stage5
  cases f.disableMultiWhitespaceStripping with
  | true => rfl
  | false =>
    simp only [Bool.not_false, if_true, Bool.false_eq_true, if_false]
    rw [stage5_eq_stripSpec]
    unfold stripSpec
    rw [decodeRunes_tokBytes cs (fun t ht => (h t ht).1),
      decodeRunes_tokBytes _ (fun t ht => (h t ((trimSpace_sublist cs).subset ht)).1)]

theorem stage3T_good (f : swearFilter) (cs : List Tok) (h : ∀ t ∈ cs, t.good) :
    ∀ t ∈ (if f.disableSpacedTab then cs else cs.map tabTok), t.good := by
  cases f.disableSpacedTab with
  | true => exact h
  | false =>
    intro t ht
    simp only [Bool.false_eq_true, if_false, List.mem_map] at ht
    obtain ⟨u, hu, rfl⟩ := ht
    exact tabTok_good u (h u hu)

theorem stage4T_good (f : swearFilter) (cs : List Tok) (h : ∀ t ∈ cs, t.good) :
    ∀ t ∈ (if f.disableZeroWidthStripping then cs
        else cs.filter (fun t => decide (t.bytes ≠ zwsp))), t.good := by
  cases f.disableZeroWidthStripping with
  | true => exact h
  | false =>
    intro t ht
    simp only [Bool.false_eq_true, if_false] at ht
    exact h t (List.mem_of_mem_filter ht)

theorem stages345_chunks (f : swearFilter) (cs : List Tok) (h : ∀ t ∈ cs, t.good) :
    stage5 f (stage4 f (stage3 f (tokBytes cs))) = tokBytes (stages345T f cs) := by
  rw [stage3_chunks f cs h, stage4_chunks f _ (stage3T_good f cs h),
    stage5_chunks f _ (stage4T_good f _ (stage3T_good f cs h))]
  rfl

theorem stages345T_sub (f : swearFilter) (cs : List Tok) :
    ∀ t ∈ stages345T f cs, t ∈ (if f.disableZeroWidthStripping then
        (if f.disableSpacedTab then cs else cs.map tabTok)
      else (if f.disableSpacedTab then cs else cs.map tabTok).filter
        (fun t => decide (t.bytes ≠ zwsp))) := by
  intro t ht
  unfold stages345T at ht
  cases hm : f.disableMultiWhitespaceStripping with
  | true => simpa [hm] using ht
  | false =>
    simp only [hm, Bool.false_eq_true, if_false] at ht
    exact (trimSpace_sublist _).subset ((dropRuns_sublist _ _).subset ht)

theorem stages345T_good (f : swearFilter) (cs : List Tok) (h : ∀ t ∈ cs, t.good) :
    ∀ t ∈ stages345T f cs, t.good :=
  fun t ht => stage4T_good f _ (stage3T_good f cs h) t (stages345T_sub f cs t ht)

theorem stages345T_inserted (f : swearFilter) (hz : f.disableZeroWidthStripping = false)
    (a b : List Tok) (h : ZwInserted a b) : stages345T f a = stages345T f b := by
  unfold stages345T
  simp only [hz, Bool.false_eq_true, if_false]
  have h3 : ZwInserted (if f.disableSpacedTab then a else a.map tabTok)
      (if f.disableSpacedTab then b else b.map tabTok) := by
    cases f.disableSpacedTab with
    | true => exact h
    | false => exact map_inserted tabTok (by decide) a b h
  rw [filter_inserted _ _ h3]

theorem stages345T_no_zwsp (f : swearFilter) (hz : f.disableZeroWidthStripping = false)
    (cs : List Tok) : ∀ t ∈ stages345T f cs, t.bytes ≠ zwsp := by
  intro t ht
  have := stages345T_sub f cs t ht
  simp only [hz, Bool.false_eq_true, if_false] at this
  simpa using (List.mem_filter.mp this).2

theorem unicodeToLower_zw (U : UnicodeTables) (h : U.toLower 0x200B = 0x200B) :
    unicodeToLower U 0x200B = 0x200B := by
  unfold unicodeToLower
  rw [if_neg (by decide), h]

theorem stage2_ascii (U : UnicodeTables) (f : swearFilter) (m : Bytes)
    (hm : isASCII m = true ∨ f.disableNormalize = true) :
    stage2 U f (ToLower U m) = .ok (ToLower U m) := by
  unfold stage2
  rcases hm with hm | hm
  · cases f.disableNormalize with
    | true => rfl
    | false => exact chainTransform_ascii U _ (isASCII_ToLower U m hm)
  · rw [hm]; rfl

/-- The normalize stage leaves text alone that the library takes as
normalized and that holds no mark of category `Mn`. -/
theorem chainTransform_id (U : UnicodeTables) (s : Bytes)
    (hnfd : U.nfd s = s) (hnfc : U.nfc s = s) (herr : U.internalErr s.length s = none)
    (hr : Remove (Contains U) s = s) : chainTransform U s.length s = .ok s := by
  have h1 : NFD U s = s := by unfold NFD; split <;> [rfl; exact hnfd]
  have h2 : NFC U s = s := by unfold NFC; split <;> [rfl; exact hnfc]
  unfold chainTransform
  simp only [h1, hr, h2, lt_irrefl, if_false, herr, ite_self, Nat.sub_self, List.replicate_zero,
    List.append_nil]

theorem stage2_inserted (U : UnicodeTables) (f : swearFilter) (m : Bytes) (ts' : List Tok)
    (hm : isASCII m = true ∨ f.disableNormalize = true)
    (hins : ZwInserted (decodeRunes m) ts')
    (hlow : U.toLower 0x200B = 0x200B)
    (hlib : f.disableNormalize = false →
      U.isMn 0x200B = false ∧
      U.nfd (ToLower U (tokBytes ts')) = ToLower U (tokBytes ts') ∧
      U.nfc (ToLower U (tokBytes ts')) = ToLower U (tokBytes ts') ∧
      U.internalErr (ToLower U (tokBytes ts')).length (ToLower U (tokBytes ts')) = none) :
    stage2 U f (ToLower U (tokBytes ts')) = .ok (ToLower U (tokBytes ts')) := by
  cases hn : f.disableNormalize with
  | true => unfold stage2; rw [hn]; rfl
  | false =>
    have hasc : isASCII m = true := by
      rcases hm with hm | hm
      · exact hm
      · rw [hn] at hm; exact absurd hm (by decide)
    obtain ⟨hmn, hnfd, hnfc, herr⟩ := hlib hn
    unfold stage2
    rw [hn]
    simp only [Bool.not_false, if_true]
    apply chainTransform_id U _ hnfd hnfc herr
    apply Remove_id
    have hdec : decodeRunes (tokBytes ts') = ts' := decodeRunes_inserted m ts' hins
    have hI := mapFromT_inserted (unicodeToLower U) (unicodeToLower_zw U hlow) _ _ hins
    rw [ToLower_eq_tokBytes, hdec,
      decodeRunes_tokBytes _ (fun t ht => by
        have := lowered_good U (tokBytes ts') t (by rw [hdec]; exact ht)
        exact this.1)]
    intro t ht
    have hg : t.good := lowered_good U (tokBytes ts') t (by rw [hdec]; exact ht)
    refine ⟨hg.2, ?_⟩
    rcases mem_inserted _ _ hI t ht with h1 | h1
    · -- a rune of the lower-cased ASCII message
      have hL : isASCII (ToLower U m) = true := isASCII_ToLower U m hasc
      have hd := decodeRunes_ascii _ hL
      rw [ToLower_eq_tokBytes, decodeRunes_tokBytes _ (fun t ht => (lowered_good U m t ht).1)] at hd
      rw [hd, List.mem_map] at h1
      obtain ⟨b, _, rfl⟩ := h1
      unfold Contains
      rw [if_pos (by have := b.toNat_lt; show b.toNat < 0x300; omega)]
    · rw [h1]
      unfold Contains
      rw [if_neg (by decide)]
      exact hmn

theorem normalize_inserted (U : UnicodeTables) (f : swearFilter) (m : Bytes) (ts' : List Tok)
    (hz : f.disableZeroWidthStripping = false)
    (hm : isASCII m = true ∨ f.disableNormalize = true)
    (hins : ZwInserted (decodeRunes m) ts')
    (hlow : U.toLower 0x200B = 0x200B)
    (hlib : f.disableNormalize = false →
      U.isMn 0x200B = false ∧
      U.nfd (ToLower U (tokBytes ts')) = ToLower U (tokBytes ts') ∧
      U.nfc (ToLower U (tokBytes ts')) = ToLower U (tokBytes ts') ∧
      U.internalErr (ToLower U (tokBytes ts')).length (ToLower U (tokBytes ts')) = none) :
    ∃ es : List Tok, (∀ t ∈ es, t.good) ∧ (∀ t ∈ es, t.bytes ≠ zwsp) ∧
      normalizeMessage U f m = .ok (tokBytes es) ∧
      normalizeMessage U f (tokBytes ts') = .ok (tokBytes es) := by
  have hdec : decodeRunes (tokBytes ts') = ts' := decodeRunes_inserted m ts' hins
  have hI := mapFromT_inserted (unicodeToLower U) (unicodeToLower_zw U hlow) _ _ hins
  have hg := lowered_good U m
  have hg' := lowered_good U (tokBytes ts')
  rw [hdec] at hg'
  refine ⟨stages345T f (mapFromT (unicodeToLower U) (decodeRunes m)),
    stages345T_good f _ hg, stages345T_no_zwsp f hz _, ?_, ?_⟩
  · rw [normalizeMessage_ok U f m _ (stage2_ascii U f m hm)]
    rw [ToLower_eq_tokBytes, stages345_chunks f _ hg]
  · rw [normalizeMessage_ok U f _ _ (stage2_inserted U f m ts' hm hins hlow hlib)]
    rw [ToLower_eq_tokBytes, hdec, stages345_chunks f _ hg', stages345T_inserted f hz _ _ hI]

theorem Check_congr (U : UnicodeTables) (f : swearFilter) (m m' : Bytes)
    (h : normalizeMessage U f m' = normalizeMessage U f m) : Check U f m' = Check U f m := by
  unfold Check
  rw [h]

/-! ## Lemmas: tabs replaced by spaces, byte by byte and rune by rune -/

theorem leadInfo_cases (s0 sz lo hi : Nat) (h : leadInfo s0 = some (sz, lo, hi)) :
    (sz = 2 ∧ 0xC2 ≤ s0 ∧ s0 ≤ 0xDF ∧ lo = 0x80) ∨ (sz = 3 ∧ s0 = 0xE0 ∧ lo = 0xA0) ∨
      (sz = 3 ∧ 0xE1 ≤ s0 ∧ s0 ≤ 0xEF ∧ lo = 0x80) ∨ (sz = 4 ∧ s0 = 0xF0 ∧ lo = 0x90) ∨
      (sz = 4 ∧ 0xF1 ≤ s0 ∧ s0 ≤ 0xF4 ∧ lo = 0x80) := by
  unfold leadInfo at h
  repeat' split at h
  all_goals simp at h
  all_goals omega

/-- A rune read from a byte that is not ASCII is not ASCII. -/
theorem DecodeRune_big (b : UInt8) (rest : Bytes) (h0 : 0x80 ≤ b.toNat) :
    0x80 ≤ (DecodeRune (b :: rest)).1 := by
  unfold DecodeRune
  simp only
  rw [if_neg (by omega)]
  cases hli : leadInfo b.toNat with
  | none => simp [RuneError]
  | some info =>
    obtain ⟨sz, lo, hi⟩ := info
    have hc := leadInfo_cases _ _ _ _ hli
    have hr := leadInfo_range _ _ _ _ hli
    simp only
    rcases rest with _ | ⟨b1, rest1⟩
    · simp [RuneError]
    · simp only
      split
      · simp [RuneError]
      · split
        · simp [RuneError]
        · rename_i hrange
          split
          · simp only; omega
          · rcases rest1 with _ | ⟨b2, rest2⟩
            · simp [RuneError]
            · simp only
              split
              · simp [RuneError]
              · split
                · simp only; omega
                · rcases rest2 with _ | ⟨b3, rest3⟩
                  · simp [RuneError]
                  · simp only
                    split
                    · simp [RuneError]
                    · simp only; omega

/-- The byte map of `strings.Replace(s, "\t", " ", -1)`. -/
theorem tab_byte_cont (c : UInt8) (h : isCont (if c = 0x09 then (0x20 : UInt8) else c).toNat = true) :
    c ≠ 0x09 := by
  intro e
  rw [if_pos e] at h
  exact absurd h (by decide)

theorem tab_map_cont (cs : Bytes) (h : ∀ c ∈ cs, isCont c.toNat = true) :
    cs.map (fun c => if c = 0x09 then (0x20 : UInt8) else c) = cs := by
  induction cs with
  | nil => rfl
  | cons c cs ih =>
    rw [List.map_cons, ih (fun x hx => h x (List.mem_cons_of_mem _ hx)),
      if_neg (cont_ne c (h c (List.mem_cons_self _ _))).1]

theorem tab_map_split (cs : Bytes) : ∀ (rest x : Bytes),
    rest.map (fun c => if c = 0x09 then (0x20 : UInt8) else c) = cs ++ x →
    (∀ c ∈ cs, isCont c.toNat = true) → ∃ x0, rest = cs ++ x0 := by
  induction cs with
  | nil => intro rest _ _ _; exact ⟨rest, rfl⟩
  | cons c cs ih =>
    intro rest x hr hc
    cases rest with
    | nil => simp at hr
    | cons a rest =>
      rw [List.map_cons, List.cons_append] at hr
      obtain ⟨h1, h2⟩ := List.cons.inj hr
      have hcc := hc c (List.mem_cons_self _ _)
      rw [← h1] at hcc
      have ha := tab_byte_cont a hcc
      rw [if_neg ha] at h1
      obtain ⟨x0, hx0⟩ := ih rest x h2 (fun y hy => hc y (List.mem_cons_of_mem _ hy))
      exact ⟨x0, by rw [hx0, h1]; rfl⟩

theorem DecodeRune_tab (b : UInt8) (rest : Bytes) :
    DecodeRune (b :: rest.map (fun c => if c = 0x09 then (0x20 : UInt8) else c))
      = DecodeRune (b :: rest) := by
  generalize hd : DecodeRune (b :: rest) = d
  obtain ⟨r, k⟩ := d
  generalize hd' : DecodeRune (b :: rest.map (fun c => if c = 0x09 then (0x20 : UInt8) else c))
    = d'
  obtain ⟨r', k'⟩ := d'
  by_cases hv : r = RuneError ∧ k = 1
  · by_cases hv' : r' = RuneError ∧ k' = 1
    · rw [hv.1, hv.2, hv'.1, hv'.2]
    · exfalso
      rcases DecodeRune_shape b _ r' k' hd' hv' with ⟨_, h1, _⟩ | ⟨_, cs, x, hcs, hlen, _, hcont⟩
      · rw [DecodeRune_ascii b rest h1] at hd
        have := (Prod.mk.inj hd).1
        rw [hv.1] at this
        unfold RuneError at this
        omega
      · obtain ⟨x0, hx0⟩ := tab_map_split cs rest x hcs hcont
        have hl := (DecodeRune_local b _ r' k' hd' hv' x0).1
        have ht : List.take k' (b :: rest.map (fun c => if c = 0x09 then (0x20 : UInt8) else c))
            = b :: cs := by
          rw [hcs, ← hlen, List.take_succ_cons, List.take_left' rfl]
        rw [ht] at hl
        rw [hx0] at hd
        rw [show (b :: cs) ++ x0 = b :: (cs ++ x0) from rfl, hd] at hl
        exact hv' ⟨(Prod.mk.inj hl).1.symm ▸ hv.1, (Prod.mk.inj hl).2.symm ▸ hv.2⟩
  · rcases DecodeRune_shape b _ r k hd hv with ⟨_, h1, _⟩ | ⟨_, cs, x, hcs, hlen, _, hcont⟩
    · rw [DecodeRune_ascii b _ h1] at hd'
      rw [DecodeRune_ascii b _ h1] at hd
      rw [← hd, ← hd']
    · have hl := (DecodeRune_local b _ r k hd hv
        (x.map (fun c => if c = 0x09 then (0x20 : UInt8) else c))).1
      have ht : List.take k (b :: rest) = b :: cs := by
        rw [hcs, ← hlen, List.take_succ_cons, List.take_left' rfl]
      rw [ht] at hl
      rw [hcs, List.map_append, tab_map_cont cs hcont] at hd'
      rw [show (b :: cs) ++ _ = b :: (cs ++ _) from rfl, hd'] at hl
      exact hl

theorem decodeRunes_tab (n : Nat) : ∀ s : Bytes, s.length ≤ n →
    decodeRunes (s.map (fun c => if c = 0x09 then (0x20 : UInt8) else c))
      = (decodeRunes s).map tabTok := by
  induction n with
  | zero =>
    intro s hs
    have : s = [] := List.eq_nil_of_length_eq_zero (by omega)
    rw [this]; rfl
  | succ n ih =>
    intro s hs
    cases s with
    | nil => rfl
    | cons b rest =>
      by_cases hb : b = 0x09
      · subst hb
        rw [List.map_cons, if_pos rfl, decodeRunes_cons_eq, decodeRunes_cons_eq,
          DecodeRune_ascii _ _ (by decide), DecodeRune_ascii _ _ (by decide)]
        simp only [List.map_cons, Nat.sub_self, List.drop_zero]
        rw [ih rest (by simpa using hs)]
        rfl
      · rw [List.map_cons, if_neg hb, decodeRunes_cons_eq, decodeRunes_cons_eq,
          DecodeRune_tab b rest, List.map_cons, ← List.map_drop,
          ih _ (by rw [List.length_drop]; simp at hs; omega)]
        congr 1
        have hk := DecodeRune_size_pos b rest
        generalize hd : DecodeRune (b :: rest) = d at hk
        obtain ⟨r, k⟩ := d
        simp only at hk ⊢
        have htake : List.take k (b :: rest.map (fun c => if c = 0x09 then (0x20 : UInt8) else c))
            = List.take k (b :: rest) := by
          by_cases hv : r = RuneError ∧ k = 1
          · rw [hv.2]; rfl
          · rcases DecodeRune_shape b _ r k hd hv with ⟨h1, _, _⟩ | ⟨_, cs, x, hcs, hlen, _, hcont⟩
            · rw [h1]; rfl
            · rw [hcs, List.map_append, tab_map_cont cs hcont, ← hlen, List.take_succ_cons,
                List.take_succ_cons, List.take_left' rfl, List.take_left' rfl]
        rw [htake]
        unfold tabTok
        rw [if_neg]
        simp only
        intro e
        obtain ⟨k0, rfl⟩ : ∃ k0, k = k0 + 1 := ⟨k - 1, by omega⟩
        rw [List.take_succ_cons] at e
        exact hb (List.cons.inj e).1

/-- A decoded rune is a tab exactly when its byte is the tab byte. -/
theorem decodeRunes_tab_inv (n : Nat) : ∀ s : Bytes, s.length ≤ n →
    ∀ t ∈ decodeRunes s, (t.rune = 0x09 ↔ t.bytes = [0x09]) := by
  induction n with
  | zero =>
    intro s hs t ht
    have : s = [] := List.eq_nil_of_length_eq_zero (by omega)
    rw [this] at ht
    simp [decodeRunes, decodeFrom] at ht
  | succ n ih =>
    intro s hs t ht
    cases s with
    | nil => simp [decodeRunes, decodeFrom] at ht
    | cons b rest =>
      rw [decodeRunes_cons_eq, List.mem_cons] at ht
      rcases ht with rfl | ht
      · by_cases h0 : b.toNat < 0x80
        · rw [DecodeRune_ascii b rest h0]
          simp only [List.take_succ_cons, List.take_zero, List.cons.injEq, and_true]
          constructor
          · intro h; apply UInt8.ext; exact h
          · intro h; rw [h]; rfl
        · have hbig := DecodeRune_big b rest (by omega)
          have hk := DecodeRune_size_pos b rest
          generalize DecodeRune (b :: rest) = d at hbig hk
          obtain ⟨r, k⟩ := d
          simp only at hbig hk ⊢
          obtain ⟨k0, rfl⟩ : ∃ k0, k = k0 + 1 := ⟨k - 1, by omega⟩
          constructor
          · intro h; omega
          · intro h
            rw [List.take_succ_cons] at h
            have := (List.cons.inj h).1
            rw [this] at h0
            exact absurd (by decide) h0
      · exact ih _ (by rw [List.length_drop]; simp at hs; omega) t ht

/-! ## Lemmas: the vocabulary and the options -/

theorem insert_keys (m : WordSet) (w x : Bytes) :
    x ∈ (m.insert w).keys ↔ x ∈ m.keys ∨ x = w := by
  unfold WordSet.insert
  split
  · rename_i h
    constructor
    · exact Or.inl
    · rintro (h1 | rfl)
      · exact h1
      · exact h
  · simp

theorem delete_keys (m : WordSet) (w x : Bytes) :
    x ∈ (m.delete w).keys ↔ x ∈ m.keys ∧ x ≠ w := by
  unfold WordSet.delete
  show x ∈ m.keys.erase w ↔ _
  rw [m.nodup.mem_erase_iff]
  tauto

theorem Add_keys (f : swearFilter) (ws : List Bytes) (x : Bytes) :
    x ∈ (Add f ws).BadWords.keys ↔ x ∈ f.BadWords.keys ∨ x ∈ ws := by
  unfold Add
  induction ws generalizing f with
  | nil => simp
  | cons w ws ih =>
    rw [List.foldl_cons, ih, List.mem_cons]
    show x ∈ (f.BadWords.insert w).keys ∨ _ ↔ _
    rw [insert_keys]
    tauto

theorem Delete_keys (f : swearFilter) (ws : List Bytes) (x : Bytes) :
    x ∈ (Delete f ws).BadWords.keys ↔ x ∈ f.BadWords.keys ∧ x ∉ ws := by
  unfold Delete
  induction ws generalizing f with
  | nil => simp
  | cons w ws ih =>
    rw [List.foldl_cons, ih, List.mem_cons]
    show x ∈ (f.BadWords.delete w).keys ∧ _ ↔ _
    rw [delete_keys]
    tauto

/-- The settings of a filter, without its words. -/
theorem Add_flags (f : swearFilter) (ws : List Bytes) :
    Add f ws = { f with BadWords := (Add f ws).BadWords } := by
  unfold Add
  induction ws generalizing f with
  | nil => rfl
  | cons w ws ih =>
    rw [List.foldl_cons, ih]

theorem Delete_flags (f : swearFilter) (ws : List Bytes) :
    Delete f ws = { f with BadWords := (Delete f ws).BadWords } := by
  unfold Delete
  induction ws generalizing f with
  | nil => rfl
  | cons w ws ih =>
    rw [List.foldl_cons, ih]

theorem New_eq_Add (ws : List Bytes) (opts : List FilterOption) :
    New ws opts = Add (New [] opts) ws := rfl

theorem insert_mem (m : WordSet) (w : Bytes) (h : w ∈ m.keys) : m.insert w = m := by
  unfold WordSet.insert
  rw [dif_pos h]

theorem delete_not_mem (m : WordSet) (w : Bytes) (h : w ∉ m.keys) : m.delete w = m := by
  unfold WordSet.delete
  obtain ⟨k, hk⟩ := m
  congr 1
  exact List.erase_of_not_mem h

theorem named_cases (o : FilterOption) (h : o ∈ namedOptions) :
    o = DisableNormalize ∨ o = DisableSpacedTab ∨ o = DisableMultiWhitespaceStripping ∨
      o = DisableZeroWidthStripping ∨ o = EnableSpacedBypass := by
  simpa [namedOptions] using h

theorem named_words (o : FilterOption) (h : o ∈ namedOptions) (f : swearFilter) :
    (o f).BadWords = f.BadWords := by
  rcases named_cases o h with rfl | rfl | rfl | rfl | rfl <;> rfl

theorem named_bypass (o : FilterOption) (h : o ∈ namedOptions) (f : swearFilter) :
    (o f).enableSpacedBypass = true ↔ f.enableSpacedBypass = true ∨ o = EnableSpacedBypass := by
  have hne : ∀ o' : FilterOption, (∀ s, (o' s).enableSpacedBypass = s.enableSpacedBypass) →
      ((o' f).enableSpacedBypass = true ↔ f.enableSpacedBypass = true ∨ o' = EnableSpacedBypass) := by
    intro o' ho'
    rw [ho']
    constructor
    · exact Or.inl
    · rintro (h1 | e)
      · exact h1
      · have := ho' (withOptions false false false false false)
        rw [e] at this
        exact absurd this (by decide)
  rcases named_cases o h with rfl | rfl | rfl | rfl | rfl
  · exact hne _ (fun _ => rfl)
  · exact hne _ (fun _ => rfl)
  · exact hne _ (fun _ => rfl)
  · exact hne _ (fun _ => rfl)
  · exact ⟨fun _ => Or.inr rfl, fun _ => rfl⟩

theorem foldl_opts (opts : List FilterOption) (h : ∀ o ∈ opts, o ∈ namedOptions)
    (f : swearFilter) :
    (opts.foldl (fun f opt => opt f) f).BadWords = f.BadWords ∧
    ((opts.foldl (fun f opt => opt f) f).enableSpacedBypass = true ↔
      f.enableSpacedBypass = true ∨ EnableSpacedBypass ∈ opts) := by
  induction opts generalizing f with
  | nil => simp
  | cons o opts ih =>
    have ho := h o (List.mem_cons_self _ _)
    obtain ⟨h1, h2⟩ := ih (fun o' ho' => h o' (List.mem_cons_of_mem _ ho')) (o f)
    rw [List.foldl_cons]
    refine ⟨by rw [h1, named_words o ho], ?_⟩
    rw [h2, named_bypass o ho, List.mem_cons]
    constructor
    · rintro ((h3 | h3) | h3)
      · exact Or.inl h3
      · exact Or.inr (Or.inl h3.symm)
      · exact Or.inr (Or.inr h3)
    · rintro (h3 | h3 | h3)
      · exact Or.inl (Or.inl h3)
      · exact Or.inl (Or.inr h3.symm)
      · exact Or.inr h3

theorem New_keys (ws : List Bytes) (opts : List FilterOption)
    (h : ∀ o ∈ opts, o ∈ namedOptions) (x : Bytes) :
    x ∈ (New ws opts).BadWords.keys ↔ x ∈ ws := by
  rw [New_eq_Add, Add_keys]
  have : (New [] opts).BadWords = WordSet.empty := (foldl_opts opts h _).1
  rw [this]
  simp [WordSet.empty]

theorem filterMap_sublist {α β : Type} (f g : α → Option β) (l : List α)
    (h : ∀ x ∈ l, f x = none ∨ f x = g x) : List.Sublist (l.filterMap f) (l.filterMap g) := by
  induction l with
  | nil => exact List.Sublist.slnil
  | cons a l ih =>
    have ih := ih (fun x hx => h x (List.mem_cons_of_mem _ hx))
    rcases h a (List.mem_cons_self _ _) with h1 | h1
    · rw [List.filterMap_cons, h1]
      simp only
      rw [List.filterMap_cons]
      cases g a with
      | none => exact ih
      | some b => exact List.Sublist.cons _ ih
    · rw [List.filterMap_cons, List.filterMap_cons, h1]
      cases g a with
      | none => exact ih
      | some b => exact List.Sublist.cons₂ _ ih

theorem normalizeMessage_bypass (U : UnicodeTables) (f : swearFilter) (b : Bool) (m : Bytes) :
    normalizeMessage U { f with enableSpacedBypass := b } m = normalizeMessage U f m := rfl

theorem wordMatch_off (N k : Bytes) :
    wordMatch false N k = none ∨ wordMatch false N k = wordMatch true N k := by
  unfold wordMatch
  by_cases h1 : k = str " "
  · left; rw [if_pos h1]
  · by_cases h2 : Index N k ≠ -1
    · right; rw [if_neg h1, if_pos h2, if_neg h1, if_pos h2]
    · left; rw [if_neg h1, if_neg h2, if_neg (by simp)]

theorem New_flags (ws : List Bytes) (opts : List FilterOption) :
    New ws opts = { New [] opts with BadWords := (New ws opts).BadWords } :=
  Add_flags (New [] opts) ws

theorem New_length (ws : List Bytes) : (New ws []).BadWords.keys.length = ws.dedup.length := by
  apply List.Perm.length_eq
  rw [List.perm_ext_iff_of_nodup (New ws []).BadWords.nodup (List.nodup_dedup ws)]
  intro x
  rw [New_keys ws [] (by simp), List.mem_dedup]

/-! ## Lemmas: the normalize stage on an accented message -/

set_option maxRecDepth 100000 in
theorem chain_accents (U : UnicodeTables)
    (hnfd : U.nfd (str "fóó") = str "fo\u0301o\u0301") (hmn : U.isMn 0x301 = true)
    (herr : U.internalErr 5 (str "fóó") = none) :
    chainTransform U 5 (str "fóó") = .ok (str "foo\x00\x00") := by
  have hs : str "fóó" = [0x66, 0xC3, 0xB3, 0xC3, 0xB3] := by decide
  have hs' : str "fo\u0301o\u0301" = [0x66, 0x6F, 0xCC, 0x81, 0x6F, 0xCC, 0x81] := by decide
  have ho : str "foo\x00\x00" = [0x66, 0x6F, 0x6F, 0, 0] := by decide
  rw [hs, hs'] at hnfd
  rw [hs] at herr ⊢
  rw [ho]
  have ha : isASCII [0x66, 0xC3, 0xB3, 0xC3, 0xB3] = false := by decide
  have hd : decodeRunes [0x66, 0x6F, 0xCC, 0x81, 0x6F, 0xCC, 0x81]
      = [⟨0x66, [0x66]⟩, ⟨0x6F, [0x6F]⟩, ⟨0x301, [0xCC, 0x81]⟩, ⟨0x6F, [0x6F]⟩,
        ⟨0x301, [0xCC, 0x81]⟩] := by decide
  have hr : Remove (Contains U) [0x66, 0x6F, 0xCC, 0x81, 0x6F, 0xCC, 0x81]
      = [0x66, 0x6F, 0x6F] := by
    unfold Remove
    rw [hd]
    simp [Tok.invalid, Contains, hmn, RuneError]
  have hc : NFC U [0x66, 0x6F, 0x6F] = [0x66, 0x6F, 0x6F] := by
    unfold NFC
    rw [if_pos (by decide)]
  unfold chainTransform NFD
  rw [ha]
  simp only [Bool.false_eq_true, if_false, hnfd, hr, hc, herr]
  decide

set_option maxRecDepth 100000 in
theorem lower_accents (U : UnicodeTables) (hlow : U.toLower 0xF3 = 0xF3) :
    ToLower U (str "fóó") = str "fóó" := by
  have hd : decodeRunes (str "fóó")
      = [⟨0x66, [0x66]⟩, ⟨0xF3, [0xC3, 0xB3]⟩, ⟨0xF3, [0xC3, 0xB3]⟩] := by decide
  have hb : tokBytes [⟨0x66, [0x66]⟩, ⟨0xF3, [0xC3, 0xB3]⟩, ⟨0xF3, [0xC3, 0xB3]⟩]
      = str "fóó" := by decide
  rw [ToLower_eq_tokBytes, hd, ← hb]
  simp [mapFromT, unicodeToLower, hlow, RuneError]

set_option maxRecDepth 100000 in
theorem normalize_accents (U : UnicodeTables) (hlow : U.toLower 0xF3 = 0xF3)
    (hnfd : U.nfd (str "fóó") = str "fo\u0301o\u0301") (hmn : U.isMn 0x301 = true)
    (herr : U.internalErr 5 (str "fóó") = none) (ws : List Bytes) :
    normalizeMessage U (New ws []) (str "fóó") = .ok (str "foo\x00\x00") := by
  have h2 : stage2 U (New ws []) (ToLower U (str "fóó")) = .ok (str "foo\x00\x00") := by
    rw [lower_accents U hlow]
    unfold stage2
    rw [New_flags]
    have hl : (str "fóó").length = 5 := by decide
    simp only [hl]
    exact chain_accents U hnfd hmn herr
  rw [normalizeMessage_ok U _ _ _ h2, New_flags]
  have : stage5 (New [] []) (stage4 (New [] []) (stage3 (New [] []) (str "foo\x00\x00")))
      = str "foo\x00\x00" := by decide
  exact congrArg Except.ok this

theorem chainTransform_ok (U : UnicodeTables) (n : Nat) (src N : Bytes)
    (h : chainTransform U n src = .ok N) :
    (NFC U (Remove (Contains U) (NFD U src))).length ≤ n ∧
      N = NFC U (Remove (Contains U) (NFD U src)) ++
        List.replicate (n - (NFC U (Remove (Contains U) (NFD U src))).length) 0 := by
  unfold chainTransform at h
  simp only at h
  split at h
  · exact absurd h (by simp)
  · rename_i hle
    split at h
    · exact absurd h (by simp)
    · injection h with h
      exact ⟨by omega, h.symm⟩

theorem chainTransform_short (U : UnicodeTables) (n : Nat) (src : Bytes)
    (h : n < (NFC U (Remove (Contains U) (NFD U src))).length) :
    chainTransform U n src = .error .ErrShortDst := by
  unfold chainTransform
  simp only
  rw [if_pos h]

theorem encTok_tab (x : Nat) (h : (encTok x).bytes = [0x09]) : x = 0x09 := by
  unfold encTok EncodeRune at h
  simp only at h
  split at h
  · rename_i hx
    have := (List.cons.inj h).1
    have h2 := congrArg UInt8.toNat this
    rw [toNat_ofNat', Nat.mod_eq_of_lt (by omega)] at h2
    exact h2
  · split at h
    · simp at h
    · split at h
      · simp at h
      · split at h <;> simp at h

theorem mapRestT_tab (f : Nat → Nat) (hf20 : f 0x20 = 0x20) (hf9 : f 0x09 = 0x09)
    (hinj : ∀ r, f r = 0x09 → r = 0x09) (ts : List Tok)
    (hinv : ∀ t ∈ ts, (t.rune = 0x09 ↔ t.bytes = [0x09])) :
    mapRestT f (ts.map tabTok) = (mapRestT f ts).map tabTok := by
  unfold mapRestT
  rw [List.map_map, List.map_map]
  apply List.map_congr_left
  intro t ht
  simp only [Function.comp]
  by_cases hb : t.bytes = [0x09]
  · have hr := (hinv t ht).2 hb
    unfold tabTok
    rw [if_pos hb, hr, hf9]
    simp only [hf20]
    decide
  · have hr : t.rune ≠ 0x09 := fun e => hb ((hinv t ht).1 e)
    have : (encTok (f t.rune)).bytes ≠ [0x09] := fun e => hr (hinj _ (encTok_tab _ e))
    unfold tabTok
    rw [if_neg hb, if_neg this]

theorem mapFromT_tab (f : Nat → Nat) (hf20 : f 0x20 = 0x20) (hf9 : f 0x09 = 0x09)
    (hinj : ∀ r, f r = 0x09 → r = 0x09) (ts : List Tok)
    (hinv : ∀ t ∈ ts, (t.rune = 0x09 ↔ t.bytes = [0x09])) :
    mapFromT f (ts.map tabTok) = (mapFromT f ts).map tabTok := by
  induction ts with
  | nil => rfl
  | cons t ts ih =>
    have ih := ih (fun u hu => hinv u (List.mem_cons_of_mem _ hu))
    have hrest := mapRestT_tab f hf20 hf9 hinj ts (fun u hu => hinv u (List.mem_cons_of_mem _ hu))
    have ht := hinv t (List.mem_cons_self _ _)
    by_cases hb : t.bytes = [0x09]
    · have hr := ht.2 hb
      have htt : tabTok t = { rune := 0x20, bytes := [0x20] } := by
        unfold tabTok; rw [if_pos hb]
      rw [List.map_cons, htt]
      unfold mapFromT
      simp only [hf20, hr, hf9]
      rw [if_pos (Or.inl ⟨trivial, by decide⟩), if_pos (Or.inl ⟨trivial, by decide⟩),
        List.map_cons, htt, ih]
    · have hr : t.rune ≠ 0x09 := fun e => hb (ht.1 e)
      have htt : tabTok t = t := by unfold tabTok; rw [if_neg hb]
      rw [List.map_cons, htt]
      unfold mapFromT
      split
      · rw [List.map_cons, htt, ih]
      · have : (encTok (f t.rune)).bytes ≠ [0x09] := fun e => hr (hinj _ (encTok_tab _ e))
        rw [List.map_cons, hrest]
        congr 1
        unfold tabTok
        rw [if_neg this]

theorem unicodeToLower_tab (U : UnicodeTables) (hlow : ∀ r, 0x7F < r → U.toLower r ≠ 0x09) :
    unicodeToLower U 0x20 = 0x20 ∧ unicodeToLower U 0x09 = 0x09 ∧
      ∀ r, unicodeToLower U r = 0x09 → r = 0x09 := by
  refine ⟨by simp [unicodeToLower], by simp [unicodeToLower], ?_⟩
  intro r h
  unfold unicodeToLower at h
  split at h
  · split at h <;> omega
  · rename_i hr; exact absurd h (hlow r (by omega))

/-- Lower-casing and the replacement of tabs by spaces commute. -/
theorem ToLower_tab (U : UnicodeTables) (hlow : ∀ r, 0x7F < r → U.toLower r ≠ 0x09) (s : Bytes) :
    ToLower U (s.map (fun c => if c = 0x09 then (0x20 : UInt8) else c))
      = (ToLower U s).map (fun c => if c = 0x09 then (0x20 : UInt8) else c) := by
  obtain ⟨h1, h2, h3⟩ := unicodeToLower_tab U hlow
  rw [ToLower_eq_tokBytes, ToLower_eq_tokBytes, decodeRunes_tab _ s (le_refl _),
    mapFromT_tab _ h1 h2 h3 _ (decodeRunes_tab_inv _ s (le_refl _)),
    tab_chunks _ (lowered_good U s)]

/-- On ASCII text no table is consulted. -/
theorem ToLower_tab_ascii (U : UnicodeTables) (s : Bytes) (h : isASCII s = true) :
    ToLower U (s.map (fun c => if c = 0x09 then (0x20 : UInt8) else c))
      = (ToLower U s).map (fun c => if c = 0x09 then (0x20 : UInt8) else c) := by
  have hs : isASCII (s.map (fun c => if c = 0x09 then (0x20 : UInt8) else c)) = true := by
    unfold isASCII at h ⊢
    rw [List.all_eq_true] at h ⊢
    intro x hx
    rw [List.mem_map] at hx
    obtain ⟨c, hc, rfl⟩ := hx
    split
    · decide
    · exact h c hc
  have key : ∀ U' : UnicodeTables, (∀ r, 0x7F < r → U'.toLower r ≠ 0x09) →
      ToLower U (s.map (fun c => if c = 0x09 then (0x20 : UInt8) else c))
        = (ToLower U s).map (fun c => if c = 0x09 then (0x20 : UInt8) else c) := by
    intro U' hU'
    rw [ToLower_ascii U U' _ hs, ToLower_ascii U U' _ h]
    exact ToLower_tab U' hU' s
  apply key sampleTables
  intro r hr
  show (if 0xC0 ≤ r ∧ r ≤ 0xDE ∧ r ≠ 0xD7 then r + 0x20 else r) ≠ 0x09
  split <;> omega

theorem replaceFrom_mem (old : Bytes) (s : Bytes) : ∀ (k : Nat) (x : UInt8),
    x ∈ replaceFrom old [] k s → x ∈ s := by
  induction s with
  | nil => intro k x h; cases k <;> simp [replaceFrom] at h
  | cons b t ih =>
    intro k x h
    cases k with
    | zero =>
      unfold replaceFrom at h
      split at h
      · exact List.mem_cons_of_mem _ (ih _ x (by simpa using h))
      · rw [List.mem_cons] at h ⊢
        rcases h with h | h
        · exact Or.inl h
        · exact Or.inr (ih _ x h)
    | succ k =>
      unfold replaceFrom at h
      exact List.mem_cons_of_mem _ (ih _ x h)

theorem deleteFrom_mem (re : Regex) (ts : List Tok) : ∀ (a : Bool) (k : Nat) (x : UInt8),
    x ∈ deleteFrom re a k ts → x ∈ tokBytes ts := by
  induction ts with
  | nil => intro a k x h; cases k <;> simp [deleteFrom] at h
  | cons t ts ih =>
    intro a k x h
    rw [tokBytes_cons, List.mem_append]
    cases k with
    | zero =>
      unfold deleteFrom at h
      split at h
      · exact Or.inr (ih _ _ x h)
      · rw [List.mem_append] at h
        rcases h with h | h
        · exact Or.inl h
        · exact Or.inr (ih _ _ x h)
    | succ k =>
      unfold deleteFrom at h
      exact Or.inr (ih _ _ x h)

theorem DeleteAll_mem (re : Regex) (s : Bytes) (x : UInt8) (h : x ∈ DeleteAll re s) : x ∈ s := by
  have := deleteFrom_mem re _ _ _ x h
  rwa [tokBytes_decodeRunes] at this

theorem stage4_mem (f : swearFilter) (s : Bytes) (x : UInt8) (h : x ∈ stage4 f s) : x ∈ s := by
  unfold stage4 at h
  split at h
  · rw [Replace_zwsp] at h
    exact replaceFrom_mem _ _ _ x h
  · exact h

theorem stage5_mem (f : swearFilter) (s : Bytes) (x : UInt8) (h : x ∈ stage5 f s) : x ∈ s := by
  unfold stage5 at h
  split at h
  · exact DeleteAll_mem _ _ x (DeleteAll_mem _ _ x h)
  · exact h

theorem stage3_idem (f : swearFilter) (s : Bytes) :
    stage3 f (s.map (fun c => if c = 0x09 then (0x20 : UInt8) else c)) = stage3 f s ∨
      f.disableSpacedTab = true := by
  cases h : f.disableSpacedTab with
  | true => exact Or.inr rfl
  | false =>
    left
    unfold stage3
    rw [h]
    simp only [Bool.not_false, if_true]
    rw [Replace_tab, Replace_tab, List.map_map]
    apply List.map_congr_left
    intro c _
    simp only [Function.comp]
    by_cases hc : c = 0x09
    · rw [if_pos hc]; decide
    · rw [if_neg hc, if_neg hc]

theorem stage3_no_tab (f : swearFilter) (h : f.disableSpacedTab = false) (s : Bytes) :
    (0x09 : UInt8) ∉ stage3 f s := by
  unfold stage3
  rw [h]
  simp only [Bool.not_false, if_true]
  rw [Replace_tab]
  intro hm
  rw [List.mem_map] at hm
  obtain ⟨c, _, hc⟩ := hm
  split at hc
  · exact absurd hc (by decide)
  · rename_i hne; exact hne hc

theorem isASCII_tab (s : Bytes) (h : isASCII s = true) :
    isASCII (s.map (fun c => if c = 0x09 then (0x20 : UInt8) else c)) = true := by
  unfold isASCII at h ⊢
  rw [List.all_eq_true] at h ⊢
  intro x hx
  rw [List.mem_map] at hx
  obtain ⟨c, hc, rfl⟩ := hx
  split
  · decide
  · exact h c hc

theorem normalize_tab (U : UnicodeTables) (f : swearFilter) (m : Bytes)
    (ht : f.disableSpacedTab = false)
    (hL : ToLower U (m.map (fun c => if c = 0x09 then (0x20 : UInt8) else c))
      = (ToLower U m).map (fun c => if c = 0x09 then (0x20 : UInt8) else c))
    (hS : stage2 U f ((ToLower U m).map (fun c => if c = 0x09 then (0x20 : UInt8) else c))
      = (stage2 U f (ToLower U m)).map
          (fun s => s.map (fun c => if c = 0x09 then (0x20 : UInt8) else c))) :
    normalizeMessage U f (m.map (fun c => if c = 0x09 then (0x20 : UInt8) else c))
      = normalizeMessage U f m := by
  rw [normalizeMessage_eq, normalizeMessage_eq, hL, hS]
  cases stage2 U f (ToLower U m) with
  | error e => rfl
  | ok S =>
    show Except.ok (stage5 f (stage4 f (stage3 f
      (S.map (fun c => if c = 0x09 then (0x20 : UInt8) else c)))))
      = Except.ok (stage5 f (stage4 f (stage3 f S)))
    rcases stage3_idem f S with h | h
    · rw [h]
    · rw [ht] at h; exact absurd h (by decide)

theorem stage2_tab_ascii (U : UnicodeTables) (f : swearFilter) (m : Bytes)
    (h : isASCII m = true) :
    stage2 U f ((ToLower U m).map (fun c => if c = 0x09 then (0x20 : UInt8) else c))
      = (stage2 U f (ToLower U m)).map
          (fun s => s.map (fun c => if c = 0x09 then (0x20 : UInt8) else c)) := by
  have hL := isASCII_ToLower U m h
  unfold stage2
  cases f.disableNormalize with
  | true => rfl
  | false =>
    simp only [Bool.not_false, if_true]
    rw [chainTransform_ascii U _ (isASCII_tab _ hL), chainTransform_ascii U _ hL]
    rfl

theorem normalize_no_tab (U : UnicodeTables) (f : swearFilter) (m N : Bytes)
    (ht : f.disableSpacedTab = false) (h : normalizeMessage U f m = .ok N) :
    (0x09 : UInt8) ∉ N := by
  rw [normalizeMessage_eq] at h
  cases hs : stage2 U f (ToLower U m) with
  | error e => rw [hs] at h; exact absurd h (by simp [Except.map])
  | ok S =>
    rw [hs] at h
    have : stage5 f (stage4 f (stage3 f S)) = N := by
      simpa [Except.map] using h
    rw [← this]
    intro hm
    exact stage3_no_tab f ht S (stage4_mem f _ _ (stage5_mem f _ _ hm))

/-! ## Lemmas: stages 3 to 5 change their result no further -/

theorem dropRuns_fixed (ts : List Tok) : ∀ p : Bool, List.Chain' noSpacePair ts →
    (p = true → ∀ t, ts.head? = some t → isSpaceTok t = false) → dropRuns p ts = ts := by
  induction ts with
  | nil => intro p _ _; rfl
  | cons t ts ih =>
    intro p hc hp
    rw [dropRuns_cons]
    have hc' : List.Chain' noSpacePair ts := (List.chain'_cons'.mp hc).2
    have hnext : isSpaceTok t = true → ∀ u, ts.head? = some u → isSpaceTok u = false := by
      intro ht u hu
      have := (List.chain'_cons'.mp hc).1 u hu
      unfold noSpacePair at this
      cases hsu : isSpaceTok u with
      | false => rfl
      | true => exact absurd ⟨ht, hsu⟩ this
    have hcond : (isSpaceTok t && (p || decide (1 ≤ (ts.takeWhile isSpaceTok).length))) = false := by
      cases ht : isSpaceTok t with
      | false => rfl
      | true =>
        have hp' : p = false := by
          cases p with
          | false => rfl
          | true => have := hp rfl t rfl; rw [ht] at this; exact absurd this (by decide)
        have hn : (ts.takeWhile isSpaceTok).length = 0 := by
          cases ts with
          | nil => rfl
          | cons u us =>
            have := hnext ht u rfl
            rw [List.takeWhile_cons, this]
            rfl
        rw [hp', hn]
        rfl
    rw [hcond]
    simp only [Bool.false_eq_true, if_false]
    rw [ih (isSpaceTok t) hc' (fun ht => hnext ht)]

theorem trimSpace_fixed (ts : List Tok)
    (hh : ∀ t, ts.head? = some t → isSpaceTok t = false)
    (hl : ts = [] ∨ ∃ l x, ts = l ++ [x] ∧ isSpaceTok x = false) : trimSpace ts = ts := by
  unfold trimSpace
  have h1 : ts.dropWhile isSpaceTok = ts := by
    cases ts with
    | nil => rfl
    | cons t ts => rw [List.dropWhile_cons, hh t rfl]; rfl
  rw [h1]
  rcases hl with rfl | ⟨l, x, rfl, hx⟩
  · rfl
  · rw [List.rdropWhile_concat, hx]
    rfl

theorem stage5T_idem (ts : List Tok) :
    dropRuns false (trimSpace (dropRuns false (trimSpace ts))) = dropRuns false (trimSpace ts) := by
  have hhead : ∀ t, (dropRuns false (trimSpace ts)).head? = some t → isSpaceTok t = false := by
    rw [dropRuns_head_keep false _ (trimSpace_head _)]
    exact trimSpace_head _
  have hlast : dropRuns false (trimSpace ts) = [] ∨
      ∃ l x, dropRuns false (trimSpace ts) = l ++ [x] ∧ isSpaceTok x = false := by
    rcases trimSpace_last ts with h3 | ⟨l, x, h3, hx⟩
    · left; rw [h3]; rfl
    · right; rw [h3, dropRuns_concat false l x hx]; exact ⟨_, _, rfl, hx⟩
  rw [trimSpace_fixed _ hhead hlast]
  exact dropRuns_fixed _ false (dropRuns_chain _ _) (fun h => absurd h (by decide))

theorem tabTok_idem (t : Tok) : tabTok (tabTok t) = tabTok t := by
  unfold tabTok
  by_cases h : t.bytes = [0x09]
  · rw [if_pos h]; rfl
  · rw [if_neg h, if_neg h]

theorem stages345T_idem (f : swearFilter) (cs : List Tok) :
    stages345T f (stages345T f cs) = stages345T f cs := by
  -- the runes of the result are fixed by stage 3 and stage 4
  have h3 : (if f.disableSpacedTab then stages345T f cs else (stages345T f cs).map tabTok)
      = stages345T f cs := by
    cases ht : f.disableSpacedTab with
    | true => rfl
    | false =>
      simp only [Bool.false_eq_true, if_false]
      conv_rhs => rw [← List.map_id (stages345T f cs)]
      apply List.map_congr_left
      intro t hm
      have hs := stages345T_sub f cs t hm
      rw [ht] at hs
      simp only [Bool.false_eq_true, if_false] at hs
      have hmem : t ∈ cs.map tabTok := by
        cases hz : f.disableZeroWidthStripping with
        | true => rw [hz] at hs; exact hs
        | false =>
          rw [hz] at hs
          simp only [Bool.false_eq_true, if_false] at hs
          exact List.mem_of_mem_filter hs
      rw [List.mem_map] at hmem
      obtain ⟨u, _, rfl⟩ := hmem
      exact tabTok_idem u
  have h4 : (if f.disableZeroWidthStripping then stages345T f cs
      else (stages345T f cs).filter (fun t => decide (t.bytes ≠ zwsp))) = stages345T f cs := by
    cases hz : f.disableZeroWidthStripping with
    | true => rfl
    | false =>
      simp only [Bool.false_eq_true, if_false]
      rw [List.filter_eq_self]
      intro t hm
      simpa using stages345T_no_zwsp f hz cs t hm
  have h5 : (if f.disableMultiWhitespaceStripping then stages345T f cs
      else dropRuns false (trimSpace (stages345T f cs))) = stages345T f cs := by
    cases hm : f.disableMultiWhitespaceStripping with
    | true => rfl
    | false =>
      simp only [Bool.false_eq_true, if_false]
      have : stages345T f cs = dropRuns false (trimSpace
          (if f.disableZeroWidthStripping then
            (if f.disableSpacedTab then cs else cs.map tabTok)
          else (if f.disableSpacedTab then cs else cs.map tabTok).filter
            (fun t => decide (t.bytes ≠ zwsp)))) := by
        unfold stages345T
        rw [hm]
        rfl
      rw [this]
      exact stage5T_idem _
  have hdef : ∀ X : List Tok, stages345T f X =
      (if f.disableMultiWhitespaceStripping then
        (if f.disableZeroWidthStripping then (if f.disableSpacedTab then X else X.map tabTok)
          else (if f.disableSpacedTab then X else X.map tabTok).filter
            (fun t => decide (t.bytes ≠ zwsp)))
      else dropRuns false (trimSpace
        (if f.disableZeroWidthStripping then (if f.disableSpacedTab then X else X.map tabTok)
          else (if f.disableSpacedTab then X else X.map tabTok).filter
            (fun t => decide (t.bytes ≠ zwsp))))) := fun _ => rfl
  rw [hdef (stages345T f cs), h3, h4, h5]

/-- Stages 3 to 5 change their own result no further, on well-formed text. -/
theorem stages345_idem (f : swearFilter) (S : Bytes)
    (h : ∀ t ∈ decodeRunes S, t.invalid = false) :
    stage5 f (stage4 f (stage3 f (stage5 f (stage4 f (stage3 f S)))))
      = stage5 f (stage4 f (stage3 f S)) := by
  have hg : ∀ t ∈ decodeRunes S, t.good := fun t ht => good_of_decodeRunes S t ht (h t ht)
  have hS : S = tokBytes (decodeRunes S) := (tokBytes_decodeRunes S).symm
  rw [hS, stages345_chunks f _ hg, stages345_chunks f _ (stages345T_good f _ hg),
    stages345T_idem]

theorem ToLower_fixed (U : UnicodeTables) (s : Bytes) (h : isASCII s = true)
    (hu : ∀ c ∈ s, ¬ (0x41 ≤ c ∧ c ≤ 0x5A)) : ToLower U s = s := by
  unfold ToLower
  rw [if_pos h, if_pos]
  rw [Bool.not_eq_true', List.any_eq_false]
  intro c hc
  simpa using hu c hc

theorem ToLower_no_upper (U : UnicodeTables) (s : Bytes) (h : isASCII s = true) :
    ∀ c ∈ ToLower U s, ¬ (0x41 ≤ c ∧ c ≤ 0x5A) := by
  unfold ToLower
  rw [if_pos h]
  split
  · rename_i hn
    rw [Bool.not_eq_true', List.any_eq_false] at hn
    intro c hc
    simpa using hn c hc
  · intro c hc
    rw [List.mem_map] at hc
    obtain ⟨a, _, rfl⟩ := hc
    split
    · rename_i hup
      rw [upper_iff] at hup ⊢
      rw [toNat_add]
      have : (0x20 : UInt8).toNat = 0x20 := rfl
      rw [this]
      omega
    · rename_i hup; exact hup

theorem stage3_mem (f : swearFilter) (s : Bytes) (x : UInt8) (h : x ∈ stage3 f s) :
    x ∈ s ∨ x = 0x20 := by
  unfold stage3 at h
  split at h
  · rw [Replace_tab, List.mem_map] at h
    obtain ⟨c, hc, rfl⟩ := h
    split
    · exact Or.inr rfl
    · exact Or.inl hc
  · exact Or.inl h

/-- On an ASCII message the pipeline succeeds, and its result is again ASCII
without upper-case letters. -/
theorem normalize_ascii_ok (U : UnicodeTables) (f : swearFilter) (m : Bytes)
    (h : isASCII m = true) :
    normalizeMessage U f m = .ok (stage5 f (stage4 f (stage3 f (ToLower U m)))) ∧
    isASCII (stage5 f (stage4 f (stage3 f (ToLower U m)))) = true ∧
    (∀ c ∈ stage5 f (stage4 f (stage3 f (ToLower U m))), ¬ (0x41 ≤ c ∧ c ≤ 0x5A)) ∧
    (∀ t ∈ decodeRunes (ToLower U m), t.invalid = false) := by
  have hL := isASCII_ToLower U m h
  have hmem : ∀ x ∈ stage5 f (stage4 f (stage3 f (ToLower U m))), x ∈ ToLower U m ∨ x = 0x20 :=
    fun x hx => stage3_mem f _ x (stage4_mem f _ x (stage5_mem f _ x hx))
  refine ⟨normalizeMessage_ok U f m _ (stage2_ascii U f m (Or.inl h)), ?_, ?_, ?_⟩
  · unfold isASCII at hL ⊢
    rw [List.all_eq_true] at hL ⊢
    intro x hx
    rcases hmem x hx with h1 | rfl
    · exact hL x h1
    · decide
  · intro c hc
    rcases hmem c hc with h1 | rfl
    · exact ToLower_no_upper U m h c h1
    · decide
  · intro t ht
    rw [decodeRunes_ascii _ hL, List.mem_map] at ht
    obtain ⟨b, hb, rfl⟩ := ht
    have hb' : b.toNat < 0x80 := by
      unfold isASCII at hL
      rw [List.all_eq_true] at hL
      have := hL b hb
      rw [decide_eq_true_eq, lt_iff_toNat] at this
      exact this
    unfold Tok.invalid RuneError
    simp only [Bool.and_eq_false_imp, beq_iff_eq]
    intro e
    omega

theorem normalize_ascii_idem (U : UnicodeTables) (f : swearFilter) (m : Bytes)
    (h : isASCII m = true) :
    ∃ N, normalizeMessage U f m = .ok N ∧ normalizeMessage U f N = .ok N := by
  obtain ⟨h1, h2, h3, h4⟩ := normalize_ascii_ok U f m h
  refine ⟨_, h1, ?_⟩
  have hl := ToLower_fixed U _ h2 h3
  have hs := stage2_ascii U f _ (Or.inl h2)
  rw [hl] at hs
  have := normalizeMessage_ok U f _ _ (by rw [hl]; exact hs)
  rw [this, stages345_idem f _ h4]

/-! ## Lemmas: runes inserted into a message -/

theorem good_head (u : Tok) (h : u.good) :
    ∃ b bs, u.bytes = b :: bs ∧ isCont b.toNat = false := by
  rcases good_shape u h with ⟨b, hb, hlt, _⟩ | ⟨b, cs, hb, hge, _⟩
  · refine ⟨b, [], hb, ?_⟩
    simp only [isCont, Bool.and_eq_false_imp, decide_eq_true_eq, decide_eq_false_iff_not]
    omega
  · refine ⟨b, cs, hb, ?_⟩
    simp only [isCont, Bool.and_eq_false_imp, decide_eq_true_eq, decide_eq_false_iff_not]
    omega

theorem ins_head_cont (P : Tok → Prop) (hP : ∀ u, P u → u.good)
    (rest : Bytes) (l' : List Tok) (c : UInt8) (x : Bytes)
    (h : Inserted P (decodeRunes rest) l') (hx : tokBytes l' = c :: x)
    (hc : isCont c.toNat = true) :
    ∃ rest₂ l'', rest = c :: rest₂ ∧ x = tokBytes l'' ∧ Inserted P (decodeRunes rest₂) l'' := by
  generalize hts : decodeRunes rest = ts at h
  cases h with
  | nil => simp [tokBytes] at hx
  | ins u hu h' =>
    obtain ⟨b, bs, hb, hnc⟩ := good_head u (hP u hu)
    rw [tokBytes_cons, hb, List.cons_append] at hx
    have : c = b := (List.cons.inj hx).1.symm
    rw [this, hnc] at hc
    exact absurd hc (by decide)
  | keep t h' =>
    rename_i l l''
    cases rest with
    | nil => simp [decodeRunes, decodeFrom] at hts
    | cons b r₂ =>
      have hpos := DecodeRune_size_pos b r₂
      rw [decodeRunes_cons_eq] at hts
      obtain ⟨ht, hl⟩ := List.cons.inj hts
      obtain ⟨n, hn⟩ : ∃ n, (DecodeRune (b :: r₂)).2 = n + 1 :=
        ⟨(DecodeRune (b :: r₂)).2 - 1, by omega⟩
      have hb : c = b := by
        rw [← ht] at hx
        simp only [tokBytes, List.flatMap_cons, hn, List.take_succ_cons, List.cons_append] at hx
        exact (List.cons.inj hx).1.symm
      subst hb
      have hd := DecodeRune_cont c r₂ hc
      rw [hd] at ht hl
      refine ⟨r₂, l'', rfl, ?_, ?_⟩
      · rw [← ht] at hx
        simp only [tokBytes, List.flatMap_cons] at hx
        simpa [tokBytes] using (List.cons.inj hx).2.symm
      · simp only [Nat.sub_self, List.drop_zero] at hl
        rw [hl]; exact h'

theorem ins_agree (P : Tok → Prop) (hP : ∀ u, P u → u.good) (cs : Bytes) :
    ∀ (rest : Bytes) (l' : List Tok) (x : Bytes), Inserted P (decodeRunes rest) l' →
      tokBytes l' = cs ++ x → (∀ c ∈ cs, isCont c.toNat = true) → ∃ rest', rest = cs ++ rest' := by
  induction cs with
  | nil => intro rest _ _ _ _ _; exact ⟨rest, rfl⟩
  | cons c cs ih =>
    intro rest l' x h hx hc
    obtain ⟨rest₂, l'', h1, h2, h3⟩ :=
      ins_head_cont P hP rest l' c (cs ++ x) h hx (hc c (List.mem_cons_self _ _))
    obtain ⟨rest', h4⟩ := ih rest₂ l'' x h3 h2.symm (fun d hd => hc d (List.mem_cons_of_mem _ hd))
    exact ⟨rest', by rw [h1, h4]; rfl⟩

/-- An invalid byte stays invalid when well-formed runes are inserted between
the runes that follow it. -/
theorem DecodeRune_invalid_ins (P : Tok → Prop) (hP : ∀ u, P u → u.good)
    (b : UInt8) (rest : Bytes) (l' : List Tok)
    (h : DecodeRune (b :: rest) = (RuneError, 1)) (hi : Inserted P (decodeRunes rest) l') :
    DecodeRune (b :: tokBytes l') = (RuneError, 1) := by
  generalize hd : DecodeRune (b :: tokBytes l') = d
  obtain ⟨r, k⟩ := d
  by_cases hv : r = RuneError ∧ k = 1
  · rw [hv.1, hv.2]
  · exfalso
    rcases DecodeRune_shape b _ r k hd hv with ⟨_, h1, _⟩ | ⟨_, cs, x, hcs, hlen, _, hcont⟩
    · rw [DecodeRune_ascii b rest h1] at h
      have := (Prod.mk.inj h).1
      unfold RuneError at this
      omega
    · obtain ⟨rest', hr⟩ := ins_agree P hP cs rest l' x hi hcs hcont
      have hl := (DecodeRune_local b _ r k hd hv rest').1
      have ht : List.take k (b :: tokBytes l') = b :: cs := by
        rw [hcs, ← hlen, List.take_succ_cons, List.take_left' rfl]
      rw [ht] at hl
      rw [hr] at h
      rw [show (b :: cs) ++ rest' = b :: (cs ++ rest') from rfl, h] at hl
      exact hv ⟨(Prod.mk.inj hl).1.symm, (Prod.mk.inj hl).2.symm⟩

/-- The runes of a message with well-formed runes inserted between its runes
are the runes of the message and the inserted ones. -/
theorem decodeRunes_ins (P : Tok → Prop) (hP : ∀ u, P u → u.good) (m : Bytes) (ts' : List Tok)
    (h : Inserted P (decodeRunes m) ts') : decodeRunes (tokBytes ts') = ts' := by
  generalize hts : decodeRunes m = ts at h
  induction h generalizing m with
  | nil => rfl
  | ins u hu h' ih =>
    rename_i l l'
    have := decodeRunes_cons u (tokBytes l') (hP u hu).1
    simp only [tokBytes, List.flatMap_cons] at this ⊢
    rw [this]
    congr 1
    exact ih m hts
  | keep t h' ih =>
    rename_i l l'
    cases m with
    | nil => simp [decodeRunes, decodeFrom] at hts
    | cons b rest =>
      have hts' := hts
      rw [decodeRunes_cons_eq] at hts
      obtain ⟨ht, hl⟩ := List.cons.inj hts
      have ih' := ih _ hl
      by_cases hv : (DecodeRune (b :: rest)).1 = RuneError ∧ (DecodeRune (b :: rest)).2 = 1
      · have hd : DecodeRune (b :: rest) = (RuneError, 1) := Prod.ext hv.1 hv.2
        rw [hd] at ht hl
        simp only [Nat.sub_self, List.drop_zero] at hl
        have hinv := DecodeRune_invalid_ins P hP b rest l' hd (hl ▸ h')
        rw [← ht]
        show decodeRunes (b :: tokBytes l') = _
        rw [decodeRunes_invalid b _ hinv]
        congr 1
      · have hwf : t.wellFormed := by
          generalize hd : DecodeRune (b :: rest) = d at hv ht hl
          obtain ⟨r, n⟩ := d
          have hl' := DecodeRune_local b rest r n hd hv
          rw [← ht]
          refine ⟨?_, fun rest' => ?_⟩
          · intro e
            have h1 := (hl' []).2.1
            have h2 := (hl' []).2.2
            simp only at e
            rw [e] at h1
            simp only [List.length_nil] at h1
            omega
          · have h1 := (hl' rest').1
            have h2 := (hl' rest').2.1
            simp only [h2]
            exact h1
        have := decodeRunes_cons t (tokBytes l') hwf
        simp only [tokBytes, List.flatMap_cons] at this ⊢
        rw [this]
        congr 1

theorem mapRestT_ins (P : Tok → Prop) (f : Nat → Nat)
    (hf : ∀ u, P u → encTok (f u.rune) = u) (ts ts' : List Tok)
    (h : Inserted P ts ts') : Inserted P (mapRestT f ts) (mapRestT f ts') := by
  induction h with
  | nil => exact Inserted.nil
  | keep t _ ih => exact Inserted.keep _ ih
  | ins u hu _ ih =>
    simp only [mapRestT, List.map_cons] at ih ⊢
    rw [hf u hu]
    exact Inserted.ins u hu ih

theorem mapFromT_ins (P : Tok → Prop) (f : Nat → Nat)
    (hf : ∀ u, P u → encTok (f u.rune) = u)
    (hk : ∀ u, P u → (f u.rune = u.rune ∧ u.rune ≠ RuneError) ∨
      (u.rune = RuneError ∧ u.bytes.length ≠ 1 ∧ f u.rune = u.rune))
    (ts ts' : List Tok) (h : Inserted P ts ts') :
    Inserted P (mapFromT f ts) (mapFromT f ts') := by
  induction h with
  | nil => exact Inserted.nil
  | keep t h' ih =>
    simp only [mapFromT]
    split
    · exact Inserted.keep _ ih
    · exact Inserted.keep _ (mapRestT_ins P f hf _ _ h')
  | ins u hu h' ih =>
    rename_i l l'
    have : mapFromT f (u :: l') = u :: mapFromT f l' := by
      simp only [mapFromT]
      rw [if_pos (hk u hu)]
    rw [this]
    exact Inserted.ins u hu ih

theorem ins_length (P : Tok → Prop) (ts ts' : List Tok) (h : Inserted P ts ts') :
    (tokBytes ts).length ≤ (tokBytes ts').length := by
  induction h with
  | nil => exact le_refl _
  | keep t _ ih => rw [tokBytes_cons, tokBytes_cons, List.length_append, List.length_append]; omega
  | ins u _ _ ih => rw [tokBytes_cons, List.length_append]; omega

/-! ## Lemmas: marks inserted, and the zero bytes left in the buffer -/

theorem isMark_good (U : UnicodeTables) (u : Tok) (h : isMark U u) : u.good := by
  obtain ⟨r, _, _, _, _, rfl⟩ := h
  exact encTok_good r

theorem isMark_lower (U : UnicodeTables) (hlow : ∀ r, U.isMn r = true → U.toLower r = r)
    (u : Tok) (h : isMark U u) :
    encTok (unicodeToLower U u.rune) = u ∧
    ((unicodeToLower U u.rune = u.rune ∧ u.rune ≠ RuneError) ∨
      (u.rune = RuneError ∧ u.bytes.length ≠ 1 ∧ unicodeToLower U u.rune = u.rune)) := by
  obtain ⟨r, hr, hbig, h1, h2, rfl⟩ := h
  have hrune : (encTok r).rune = r := by
    unfold encTok
    simp only
    rw [if_neg (by omega)]
  have hf : unicodeToLower U r = r := by
    unfold unicodeToLower
    rw [if_neg (by omega)]
    exact hlow r hr
  rw [hrune, hf]
  refine ⟨rfl, ?_⟩
  by_cases he : r = RuneError
  · right
    refine ⟨he, ?_, rfl⟩
    rw [he]
    decide
  · exact Or.inl ⟨rfl, he⟩

theorem lower_ins (U : UnicodeTables) (hlow : ∀ r, U.isMn r = true → U.toLower r = r)
    (m : Bytes) (ts' : List Tok) (h : MnInserted U (decodeRunes m) ts') :
    (ToLower U m).length ≤ (ToLower U (tokBytes ts')).length := by
  have hdec := decodeRunes_ins (isMark U) (isMark_good U) m ts' h
  rw [ToLower_eq_tokBytes, ToLower_eq_tokBytes, hdec]
  exact ins_length _ _ _ (mapFromT_ins (isMark U) _
    (fun u hu => (isMark_lower U hlow u hu).1) (fun u hu => (isMark_lower U hlow u hu).2) _ _ h)

/-- The transformer `runes.Remove(unicodeSet)` drops a mark of category `Mn`
and nothing with it. -/
theorem Remove_mark (U : UnicodeTables) (u : Tok) (h : isMark U u) :
    (if u.invalid then (if Contains U RuneError then [] else EncodeRune RuneError)
      else if Contains U u.rune then [] else u.bytes) = [] := by
  obtain ⟨r, hr, hbig, h1, h2, rfl⟩ := h
  have hrune : (encTok r).rune = r := by
    unfold encTok
    simp only
    rw [if_neg (by omega)]
  have hc : Contains U r = true := by
    unfold Contains
    rw [if_neg (by omega)]
    exact hr
  rw [encTok_invalid r, hrune, hc]
  rfl

/-- The marks inserted into a text are removed with the marks of the text:
what `runes.Remove(unicodeSet)` leaves is what it leaves of the text. -/
theorem Remove_ins (U : UnicodeTables) (A B : Bytes)
    (h : MnInserted U (decodeRunes A) (decodeRunes B)) :
    Remove (Contains U) B = Remove (Contains U) A := by
  unfold Remove
  unfold MnInserted at h
  generalize decodeRunes A = ta at h
  generalize decodeRunes B = tb at h
  induction h with
  | nil => rfl
  | keep t _ ih => rw [List.flatMap_cons, List.flatMap_cons, ih]
  | ins u hu _ ih => rw [List.flatMap_cons, Remove_mark U u hu, ih]; rfl

theorem nulTok_good : nulTok.good := by
  have := encTok_good 0
  have he : encTok 0 = nulTok := by decide
  rw [he] at this
  exact this

theorem tokBytes_append (a b : List Tok) : tokBytes (a ++ b) = tokBytes a ++ tokBytes b := by
  unfold tokBytes
  rw [List.flatMap_append]

theorem tokBytes_nul (n : Nat) : tokBytes (List.replicate n nulTok) = List.replicate n 0 := by
  induction n with
  | zero => rfl
  | succ n ih => rw [List.replicate_succ, tokBytes_cons, ih]; rfl

theorem dropRuns_split (l : List Tok) (x : Tok) (b : List Tok) (hx : isSpaceTok x = false) :
    ∀ p, dropRuns p (l ++ x :: b) = dropRuns p l ++ x :: dropRuns false b := by
  induction l with
  | nil =>
    intro p
    rw [List.nil_append, dropRuns_cons, hx]
    rfl
  | cons u l ih =>
    intro p
    have hnext : decide (1 ≤ ((l ++ x :: b).takeWhile isSpaceTok).length)
        = decide (1 ≤ (l.takeWhile isSpaceTok).length) := by
      cases l with
      | nil => rw [List.nil_append, List.takeWhile_cons, hx]; rfl
      | cons v l =>
        rw [List.cons_append, List.takeWhile_cons, List.takeWhile_cons]
        cases isSpaceTok v <;> simp
    rw [List.cons_append, dropRuns_cons, dropRuns_cons, hnext, ih, ih]
    split <;> rfl

theorem dropRuns_nul (l : List Tok) (n : Nat) :
    dropRuns false (l ++ List.replicate n nulTok) = dropRuns false l ++ List.replicate n nulTok := by
  induction n with
  | zero => simp
  | succ n ih =>
    rw [List.replicate_succ', ← List.append_assoc, dropRuns_concat false _ nulTok (by decide), ih,
      List.append_assoc]

theorem dropWhile_nul (l : List Tok) (n : Nat) :
    (l ++ List.replicate (n + 1) nulTok).dropWhile isSpaceTok
      = l.dropWhile isSpaceTok ++ List.replicate (n + 1) nulTok := by
  induction l with
  | nil => rfl
  | cons t l ih =>
    rw [List.cons_append, List.dropWhile_cons, List.dropWhile_cons]
    cases isSpaceTok t with
    | true => exact ih
    | false => rfl

theorem trimSpace_nul (l : List Tok) (n : Nat) :
    trimSpace (l ++ List.replicate (n + 1) nulTok)
      = l.dropWhile isSpaceTok ++ List.replicate (n + 1) nulTok := by
  unfold trimSpace
  rw [dropWhile_nul, List.replicate_succ', ← List.append_assoc, List.rdropWhile_concat]
  rfl

/-- Stage 5 with more zero bytes behind the text keeps what it gave with
fewer. -/
theorem strip_pad (l : List Tok) (j k : Nat) (h : j ≤ k) :
    dropRuns false (trimSpace (l ++ List.replicate j nulTok))
      <+: dropRuns false (trimSpace (l ++ List.replicate k nulTok)) := by
  cases k with
  | zero =>
    have : j = 0 := by omega
    rw [this]
  | succ k =>
    rw [trimSpace_nul, dropRuns_nul]
    cases j with
    | succ j =>
      rw [trimSpace_nul, dropRuns_nul]
      obtain ⟨d, hd⟩ : ∃ d, k + 1 = (j + 1) + d := ⟨k - j, by omega⟩
      rw [hd]
      exact ⟨List.replicate d nulTok, by rw [List.append_assoc, ← List.replicate_add]⟩
    | zero =>
      rw [List.replicate_zero, List.append_nil]
      unfold trimSpace
      have hp : (l.dropWhile isSpaceTok).rdropWhile isSpaceTok <+: l.dropWhile isSpaceTok :=
        List.rdropWhile_prefix isSpaceTok _
      obtain ⟨b, hb⟩ := hp
      rcases trimSpace_last l with h3 | ⟨a, x, h3, hx⟩
      · unfold trimSpace at h3
        rw [h3]
        exact List.nil_prefix
      · unfold trimSpace at h3
        rw [h3] at hb ⊢
        rw [← hb, List.append_assoc, List.singleton_append, dropRuns_split a x b hx,
          dropRuns_concat false a x hx, List.append_assoc]
        apply (List.prefix_append_right_inj _).2
        exact ⟨dropRuns false b ++ List.replicate (k + 1) nulTok, rfl⟩

theorem stages345T_pad (f : swearFilter) (X : List Tok) (j k : Nat) (h : j ≤ k) :
    stages345T f (X ++ List.replicate j nulTok) <+: stages345T f (X ++ List.replicate k nulTok) := by
  have h3 : ∀ n, (if f.disableSpacedTab then X ++ List.replicate n nulTok
      else (X ++ List.replicate n nulTok).map tabTok)
      = (if f.disableSpacedTab then X else X.map tabTok) ++ List.replicate n nulTok := by
    intro n
    cases f.disableSpacedTab with
    | true => rfl
    | false =>
      simp only [Bool.false_eq_true, if_false, List.map_append, List.map_replicate]
      rfl
  have h4 : ∀ (Y : List Tok) n, (if f.disableZeroWidthStripping then Y ++ List.replicate n nulTok
      else (Y ++ List.replicate n nulTok).filter (fun t => decide (t.bytes ≠ zwsp)))
      = (if f.disableZeroWidthStripping then Y
          else Y.filter (fun t => decide (t.bytes ≠ zwsp))) ++ List.replicate n nulTok := by
    intro Y n
    cases f.disableZeroWidthStripping with
    | true => rfl
    | false =>
      simp only [Bool.false_eq_true, if_false, List.filter_append]
      congr 1
      rw [List.filter_eq_self]
      intro t ht
      rw [List.eq_of_mem_replicate ht]
      decide
  have hdef : ∀ n, stages345T f (X ++ List.replicate n nulTok) =
      (if f.disableMultiWhitespaceStripping then
        (if f.disableZeroWidthStripping then (if f.disableSpacedTab then X else X.map tabTok)
          else (if f.disableSpacedTab then X else X.map tabTok).filter
            (fun t => decide (t.bytes ≠ zwsp))) ++ List.replicate n nulTok
      else dropRuns false (trimSpace
        ((if f.disableZeroWidthStripping then (if f.disableSpacedTab then X else X.map tabTok)
          else (if f.disableSpacedTab then X else X.map tabTok).filter
            (fun t => decide (t.bytes ≠ zwsp))) ++ List.replicate n nulTok))) := by
    intro n
    unfold stages345T
    simp only [h3, h4]
  rw [hdef j, hdef k]
  cases f.disableMultiWhitespaceStripping with
  | true =>
    simp only [if_true]
    obtain ⟨d, rfl⟩ : ∃ d, k = j + d := ⟨k - j, by omega⟩
    exact ⟨List.replicate d nulTok, by rw [List.append_assoc, ← List.replicate_add]⟩
  | false =>
    simp only [Bool.false_eq_true, if_false]
    exact strip_pad _ j k h

theorem tokBytes_isPrefix (a b : List Tok) (h : a <+: b) : tokBytes a <+: tokBytes b := by
  obtain ⟨c, rfl⟩ := h
  rw [tokBytes_append]
  exact List.prefix_append _ _

/-- More zero bytes behind well-formed text: stages 3 to 5 keep what they
gave with fewer. -/
theorem stages345_pad (f : swearFilter) (T : Bytes)
    (hv : ∀ t ∈ decodeRunes T, t.invalid = false) (j k : Nat) (h : j ≤ k) :
    stage5 f (stage4 f (stage3 f (T ++ List.replicate j 0)))
      <+: stage5 f (stage4 f (stage3 f (T ++ List.replicate k 0))) := by
  have hg : ∀ n, ∀ t ∈ decodeRunes T ++ List.replicate n nulTok, t.good := by
    intro n t ht
    rw [List.mem_append] at ht
    rcases ht with ht | ht
    · exact good_of_decodeRunes T t ht (hv t ht)
    · rw [List.eq_of_mem_replicate ht]; exact nulTok_good
  have hb : ∀ n, T ++ List.replicate n 0 = tokBytes (decodeRunes T ++ List.replicate n nulTok) := by
    intro n
    rw [tokBytes_append, tokBytes_decodeRunes, tokBytes_nul]
  rw [hb j, hb k, stages345_chunks f _ (hg j), stages345_chunks f _ (hg k)]
  exact tokBytes_isPrefix _ _ (stages345T_pad f _ j k h)

/-- The code of `Check` behind the normalize stage: when the transformed text
of a message `m'` is that of `m` and the lower-cased `m'` is not shorter, a
word `Check` reports for `m` is reported for `m'`. -/
theorem same_text_keeps_match (U : UnicodeTables) (f : swearFilter) (m m' w : Bytes)
    (hn : f.disableNormalize = false)
    (hlen : (ToLower U m).length ≤ (ToLower U m').length)
    (hT : NFC U (Remove (Contains U) (NFD U (ToLower U m')))
      = NFC U (Remove (Contains U) (NFD U (ToLower U m))))
    (hv : ∀ t ∈ decodeRunes (NFC U (Remove (Contains U) (NFD U (ToLower U m)))),
      t.invalid = false)
    (herr : U.internalErr (ToLower U m').length (ToLower U m') = none)
    (hw : w ≠ str " ")
    (h : ∃ mt ∈ (Check U f m).1, mt.Word = w) :
    ∃ mt ∈ (Check U f m').1, mt.Word = w := by
  obtain ⟨mt, hmt, hmw⟩ := h
  have hk : f.BadWords.keys ≠ [] := by
    intro e
    unfold Check at hmt
    rw [e] at hmt
    simp at hmt
  have hk' : ¬ f.BadWords.keys.length = 0 := fun e => hk (List.eq_nil_of_length_eq_zero e)
  -- the message `m`
  cases hN : normalizeMessage U f m with
  | error e =>
    unfold Check at hmt
    rw [if_neg hk', hN] at hmt
    simp at hmt
  | ok N =>
    rw [Check_ok U f m N hN hk] at hmt
    have hwk : w ∈ f.BadWords.keys := hmw ▸ words_mem f N mt hmt
    have hrep := (reported_iff f N w hwk hw).1 ⟨mt, hmt, hmw⟩
    rw [normalizeMessage_eq] at hN
    cases hS : stage2 U f (ToLower U m) with
    | error e => rw [hS] at hN; exact absurd hN (by simp [Except.map])
    | ok S =>
      rw [hS] at hN
      have hNS : stage5 f (stage4 f (stage3 f S)) = N := by simpa [Except.map] using hN
      unfold stage2 at hS
      rw [hn] at hS
      obtain ⟨hle, hSe⟩ := chainTransform_ok U _ _ _ hS
      -- the message `m'`
      have hS' : stage2 U f (ToLower U m') = .ok
          (NFC U (Remove (Contains U) (NFD U (ToLower U m))) ++
            List.replicate ((ToLower U m').length -
              (NFC U (Remove (Contains U) (NFD U (ToLower U m)))).length) 0) := by
        unfold stage2 chainTransform
        rw [hn]
        simp only [Bool.not_false, if_true, hT, herr, ite_self]
        rw [if_neg (by omega)]
      have hN' := normalizeMessage_ok U f m' _ hS'
      have hpre : N <+: stage5 f (stage4 f (stage3 f
          (NFC U (Remove (Contains U) (NFD U (ToLower U m))) ++
            List.replicate ((ToLower U m').length -
              (NFC U (Remove (Contains U) (NFD U (ToLower U m)))).length) 0))) := by
        rw [← hNS, hSe]
        exact stages345_pad f _ hv _ _ (by omega)
      rw [Check_ok U f m' _ hN' hk]
      apply (reported_iff f _ w hwk hw).2
      rcases hrep with h1 | ⟨h1, h2⟩
      · exact Or.inl (h1.trans hpre.isInfix)
      · exact Or.inr ⟨h1, h2.trans (hpre.filter _).isInfix⟩

/-! ## The claims -/

set_option maxRecDepth 100000 in
/-- C1. For a vocabulary word `w` other than the single space and a message on
which `Check` returns no error, the normalized message `N` exists and `Check`
reports `w` exactly when `w` is a contiguous part of `N`, or spaced bypass is
enabled and `w` is a contiguous part of `N` without its spaces.  With
vocabulary `foo` and spaced bypass, `fooing`, `foo` and `what the f o o dude`
give one match for `foo` and `asdf` none; without spaced bypass
`what the f o o dude` gives none. -/
theorem C1_check_reports_substrings :
    (∀ (U : UnicodeTables) (f : swearFilter) (m w : Bytes),
      (Check U f m).2 = none → w ∈ f.BadWords.keys → w ≠ str " " →
      ∃ N, normalizeMessage U f m = .ok N ∧
        ((∃ mt ∈ (Check U f m).1, mt.Word = w) ↔
          (w <:+: N ∨
            (f.enableSpacedBypass = true ∧ w <:+: N.filter (fun c => c ≠ 0x20))))) ∧
    (∀ U : UnicodeTables,
      Check U (New [str "foo"] [EnableSpacedBypass]) (str "fooing")
        = ([{ Word := str "foo", Index := 0 }], none) ∧
      Check U (New [str "foo"] [EnableSpacedBypass]) (str "foo")
        = ([{ Word := str "foo", Index := 0 }], none) ∧
      Check U (New [str "foo"] [EnableSpacedBypass]) (str "what the f o o dude")
        = ([{ Word := str "foo", Index := 7 }], none) ∧
      Check U (New [str "foo"] [EnableSpacedBypass]) (str "asdf") = ([], none) ∧
      Check U (New [str "foo"] []) (str "what the f o o dude") = ([], none)) := by
  refine ⟨?_, fun U => ⟨?_, ?_, ?_, ?_, ?_⟩⟩
  · intro U f m w herr hw hsp
    have hne : f.BadWords.keys ≠ [] := List.ne_nil_of_mem hw
    obtain ⟨N, hN⟩ := Check_no_error U f m herr hne
    refine ⟨N, hN, ?_⟩
    rw [Check_ok U f m N hN hne]
    exact reported_iff f N w hw hsp
  · exact (Check_ascii U sampleTables _ _ (by decide)).trans (by decide)
  · exact (Check_ascii U sampleTables _ _ (by decide)).trans (by decide)
  · exact (Check_ascii U sampleTables _ _ (by decide)).trans (by decide)
  · exact (Check_ascii U sampleTables _ _ (by decide)).trans (by decide)
  · exact (Check_ascii U sampleTables _ _ (by decide)).trans (by decide)

set_option maxRecDepth 100000 in
/-- Witness of C1: the spaced message of the test, where the word is found
only after the spaces are removed. -/
theorem C1_check_reports_substrings_witness :
    ∃ N, normalizeMessage sampleTables (New [str "foo"] [EnableSpacedBypass])
        (str "what the f o o dude") = .ok N ∧
      ((∃ mt ∈ (Check sampleTables (New [str "foo"] [EnableSpacedBypass])
          (str "what the f o o dude")).1, mt.Word = str "foo") ↔
        (str "foo" <:+: N ∨
          ((New [str "foo"] [EnableSpacedBypass]).enableSpacedBypass = true ∧
            str "foo" <:+: N.filter (fun c => c ≠ 0x20)))) :=
  C1_check_reports_substrings.1 sampleTables (New [str "foo"] [EnableSpacedBypass])
    (str "what the f o o dude") (str "foo") (by decide) (by decide) (by decide)

/-- C2. A match `(w, i)` of `Check`, `w` not the single space: when `w` is part
of the normalized message `N`, `i` is the offset of its first occurrence in
`N`; otherwise `i` is the offset of its first occurrence in `N` without its
spaces. -/
theorem C2_index_is_first_occurrence (U : UnicodeTables) (f : swearFilter)
    (m N : Bytes) (mt : Match) (hN : normalizeMessage U f m = .ok N)
    (hmt : mt ∈ (Check U f m).1) (hsp : mt.Word ≠ str " ") :
    (mt.Word <:+: N →
      ∃ i : Nat, mt.Index = i ∧ (N.drop i).take mt.Word.length = mt.Word ∧
        ∀ j < i, (N.drop j).take mt.Word.length ≠ mt.Word) ∧
    (¬ mt.Word <:+: N →
      ∃ i : Nat, mt.Index = i ∧
        ((N.filter (fun c => c ≠ 0x20)).drop i).take mt.Word.length = mt.Word ∧
        ∀ j < i, ((N.filter (fun c => c ≠ 0x20)).drop j).take mt.Word.length ≠ mt.Word) := by
  have hne : f.BadWords.keys ≠ [] := by
    intro h
    simp [Check, h] at hmt
  rw [Check_ok U f m N hN hne] at hmt
  rcases (mem_scanWords f N mt).1 hmt with ⟨k, _, hk⟩ | ⟨_, _, h3⟩
  · obtain ⟨h1, _, h2⟩ := wordMatch_some _ _ _ _ hk
    rw [h1]
    rcases h2 with ⟨h2, h3⟩ | ⟨h2, _, h4, h5⟩
    · refine ⟨fun _ => ?_, fun h => absurd h2 h⟩
      rw [h3]; exact Index_first N k h2
    · refine ⟨fun h => absurd h h2, fun _ => ?_⟩
      rw [h5]; exact Index_first _ k h4
  · rw [h3] at hsp; exact absurd rfl hsp

set_option maxRecDepth 100000 in
/-- Witness of C2: `foo` in `what the f o o dude` under spaced bypass, found
at offset 7 of the message without spaces. -/
theorem C2_index_is_first_occurrence_witness :
    (str "foo" <:+: str "what the f o o dude" →
      ∃ i : Nat, (7 : Int) = i ∧
        ((str "what the f o o dude").drop i).take (str "foo").length = str "foo" ∧
        ∀ j < i, ((str "what the f o o dude").drop j).take (str "foo").length ≠ str "foo") ∧
    (¬ str "foo" <:+: str "what the f o o dude" →
      ∃ i : Nat, (7 : Int) = i ∧
        (((str "what the f o o dude").filter (fun c => c ≠ 0x20)).drop i).take
          (str "foo").length = str "foo" ∧
        ∀ j < i, (((str "what the f o o dude").filter (fun c => c ≠ 0x20)).drop j).take
          (str "foo").length ≠ str "foo") :=
  C2_index_is_first_occurrence sampleTables (New [str "foo"] [EnableSpacedBypass])
    (str "what the f o o dude") (str "what the f o o dude")
    { Word := str "foo", Index := 7 } (by decide) (by decide) (by decide)

/-- C3. With an empty vocabulary `Check` returns no match and no error, for
every message, every setting of the options and whatever the normalize
transform would do on the message. -/
theorem C3_empty_vocabulary (U : UnicodeTables) (f : swearFilter) (m : Bytes)
    (h : f.BadWords.keys = []) :
    Check U f m = ([], none) ∧ (Check U f m).1.length = 0 := by
  simp [Check, h]

set_option maxRecDepth 100000 in
/-- Witness of C3: a message on which the normalize stage fails, checked by a
filter without words. -/
theorem C3_empty_vocabulary_witness :
    normalizeMessage failingTables (New [] []) (str "fóó") = .error .errShortInternal ∧
      Check failingTables (New [] []) (str "fóó") = ([], none) ∧
      (Check failingTables (New [] []) (str "fóó")).1.length = 0 :=
  ⟨by decide, C3_empty_vocabulary failingTables (New [] []) (str "fóó") (by decide)⟩

/-- C5. The words of the matches of `Check` are pairwise distinct, each is a
key of the vocabulary as stored, and there are at most as many matches as the
vocabulary has words. -/
theorem C5_one_match_per_word (U : UnicodeTables) (f : swearFilter) (m : Bytes) :
    ((Check U f m).1.map Match.Word).Nodup ∧
      (∀ mt ∈ (Check U f m).1, mt.Word ∈ f.BadWords.keys) ∧
      (Check U f m).1.length ≤ f.BadWords.keys.length := by
  have key : ∀ l : List Match, (l.map Match.Word).Nodup →
      (∀ mt ∈ l, mt.Word ∈ f.BadWords.keys) →
      (l.map Match.Word).Nodup ∧ (∀ mt ∈ l, mt.Word ∈ f.BadWords.keys) ∧
        l.length ≤ f.BadWords.keys.length := by
    intro l h1 h2
    refine ⟨h1, h2, ?_⟩
    have h3 : l.map Match.Word ⊆ f.BadWords.keys := by
      intro w hw
      rw [List.mem_map] at hw
      obtain ⟨mt, hmt, rfl⟩ := hw
      exact h2 mt hmt
    simpa using (List.subperm_of_subset h1 h3).length_le
  unfold Check
  split
  · exact key [] (by simp) (by simp)
  · split
    · exact key [] (by simp) (by simp)
    · exact key _ (words_nodup f _) (words_mem f _)

set_option maxRecDepth 100000 in
/-- C6. Messages with the same lower-cased form get the same result from
`Check`, matches, indices and error alike, whatever the options; and a filter
holding `foo` reports it, at index 0, for `FOO`, `Foo` and `fOO`. -/
theorem C6_case_folding_always_applied :
    (∀ (U : UnicodeTables) (f : swearFilter) (m m' : Bytes),
      ToLower U m = ToLower U m' → Check U f m = Check U f m') ∧
    (∀ (U : UnicodeTables) (f : swearFilter), str "foo" ∈ f.BadWords.keys →
      ∀ m ∈ [str "FOO", str "Foo", str "fOO"],
        (Check U f m).2 = none ∧ { Word := str "foo", Index := 0 } ∈ (Check U f m).1) := by
  constructor
  · intro U f m m' h
    simp only [Check, normalizeMessage, h]
  · intro U f hw m hm
    have hne : f.BadWords.keys ≠ [] := List.ne_nil_of_mem hw
    have hN : normalizeMessage U f m = .ok (str "foo") := by
      have hascii : isASCII m = true := by
        simp only [List.mem_cons, List.mem_singleton, List.not_mem_nil, or_false] at hm
        rcases hm with rfl | rfl | rfl <;> decide
      rw [normalizeMessage_ascii U sampleTables f m hascii, normalizeMessage_flags]
      generalize f.disableNormalize = a
      generalize f.disableSpacedTab = b
      generalize f.disableMultiWhitespaceStripping = c
      generalize f.disableZeroWidthStripping = d
      generalize f.enableSpacedBypass = e
      simp only [List.mem_cons, List.mem_singleton, List.not_mem_nil, or_false] at hm
      rcases hm with rfl | rfl | rfl <;>
        cases a <;> cases b <;> cases c <;> cases d <;> cases e <;> decide
    rw [Check_ok U f m _ hN hne]
    refine ⟨rfl, (mem_scanWords f _ _).2 (Or.inl ⟨str "foo", hw, ?_⟩)⟩
    cases f.enableSpacedBypass <;> decide

/-- Witness of C6: `FOO` and `foo`, under the default options. -/
theorem C6_case_folding_always_applied_witness :
    Check sampleTables (New [str "foo"] []) (str "FOO")
      = Check sampleTables (New [str "foo"] []) (str "foo") :=
  C6_case_folding_always_applied.1 sampleTables (New [str "foo"] []) (str "FOO") (str "foo")
    (by decide)

set_option maxRecDepth 100000 in
/-- Counterexample to C7: the stored word `Foo`, lower-cased, is the whole
normalized message `foo`, and `Check` reports nothing.  (The message is
ASCII, so the result is the same for all Unicode tables.) -/
theorem C7_counterexample :
    str "Foo" ∈ (New [str "Foo"] []).BadWords.keys ∧
      normalizeMessage sampleTables (New [str "Foo"] []) (str "foo") = .ok (str "foo") ∧
      ToLower sampleTables (str "Foo") <:+: str "foo" ∧
      Check sampleTables (New [str "Foo"] []) (str "foo") = ([], none) := by
  refine ⟨by decide, by decide, ?_, by decide⟩
  have : ToLower sampleTables (str "Foo") = str "foo" := by decide
  rw [this]

set_option maxRecDepth 100000 in
/-- C7, amended. A vocabulary word is compared as stored, byte for byte, with
the lower-cased and normalized message: when the word itself is part of the
normalized message `Check` reports it, and the stored word `Foo` is not
reported for the message `foo`, whatever the Unicode tables. -/
theorem C7_words_compared_as_stored :
    (∀ (U : UnicodeTables) (f : swearFilter) (m N w : Bytes),
      w ∈ f.BadWords.keys → w ≠ str " " → normalizeMessage U f m = .ok N →
      w <:+: N → ∃ mt ∈ (Check U f m).1, mt.Word = w) ∧
    (∀ U : UnicodeTables, Check U (New [str "Foo"] []) (str "foo") = ([], none)) := by
  constructor
  · intro U f m N w hw hsp hN hin
    rw [Check_ok U f m N hN (List.ne_nil_of_mem hw)]
    exact (reported_iff f N w hw hsp).2 (Or.inl hin)
  · intro U
    exact (Check_ascii U sampleTables _ _ (by decide)).trans (by decide)

set_option maxRecDepth 100000 in
/-- Witness of C7 as amended: the stored word `foo` and the message `Foo`. -/
theorem C7_words_compared_as_stored_witness :
    ∃ mt ∈ (Check sampleTables (New [str "foo"] []) (str "Foo")).1, mt.Word = str "foo" :=
  C7_words_compared_as_stored.1 sampleTables (New [str "foo"] []) (str "Foo") (str "foo")
    (str "foo") (by decide) (by decide) (by decide) (List.infix_refl _)

set_option maxRecDepth 100000 in
/-- C4, the failing input.  A message that is one combining acute accent,
U+0301, checked by a filter with default options that holds the single-space
word: for Unicode tables that know the accent as a mark of category `Mn`
without case or decomposition, the normalize stage leaves the two zero bytes
of its buffer, the message is not empty, and `Check` reports nothing. -/
theorem C4_sentinel_lost_to_padding (U : UnicodeTables)
    (hlower : U.toLower 0x301 = 0x301) (hnfd : U.nfd (str "\u0301") = str "\u0301")
    (hmn : U.isMn 0x301 = true) (herr : U.internalErr 2 (str "\u0301") = none) :
    normalizeMessage U (New [str " "] []) (str "\u0301") = .ok [0, 0] ∧
      Check U (New [str " "] []) (str "\u0301") = ([], none) := by
  have hs : str "\u0301" = [0xCC, 0x81] := by decide
  rw [hs] at hnfd herr ⊢
  have hd : decodeRunes [0xCC, 0x81] = [⟨0x301, [0xCC, 0x81]⟩] := by decide
  have ha : isASCII [0xCC, 0x81] = false := by decide
  have h1 : ToLower U [0xCC, 0x81] = [0xCC, 0x81] := by
    unfold ToLower Map
    rw [ha, hd]
    simp [mapFrom, unicodeToLower, hlower, RuneError]
  have h2 : chainTransform U 2 [0xCC, 0x81] = .ok [0, 0] := by
    have hr : Remove (Contains U) [0xCC, 0x81] = [] := by
      unfold Remove
      rw [hd]
      simp [Tok.invalid, Contains, hmn, RuneError]
    unfold chainTransform NFD
    rw [ha]
    have hc : NFC U [] = [] := rfl
    simp only [Bool.false_eq_true, if_false, hnfd, hr, herr, hc]
    decide
  have h3 : normalizeMessage U (New [str " "] []) [0xCC, 0x81] = .ok [0, 0] := by
    have hl : ([0xCC, 0x81] : Bytes).length = 2 := by decide
    have h4 : normalizeMessage U (New [str " "] []) [0xCC, 0x81]
        = normalizeMessage sampleTables (New [str " "] [DisableNormalize]) [0, 0] := by
      simp only [normalizeMessage, h1, hl, h2]
      rfl
    rw [h4]; decide
  refine ⟨h3, ?_⟩
  rw [Check_ok U _ _ _ h3 (by decide)]
  decide

set_option maxRecDepth 100000 in
/-- C10. With multi-whitespace stripping enabled, stage 5 maps its input `s`
(the message as normalized with the stage disabled) to `stripSpec s`: the
leading and the trailing run of whitespace characters deleted, then every
maximal run of two or more whitespace characters deleted and single ones
kept.  On well-formed text the runes of the result are the runes of the input
so deleted: the first and the last are not whitespace and no two adjacent
ones are both whitespace.  For the message `a  b` the word `ab` is reported
and the word `a b` is not. -/
theorem C10_multi_whitespace_policy :
    (∀ (U : UnicodeTables) (f : swearFilter) (m s : Bytes),
      f.disableMultiWhitespaceStripping = false →
      normalizeMessage U { f with disableMultiWhitespaceStripping := true } m = .ok s →
      normalizeMessage U f m = .ok (stripSpec s)) ∧
    (∀ s : Bytes, ValidUTF8 s →
      decodeRunes (stripSpec s) = dropRuns false (trimSpace (decodeRunes s)) ∧
      (∀ t, (decodeRunes (stripSpec s)).head? = some t → isSpaceTok t = false) ∧
      (∀ t, (decodeRunes (stripSpec s)).getLast? = some t → isSpaceTok t = false) ∧
      List.Chain' noSpacePair (decodeRunes (stripSpec s))) ∧
    (∀ U : UnicodeTables,
      normalizeMessage U (New [str "ab", str "a b"] []) (str "a  b") = .ok (str "ab") ∧
      Check U (New [str "ab", str "a b"] []) (str "a  b")
        = ([{ Word := str "ab", Index := 0 }], none)) := by
  refine ⟨normalizeMessage_stage5, stripSpec_runes, fun U => ⟨?_, ?_⟩⟩
  · exact (normalizeMessage_ascii U sampleTables _ _ (by decide)).trans (by decide)
  · exact (Check_ascii U sampleTables _ _ (by decide)).trans (by decide)

set_option maxRecDepth 100000 in
/-- Witness of C10: a message with leading, inner and trailing runs of
whitespace, among them the no-break and the ideographic space. -/
theorem C10_multi_whitespace_policy_witness :
    normalizeMessage sampleTables (withOptions true false false false false)
        (str " \ta b  \tc　d　 ")
      = .ok (stripSpec (str "  a b   c　d　 ")) ∧
    stripSpec (str "  a b   c　d　 ") = str "a bc　d" ∧
    (∀ t, (decodeRunes (stripSpec (str "  a b   c　d　 "))).head? = some t →
      isSpaceTok t = false) :=
  ⟨C10_multi_whitespace_policy.1 sampleTables (withOptions true false false false false)
      (str " \ta b  \tc　d　 ") (str "  a b   c　d　 ") rfl (by decide),
    by decide,
    (C10_multi_whitespace_policy.2.1 (str "  a b   c　d　 ") (by decide)).2.1⟩

set_option maxRecDepth 100000 in
/-- Witness of C4: the sample tables know U+0301 as a mark without case or
decomposition. -/
theorem C4_sentinel_lost_to_padding_witness :
    normalizeMessage sampleTables (New [str " "] []) (str "\u0301") = .ok [0, 0] ∧
      Check sampleTables (New [str " "] []) (str "\u0301") = ([], none) :=
  C4_sentinel_lost_to_padding sampleTables (by decide) (by decide) (by decide) (by decide)

set_option maxRecDepth 100000 in
/-- C9. Zero-width stripping removes U+200B outright.  For Unicode tables in
which U+200B has no lower-case mapping, every filter with zero-width stripping
enabled, every message `m` that is ASCII or checked with normalization
disabled, and every message `tokBytes ts'` whose runes `ts'` are the runes of
`m` with zero-width spaces inserted at arbitrary positions: the two messages
have the same normalized form, it holds no U+200B, and `Check` returns the same
result for both.  Where normalization is enabled this is for a library that
does not take U+200B for a mark of category `Mn`, takes the lower-cased
`tokBytes ts'` (ASCII and U+200B) as both decomposed and composed, and does not
stop on it.  In particular `"foo"` is reported at index 0 for `"f\u200boo"`. -/
theorem C9_zero_width_removed (U : UnicodeTables) (hlow : U.toLower 0x200B = 0x200B) :
    (∀ (f : swearFilter) (m : Bytes) (ts' : List Tok),
      f.disableZeroWidthStripping = false →
      (isASCII m = true ∨ f.disableNormalize = true) →
      ZwInserted (decodeRunes m) ts' →
      (f.disableNormalize = false →
        U.isMn 0x200B = false ∧
        U.nfd (ToLower U (tokBytes ts')) = ToLower U (tokBytes ts') ∧
        U.nfc (ToLower U (tokBytes ts')) = ToLower U (tokBytes ts') ∧
        U.internalErr (ToLower U (tokBytes ts')).length (ToLower U (tokBytes ts')) = none) →
      normalizeMessage U f (tokBytes ts') = normalizeMessage U f m ∧
      (∃ N, normalizeMessage U f m = .ok N ∧ ¬ str "\u200b" <:+: N) ∧
      Check U f (tokBytes ts') = Check U f m) ∧
    (U.isMn 0x200B = false →
      U.nfd (str "f\u200boo") = str "f\u200boo" →
      U.nfc (str "f\u200boo") = str "f\u200boo" →
      U.internalErr 6 (str "f\u200boo") = none →
      Check U (New [str "foo"] []) (str "f\u200boo") = ([⟨str "foo", 0⟩], none)) := by
  have gen : ∀ (f : swearFilter) (m : Bytes) (ts' : List Tok),
      f.disableZeroWidthStripping = false →
      (isASCII m = true ∨ f.disableNormalize = true) →
      ZwInserted (decodeRunes m) ts' →
      (f.disableNormalize = false →
        U.isMn 0x200B = false ∧
        U.nfd (ToLower U (tokBytes ts')) = ToLower U (tokBytes ts') ∧
        U.nfc (ToLower U (tokBytes ts')) = ToLower U (tokBytes ts') ∧
        U.internalErr (ToLower U (tokBytes ts')).length (ToLower U (tokBytes ts')) = none) →
      normalizeMessage U f (tokBytes ts') = normalizeMessage U f m ∧
      (∃ N, normalizeMessage U f m = .ok N ∧ ¬ str "\u200b" <:+: N) ∧
      Check U f (tokBytes ts') = Check U f m := by
    intro f m ts' hz hm hins hlib
    obtain ⟨es, hg, hnz, h1, h2⟩ := normalize_inserted U f m ts' hz hm hins hlow hlib
    have he : normalizeMessage U f (tokBytes ts') = normalizeMessage U f m := by rw [h1, h2]
    refine ⟨he, ⟨_, h1, ?_⟩, Check_congr U f m _ he⟩
    rw [str_zwsp]
    exact no_zwsp_chunks es hg hnz
  refine ⟨gen, ?_⟩
  intro hmn hnfd hnfc herr
  have hb : tokBytes [⟨0x66, [0x66]⟩, zwTok, ⟨0x6F, [0x6F]⟩, ⟨0x6F, [0x6F]⟩] = str "f\u200boo" := by
    decide
  have hd : decodeRunes (str "foo") = [⟨0x66, [0x66]⟩, ⟨0x6F, [0x6F]⟩, ⟨0x6F, [0x6F]⟩] := by
    decide
  have hd' : decodeRunes (str "f\u200boo")
      = [⟨0x66, [0x66]⟩, zwTok, ⟨0x6F, [0x6F]⟩, ⟨0x6F, [0x6F]⟩] := by decide
  have hL : ToLower U (str "f\u200boo") = str "f\u200boo" := by
    rw [ToLower_eq_tokBytes, hd', ← hb]
    simp [mapFromT, unicodeToLower, hlow, RuneError, zwTok]
  have hins : ZwInserted (decodeRunes (str "foo"))
      [⟨0x66, [0x66]⟩, zwTok, ⟨0x6F, [0x6F]⟩, ⟨0x6F, [0x6F]⟩] := by
    rw [hd]
    exact .keep _ (.ins (.keep _ (.keep _ .nil)))
  have h := (gen (New [str "foo"] []) (str "foo") _ rfl (Or.inl (by decide)) hins (by
    intro _
    rw [hb, hL]
    exact ⟨hmn, hnfd, hnfc, herr⟩)).2.2
  rw [hb] at h
  rw [h, Check_ascii U sampleTables _ _ (by decide)]
  decide

set_option maxRecDepth 100000 in
/-- Witness of C9: the sample tables, the message `"a b"` checked with
default options against `"ab"` with zero-width spaces in front, inside and
behind, and the message of the specification. -/
theorem C9_zero_width_removed_witness :
    normalizeMessage sampleTables (New [str "ab"] []) (str "\u200ba\u200b\u200b b\u200b")
      = normalizeMessage sampleTables (New [str "ab"] []) (str "a b") ∧
    Check sampleTables (New [str "foo"] []) (str "f\u200boo") = ([⟨str "foo", 0⟩], none) :=
  ⟨((C9_zero_width_removed sampleTables (by decide)).1 (New [str "ab"] []) (str "a b")
      [zwTok, ⟨0x61, [0x61]⟩, zwTok, zwTok, ⟨0x20, [0x20]⟩, ⟨0x62, [0x62]⟩, zwTok] rfl
      (Or.inl (by decide))
      (by
        rw [show decodeRunes (str "a b") = [⟨0x61, [0x61]⟩, ⟨0x20, [0x20]⟩, ⟨0x62, [0x62]⟩]
          from by decide]
        exact .ins (.keep _ (.ins (.ins (.keep _ (.keep _ (.ins .nil)))))))
      (fun _ => ⟨by decide, by decide, by decide, by decide⟩)).1,
    (C9_zero_width_removed sampleTables (by decide)).2 (by decide) (by decide) (by decide)
      (by decide)⟩

set_option maxRecDepth 100000 in
/-- C12. The only failure of `Check` is a failure of the normalize transform.
A filter with `disableNormalize` set, such as one built by `New` with the
option `DisableNormalize`, never returns an error; and when `Check` returns an
error, normalization is enabled, the error is the one the transform returned
on the lower-cased message, the pipeline has no normalized message, and no
match is returned. -/
theorem C12_only_failure_is_transform (U : UnicodeTables) (f : swearFilter) (m : Bytes) :
    (f.disableNormalize = true → (Check U f m).2 = none) ∧
    (∀ ws, (Check U (New ws [DisableNormalize]) m).2 = none) ∧
    (∀ err, (Check U f m).2 = some err →
      f.disableNormalize = false ∧
      chainTransform U (ToLower U m).length (ToLower U m) = .error err ∧
      normalizeMessage U f m = .error err ∧
      Check U f m = ([], some err)) := by
  have key : ∀ g : swearFilter, g.disableNormalize = true → (Check U g m).2 = none := by
    intro g hg
    unfold Check
    split
    · rfl
    · rw [normalizeMessage_ok U g m _ (stage2_ascii U g m (Or.inr hg))]
  refine ⟨key f, fun ws => key _ ?_, ?_⟩
  · rw [New_eq_Add, Add_flags]
    rfl
  · intro err h
    cases hn : f.disableNormalize with
    | true => rw [key f hn] at h; exact absurd h (by simp)
    | false =>
      have hs : stage2 U f (ToLower U m) = chainTransform U (ToLower U m).length (ToLower U m) := by
        unfold stage2; rw [hn]; rfl
      unfold Check at h ⊢
      split at h
      · exact absurd h (by simp)
      · rename_i hk
        rw [if_neg hk]
        rw [normalizeMessage_eq, hs] at h ⊢
        cases hc : chainTransform U (ToLower U m).length (ToLower U m) with
        | error e =>
          rw [hc] at h
          have : e = err := by simpa [Except.map] using h
          subst this
          exact ⟨rfl, rfl, rfl, rfl⟩
        | ok s =>
          rw [hc] at h
          exact absurd h (by simp [Except.map])

set_option maxRecDepth 100000 in
/-- Witness of C12: with tables of a library whose transform stops on text
that is not ASCII, the message `"é"` gives the error and no match, and gives
no error once normalization is disabled. -/
theorem C12_only_failure_is_transform_witness :
    Check failingTables (New [str "e"] []) (str "é") = ([], some .errShortInternal) ∧
    (Check failingTables (New [str "e"] [DisableNormalize]) (str "é")).2 = none :=
  ⟨((C12_only_failure_is_transform failingTables (New [str "e"] []) (str "é")).2.2
      .errShortInternal (by decide)).2.2.2,
    (C12_only_failure_is_transform failingTables (New [str "e"] []) (str "é")).2.1 [str "e"]⟩

/-- C14. The vocabulary is a set of strings.  `Words` lists every stored word
once; a filter built by `New ws` with options of the package stores the
elements of `ws`; `Add ws` unites the stored set with `ws`, and adding a word
already stored changes nothing; `Delete ws` takes the words of `ws` away, and
deleting a word that is not stored changes nothing (there is no error to
return). -/
theorem C14_vocabulary_is_a_set (f : swearFilter) (ws : List Bytes) (w : Bytes) :
    (Words f).Nodup ∧
    (∀ opts : List FilterOption, (∀ o ∈ opts, o ∈ namedOptions) →
      ∀ x, x ∈ Words (New ws opts) ↔ x ∈ ws) ∧
    (∀ x, x ∈ Words (Add f ws) ↔ x ∈ Words f ∨ x ∈ ws) ∧
    (w ∈ Words f → Add f [w] = f) ∧
    (∀ x, x ∈ Words (Delete f ws) ↔ x ∈ Words f ∧ x ∉ ws) ∧
    (w ∉ Words f → Delete f [w] = f) := by
  refine ⟨f.BadWords.nodup, fun opts h x => New_keys ws opts h x, Add_keys f ws,
    ?_, Delete_keys f ws, ?_⟩
  · intro h
    show { f with BadWords := f.BadWords.insert w } = f
    rw [insert_mem _ _ h]
  · intro h
    show { f with BadWords := f.BadWords.delete w } = f
    rw [delete_not_mem _ _ h]

set_option maxRecDepth 100000 in
/-- Witness of C14: a vocabulary given with a repeated word, then grown and
shrunk. -/
theorem C14_vocabulary_is_a_set_witness :
    (str "foo" ∈ Words (New [str "foo", str "bar", str "foo"] [EnableSpacedBypass]) ∧
      str "bar" ∈ Words (New [str "foo", str "bar", str "foo"] [EnableSpacedBypass]) ∧
      (Words (New [str "foo", str "bar", str "foo"] [EnableSpacedBypass])).length = 2) ∧
    Add (New [str "foo"] []) [str "foo"] = New [str "foo"] [] ∧
    Delete (New [str "foo"] []) [str "bar"] = New [str "foo"] [] :=
  ⟨by decide,
    (C14_vocabulary_is_a_set (New [str "foo"] []) [] (str "foo")).2.2.2.1 (by decide),
    (C14_vocabulary_is_a_set (New [str "foo"] []) [] (str "bar")).2.2.2.2.2 (by decide)⟩

set_option maxRecDepth 100000 in
/-- Counterexample to C15: the word `foo` is stored already; after `Add` and
`Delete` of `foo` the vocabulary is empty, not what it was. -/
theorem C15_counterexample :
    Words (New [str "foo"] []) = [str "foo"] ∧
    Words (Delete (Add (New [str "foo"] []) [str "foo"]) [str "foo"]) = [] ∧
    ¬ (∀ x, x ∈ Words (Delete (Add (New [str "foo"] []) [str "foo"]) [str "foo"]) ↔
      x ∈ Words (New [str "foo"] [])) := by
  refine ⟨by decide, by decide, fun h => ?_⟩
  have h1 : str "foo" ∈ Words (New [str "foo"] []) := by decide
  have h2 : str "foo" ∉ Words (Delete (Add (New [str "foo"] []) [str "foo"]) [str "foo"]) := by
    decide
  exact h2 ((h (str "foo")).2 h1)

/-- C15, amended. `Add` of a word `w` followed by `Delete` of `w` leaves the
stored set without `w`: this is the prior set when `w` was not stored before,
and the prior set less `w` when it was.  The settings are not changed. -/
theorem C15_add_delete_round_trip (f : swearFilter) (w : Bytes) :
    (∀ x, x ∈ Words (Delete (Add f [w]) [w]) ↔ x ∈ Words f ∧ x ≠ w) ∧
    (w ∉ Words f → ∀ x, x ∈ Words (Delete (Add f [w]) [w]) ↔ x ∈ Words f) ∧
    (w ∉ Words f → Delete (Add f [w]) [w] = f) := by
  have h1 : ∀ x, x ∈ Words (Delete (Add f [w]) [w]) ↔ x ∈ Words f ∧ x ≠ w := by
    intro x
    show x ∈ (Delete (Add f [w]) [w]).BadWords.keys ↔ x ∈ f.BadWords.keys ∧ x ≠ w
    rw [Delete_keys, Add_keys]
    simp only [List.mem_singleton]
    tauto
  refine ⟨h1, fun hw x => ?_, fun hw => ?_⟩
  · rw [h1]
    constructor
    · exact fun h => h.1
    · exact fun h => ⟨h, fun e => hw (e ▸ h)⟩
  · show { ({ f with BadWords := f.BadWords.insert w } : swearFilter) with
      BadWords := (f.BadWords.insert w).delete w } = f
    have hw' : w ∉ f.BadWords.keys := hw
    have : (f.BadWords.insert w).delete w = f.BadWords := by
      unfold WordSet.insert WordSet.delete
      rw [dif_neg hw']
      obtain ⟨a, b, c, d, e, ⟨k, hk⟩⟩ := f
      simp only [WordSet.mk.injEq]
      rw [List.erase_append_right _ hw']
      simp
    rw [this]

set_option maxRecDepth 100000 in
/-- Witness of C15, amended: the word `bar` is not stored in the filter with
the word `foo`. -/
theorem C15_add_delete_round_trip_witness :
    Delete (Add (New [str "foo"] []) [str "bar"]) [str "bar"] = New [str "foo"] [] :=
  (C15_add_delete_round_trip (New [str "foo"] []) (str "bar")).2.2 (by decide)

/-- C16. A filter built by `New` with no options has the four disable flags
and `enableSpacedBypass` false; each option function sets its own flag and
leaves the other flags and the vocabulary as they are; and for a filter built
with options of the package, spaced bypass is on exactly when
`EnableSpacedBypass` is among them. -/
theorem C16_default_configuration (ws : List Bytes) (s : swearFilter) :
    ((New ws []).disableNormalize = false ∧ (New ws []).disableSpacedTab = false ∧
      (New ws []).disableMultiWhitespaceStripping = false ∧
      (New ws []).disableZeroWidthStripping = false ∧
      (New ws []).enableSpacedBypass = false) ∧
    (DisableNormalize s = { s with disableNormalize := true } ∧
      DisableSpacedTab s = { s with disableSpacedTab := true } ∧
      DisableMultiWhitespaceStripping s = { s with disableMultiWhitespaceStripping := true } ∧
      DisableZeroWidthStripping s = { s with disableZeroWidthStripping := true } ∧
      EnableSpacedBypass s = { s with enableSpacedBypass := true }) ∧
    (∀ opts : List FilterOption, (∀ o ∈ opts, o ∈ namedOptions) →
      ((New ws opts).enableSpacedBypass = true ↔ EnableSpacedBypass ∈ opts)) := by
  have hf : ∀ opts, New ws opts = { New [] opts with BadWords := (New ws opts).BadWords } := by
    intro opts
    exact Add_flags (New [] opts) ws
  refine ⟨?_, ⟨rfl, rfl, rfl, rfl, rfl⟩, fun opts h => ?_⟩
  · rw [hf []]
    exact ⟨rfl, rfl, rfl, rfl, rfl⟩
  · rw [hf opts]
    show (New [] opts).enableSpacedBypass = true ↔ _
    have := (foldl_opts opts h (withOptions false false false false false)).2
    have e : (withOptions false false false false false).enableSpacedBypass = false := rfl
    rw [e] at this
    simpa using this

set_option maxRecDepth 100000 in
/-- Witness of C16: two filters built with options. -/
theorem C16_default_configuration_witness :
    (New [str "foo"] [DisableSpacedTab, EnableSpacedBypass]).enableSpacedBypass = true ∧
    (New [str "foo"] [DisableSpacedTab, DisableNormalize]).enableSpacedBypass = false := by
  have h := (C16_default_configuration [str "foo"] (New [] [])).2.2
  refine ⟨(h [DisableSpacedTab, EnableSpacedBypass] (by simp [namedOptions])).2 (by simp), ?_⟩
  rfl

set_option maxRecDepth 100000 in
/-- C17, the failing input.  The filter `New([]string{"foo", "bar"})` of
`TestNew`, built with no options: the four disable flags are false and
`BadWords` holds two entries, as the test asserts, but `enableSpacedBypass` is
false, where the test asserts that it is true.  So is it for every list of
words: no option, no spaced bypass, and one entry per distinct word. -/
theorem C17_new_leaves_bypass_off :
    ((New [str "foo", str "bar"] []).disableNormalize = false ∧
      (New [str "foo", str "bar"] []).disableSpacedTab = false ∧
      (New [str "foo", str "bar"] []).disableMultiWhitespaceStripping = false ∧
      (New [str "foo", str "bar"] []).disableZeroWidthStripping = false ∧
      (New [str "foo", str "bar"] []).BadWords.keys.length = 2) ∧
    (New [str "foo", str "bar"] []).enableSpacedBypass = false ∧
    (∀ ws, (New ws []).enableSpacedBypass = false ∧
      (New ws []).BadWords.keys.length = ws.dedup.length) := by
  refine ⟨⟨rfl, rfl, rfl, rfl, by decide⟩, rfl, fun ws => ⟨?_, New_length ws⟩⟩
  rw [New_flags]
  rfl

set_option maxRecDepth 100000 in
/-- C18, the failing input.  With default options the message
`"hello  world"` (two spaces) normalizes to `"helloworld"`: the run of two
spaces is deleted, not converted into a single space as the comments on
`DisableMultiWhitespaceStripping` and in `Check` say, and the vocabulary word
`"hello world"` is not reported.  (The message is ASCII: the result is the
same for all Unicode tables.) -/
theorem C18_run_deleted_not_single_space (U : UnicodeTables) :
    normalizeMessage U (New [str "hello world"] []) (str "hello  world")
      = .ok (str "helloworld") ∧
    Check U (New [str "hello world"] []) (str "hello  world") = ([], none) ∧
    Check U (New [str "helloworld"] []) (str "hello  world")
      = ([⟨str "helloworld", 0⟩], none) := by
  refine ⟨?_, ?_, ?_⟩
  · rw [normalizeMessage_ascii U sampleTables _ _ (by decide)]; decide
  · rw [Check_ascii U sampleTables _ _ (by decide)]; decide
  · rw [Check_ascii U sampleTables _ _ (by decide)]; decide

/-- C20. Enabling spaced bypass never hides or moves a match.  With the other
options, the vocabulary and the message the same, the matches returned with
spaced bypass disabled are, in order and with their indices, among the matches
returned with it enabled; the error is the same; and a match returned only with
spaced bypass enabled is for a vocabulary word that does not occur in the
normalized message and occurs in it once its spaces are removed. -/
theorem C20_bypass_only_adds (U : UnicodeTables) (f : swearFilter) (m : Bytes) :
    List.Sublist (Check U { f with enableSpacedBypass := false } m).1
      (Check U { f with enableSpacedBypass := true } m).1 ∧
    (Check U { f with enableSpacedBypass := true } m).2
      = (Check U { f with enableSpacedBypass := false } m).2 ∧
    (∀ mt ∈ (Check U { f with enableSpacedBypass := true } m).1,
      mt ∉ (Check U { f with enableSpacedBypass := false } m).1 →
      mt.Word ∈ Words f ∧
      ∀ N, normalizeMessage U f m = .ok N →
        ¬ mt.Word <:+: N ∧ mt.Word <:+: Replace N (str " ") (str "")) := by
  unfold Check
  simp only [normalizeMessage_bypass]
  by_cases hk : f.BadWords.keys.length = 0
  · simp only [if_pos hk]
    exact ⟨List.Sublist.refl _, trivial, fun mt h => absurd h (List.not_mem_nil _)⟩
  · simp only [if_neg hk]
    cases hN : normalizeMessage U f m with
    | error e => exact ⟨List.Sublist.refl _, rfl, fun mt h => absurd h (List.not_mem_nil _)⟩
    | ok N =>
      simp only [scanWords_eq]
      refine ⟨List.Sublist.append (filterMap_sublist _ _ _ (fun k _ => wordMatch_off N k))
        (List.Sublist.refl _), trivial, ?_⟩
      intro mt h1 h2
      rw [List.mem_append] at h1 h2
      rcases h1 with h1 | h1
      · rw [List.mem_filterMap] at h1
        obtain ⟨k, hk1, hk2⟩ := h1
        obtain ⟨hw, hsp, hc⟩ := wordMatch_some _ _ _ _ hk2
        refine ⟨hw ▸ hk1, ?_⟩
        intro N' hN'
        have : N' = N := by injection hN'.symm
        subst this
        rcases hc with ⟨hc1, hc2⟩ | ⟨hc1, _, hc3, _⟩
        · exfalso
          apply h2
          left
          rw [List.mem_filterMap]
          refine ⟨k, hk1, ?_⟩
          rw [← hk2]
          unfold wordMatch
          rw [if_neg hsp, if_neg hsp, if_pos ((Index_ne_iff _ _).2 hc1),
            if_pos ((Index_ne_iff _ _).2 hc1)]
        · rw [hw, Replace_space]
          exact ⟨hc1, hc3⟩
      · exact absurd (Or.inr h1) h2

set_option maxRecDepth 100000 in
/-- Witness of C20: the vocabulary `foo`, `dude` and the message of
`TestCheck`; spaced bypass adds the match for `foo`. -/
theorem C20_bypass_only_adds_witness :
    (Check sampleTables (New [str "foo", str "dude"] []) (str "what the f o o dude")).1
      = [⟨str "dude", 15⟩] ∧
    (Check sampleTables (New [str "foo", str "dude"] [EnableSpacedBypass])
      (str "what the f o o dude")).1 = [⟨str "foo", 7⟩, ⟨str "dude", 15⟩] ∧
    List.Sublist
      (Check sampleTables { New [str "foo", str "dude"] [] with enableSpacedBypass := false }
        (str "what the f o o dude")).1
      (Check sampleTables { New [str "foo", str "dude"] [] with enableSpacedBypass := true }
        (str "what the f o o dude")).1 :=
  ⟨by decide, by decide,
    (C20_bypass_only_adds sampleTables (New [str "foo", str "dude"] [])
      (str "what the f o o dude")).1⟩

set_option maxRecDepth 100000 in
/-- C19. With normalization enabled, the message after the normalize stage is
the whole destination buffer: when the stage succeeds, the result has the byte
length of the lower-cased message and is the transformed text (the
lower-cased message decomposed, without its marks of category `Mn`,
recomposed) followed by zero bytes; when the transformed text is longer than
the lower-cased message the stage fails, and `Check` of a filter with words
returns the error.  For tables that decompose `ó` into `o` and U+0301, a mark
of category `Mn`, the lower-cased `"fóó"` of 5 bytes becomes `"foo"` and two
zero bytes. -/
theorem C19_normalize_fills_buffer (U : UnicodeTables) (f : swearFilter) (m : Bytes) :
    (f.disableNormalize = false → ∀ N, stage2 U f (ToLower U m) = .ok N →
      N.length = (ToLower U m).length ∧
      N = NFC U (Remove (Contains U) (NFD U (ToLower U m))) ++
        List.replicate
          ((ToLower U m).length - (NFC U (Remove (Contains U) (NFD U (ToLower U m)))).length)
          0) ∧
    (f.disableNormalize = false →
      (ToLower U m).length < (NFC U (Remove (Contains U) (NFD U (ToLower U m)))).length →
      stage2 U f (ToLower U m) = .error .ErrShortDst ∧
      (Words f ≠ [] → Check U f m = ([], some .ErrShortDst))) ∧
    (U.toLower 0xF3 = 0xF3 → U.nfd (str "fóó") = str "fo\u0301o\u0301" →
      U.isMn 0x301 = true → U.internalErr 5 (str "fóó") = none →
      ToLower U (str "fóó") = str "fóó" ∧ (str "fóó").length = 5 ∧
      stage2 U (New [str "foo"] []) (str "fóó") = .ok (str "foo\x00\x00") ∧
      normalizeMessage U (New [str "foo"] []) (str "fóó") = .ok (str "foo\x00\x00")) := by
  refine ⟨fun hn N h => ?_, fun hn h => ?_, fun hlow hnfd hmn herr => ?_⟩
  · unfold stage2 at h
    rw [hn] at h
    obtain ⟨h1, h2⟩ := chainTransform_ok U _ _ _ h
    refine ⟨?_, h2⟩
    rw [h2, List.length_append, List.length_replicate]
    omega
  · have h2 : stage2 U f (ToLower U m) = .error .ErrShortDst := by
      unfold stage2
      rw [hn]
      exact chainTransform_short U _ _ h
    refine ⟨h2, fun hw => ?_⟩
    unfold Check
    rw [if_neg (by
      intro h0
      exact hw (List.eq_nil_of_length_eq_zero h0)), normalizeMessage_eq, h2]
    rfl
  · refine ⟨lower_accents U hlow, by decide, ?_, normalize_accents U hlow hnfd hmn herr _⟩
    unfold stage2
    rw [New_flags]
    have hl : (str "fóó").length = 5 := by decide
    simp only [hl]
    exact chain_accents U hnfd hmn herr

set_option maxRecDepth 100000 in
/-- Witness of C19: the sample tables decompose `ó`, and the upper-case
message keeps the length of its lower-cased form through the stage. -/
theorem C19_normalize_fills_buffer_witness :
    normalizeMessage sampleTables (New [str "foo"] []) (str "fóó") = .ok (str "foo\x00\x00") ∧
    (∀ N, stage2 sampleTables (New [str "foo"] []) (ToLower sampleTables (str "FÓÓ")) = .ok N →
      N.length = (ToLower sampleTables (str "FÓÓ")).length) :=
  ⟨((C19_normalize_fills_buffer sampleTables (New [] []) []).2.2 (by decide) (by decide)
      (by decide) (by decide)).2.2.2,
    fun N h => ((C19_normalize_fills_buffer sampleTables (New [str "foo"] []) (str "FÓÓ")).1
      rfl N h).1⟩

set_option maxRecDepth 100000 in
/-- C11. With spaced-tab collapsing enabled, `Check` gives a message `m` and
the message `Replace m "\t" " "`, which is `m` with every tab replaced by one
space, the same normalized form and the same result: for every ASCII message;
and for every message when no character lower-cases to a tab and, where
normalization is enabled, the normalize transform of the library maps the
lower-cased message with its tabs replaced to its result for the lower-cased
message with the tabs replaced (on tab and space the transform does nothing).
The normalized message holds no tab byte.  With multi-whitespace stripping
disabled the normalized form of `"a\tb"` is `"a b"`. -/
theorem C11_tabs_become_spaces (U : UnicodeTables) (f : swearFilter) (m : Bytes)
    (ht : f.disableSpacedTab = false) :
    (isASCII m = true →
      normalizeMessage U f (Replace m (str "\t") (str " ")) = normalizeMessage U f m ∧
      Check U f (Replace m (str "\t") (str " ")) = Check U f m) ∧
    ((∀ r, 0x7F < r → U.toLower r ≠ 0x09) →
      (f.disableNormalize = false →
        chainTransform U (ToLower U (Replace m (str "\t") (str " "))).length
            (ToLower U (Replace m (str "\t") (str " ")))
          = (chainTransform U (ToLower U m).length (ToLower U m)).map
              (fun s => Replace s (str "\t") (str " "))) →
      normalizeMessage U f (Replace m (str "\t") (str " ")) = normalizeMessage U f m ∧
      Check U f (Replace m (str "\t") (str " ")) = Check U f m) ∧
    (∀ N, normalizeMessage U f m = .ok N → (0x09 : UInt8) ∉ N) ∧
    (f.disableMultiWhitespaceStripping = true →
      normalizeMessage U f (str "a\tb") = .ok (str "a b")) := by
  refine ⟨fun ha => ?_, fun hlow hlib => ?_, fun N h => normalize_no_tab U f m N ht h,
    fun hm => ?_⟩
  · have h := normalize_tab U f m ht (ToLower_tab_ascii U m ha) (stage2_tab_ascii U f m ha)
    rw [Replace_tab]
    exact ⟨h, Check_congr U f m _ h⟩
  · have hL := ToLower_tab U hlow m
    have hS : stage2 U f ((ToLower U m).map (fun c => if c = 0x09 then (0x20 : UInt8) else c))
        = (stage2 U f (ToLower U m)).map
            (fun s => s.map (fun c => if c = 0x09 then (0x20 : UInt8) else c)) := by
      cases hn : f.disableNormalize with
      | true => unfold stage2; rw [hn]; rfl
      | false =>
        have := hlib hn
        simp only [Replace_tab] at this
        rw [hL, List.length_map] at this
        unfold stage2
        rw [hn]
        simp only [Bool.not_false, if_true, List.length_map]
        exact this
    have h := normalize_tab U f m ht hL hS
    rw [Replace_tab]
    exact ⟨h, Check_congr U f m _ h⟩
  · rw [normalizeMessage_ascii U sampleTables f _ (by decide), normalizeMessage_flags, ht, hm]
    generalize f.disableNormalize = a
    generalize f.disableZeroWidthStripping = b
    generalize f.enableSpacedBypass = c
    cases a <;> cases b <;> cases c <;> decide

set_option maxRecDepth 100000 in
/-- Witness of C11: a message of the sample tables with an accent and tabs,
checked with normalization disabled, and an ASCII message with default
options. -/
theorem C11_tabs_become_spaces_witness :
    normalizeMessage sampleTables (New [str "a b"] [DisableNormalize]) (str "É\ta b")
      = normalizeMessage sampleTables (New [str "a b"] [DisableNormalize]) (str "É\ta\tb") ∧
    Check sampleTables (New [str "a b"] []) (str "x a b") =
      Check sampleTables (New [str "a b"] []) (str "x\ta\tb") :=
  ⟨((C11_tabs_become_spaces sampleTables (New [str "a b"] [DisableNormalize]) (str "É\ta\tb")
      rfl).2.1
      (by
        intro r hr
        show (if 0xC0 ≤ r ∧ r ≤ 0xDE ∧ r ≠ 0xD7 then r + 0x20 else r) ≠ 0x09
        split <;> omega)
      (fun h => absurd h (by decide))).1,
    ((C11_tabs_become_spaces sampleTables (New [str "a b"] []) (str "x\ta\tb") rfl).1
      (by decide)).2⟩

set_option maxRecDepth 100000 in
/-- Counterexample to C13: the Hangul jamo U+1100 and U+1161 with a
zero-width space between them, followed by `abcdef`, default options.  The
normalize stage finds the destination large enough and leaves the message as
it is, stage 4 removes the zero-width space, and the pipeline succeeds with
the two jamo and the letters; run on this result, the normalize stage
composes the jamo to the syllable U+AC00 and leaves three zero bytes at the
end of its buffer of twelve bytes. -/
theorem C13_counterexample :
    normalizeMessage hangulTables (New [str "x"] []) (str "\u1100\u200b\u1161abcdef")
      = .ok (str "\u1100\u1161abcdef") ∧
    normalizeMessage hangulTables (New [str "x"] []) (str "\u1100\u1161abcdef")
      = .ok (str "\uac00abcdef\x00\x00\x00") ∧
    str "\uac00abcdef\x00\x00\x00" ≠ str "\u1100\u1161abcdef" := by
  refine ⟨by decide, by decide, by decide⟩

/-- C13, amended. For every setting of the options and every ASCII message
the pipeline succeeds, and run on its result it yields this result again.
For every message, stages 3 to 5 change their result no further when the
message after stage 2 is well-formed UTF-8; it is stages 1 and 2, run again,
that can change the result. -/
theorem C13_idempotent_on_ascii (U : UnicodeTables) (f : swearFilter) (m : Bytes) :
    (isASCII m = true →
      ∃ N, normalizeMessage U f m = .ok N ∧ normalizeMessage U f N = .ok N) ∧
    (∀ S, stage2 U f (ToLower U m) = .ok S → (∀ t ∈ decodeRunes S, t.invalid = false) →
      normalizeMessage U f m = .ok (stage5 f (stage4 f (stage3 f S))) ∧
      stage5 f (stage4 f (stage3 f (stage5 f (stage4 f (stage3 f S)))))
        = stage5 f (stage4 f (stage3 f S))) :=
  ⟨normalize_ascii_idem U f m,
    fun S hS hv => ⟨normalizeMessage_ok U f m S hS, stages345_idem f S hv⟩⟩

set_option maxRecDepth 100000 in
/-- Witness of C13, amended: an ASCII message with upper case, tabs and runs
of spaces, under the default options. -/
theorem C13_idempotent_on_ascii_witness :
    normalizeMessage sampleTables (New [str "x"] []) (str " A\tb  C ") = .ok (str "a bc") ∧
    ∃ N, normalizeMessage sampleTables (New [str "x"] []) (str " A\tb  C ") = .ok N ∧
      normalizeMessage sampleTables (New [str "x"] []) N = .ok N :=
  ⟨by decide,
    (C13_idempotent_on_ascii sampleTables (New [str "x"] []) (str " A\tb  C ")).1 (by decide)⟩

set_option maxRecDepth 100000 in
/-- C8. With normalization enabled the normalize stage is `NFC` after the
removal of the code points of category `Mn` after `NFD`, on the lower-cased
message, so accents do not hide a word.  For tables that decompose U+00F3
into `o` and U+0301, a mark of category `Mn`, the word `"foo"` is reported at
index 0 for `"fóó"`.  In general, for a message `tokBytes ts'` whose runes are
the runes of `m` with marks of category `Mn` inserted at arbitrary positions,
`runes.Remove(unicodeSet)` removes the inserted marks, the transformed text of
the two messages is the same, and every word other than the single space that
`Check` reports for `m` is reported for `tokBytes ts'`.  Of the library this
takes that the marks have no lower-case mapping, that `NFD` of the lower-cased
message with the marks is `NFD` of the lower-cased message with marks in it
(marks decompose into marks, and they are put in order among themselves), that
the transformed text of `m` is well-formed, and that the transform does not
stop with an error of its own on the longer message. -/
theorem C8_marks_do_not_hide_words (U : UnicodeTables) :
    (U.toLower 0xF3 = 0xF3 → U.nfd (str "fóó") = str "fo\u0301o\u0301" →
      U.isMn 0x301 = true → U.internalErr 5 (str "fóó") = none →
      Check U (New [str "foo"] []) (str "fóó") = ([⟨str "foo", 0⟩], none)) ∧
    (∀ (f : swearFilter) (m : Bytes) (ts' : List Tok) (w : Bytes),
      f.disableNormalize = false →
      MnInserted U (decodeRunes m) ts' →
      (∀ r, U.isMn r = true → U.toLower r = r) →
      MnInserted U (decodeRunes (NFD U (ToLower U m)))
        (decodeRunes (NFD U (ToLower U (tokBytes ts')))) →
      (∀ t ∈ decodeRunes (NFC U (Remove (Contains U) (NFD U (ToLower U m)))),
        t.invalid = false) →
      U.internalErr (ToLower U (tokBytes ts')).length (ToLower U (tokBytes ts')) = none →
      w ≠ str " " →
      Remove (Contains U) (NFD U (ToLower U (tokBytes ts')))
        = Remove (Contains U) (NFD U (ToLower U m)) ∧
      ((∃ mt ∈ (Check U f m).1, mt.Word = w) →
        ∃ mt ∈ (Check U f (tokBytes ts')).1, mt.Word = w)) := by
  refine ⟨fun hlow hnfd hmn herr => ?_, ?_⟩
  · rw [Check_ok U _ _ _ (normalize_accents U hlow hnfd hmn herr [str "foo"]) (by decide)]
    decide
  · intro f m ts' w hn hins hlow hnfd hv herr hw
    have hR := Remove_ins U _ _ hnfd
    refine ⟨hR, fun h => ?_⟩
    exact same_text_keeps_match U f m (tokBytes ts') w hn (lower_ins U hlow m ts' hins)
      (congrArg (NFC U) hR) hv herr hw h

set_option maxRecDepth 100000 in
/-- Witness of C8: the sample tables, the word and message `"foo"`, and the
message with U+0301 inserted after each `o`. -/
theorem C8_marks_do_not_hide_words_witness :
    Check sampleTables (New [str "foo"] []) (str "fóó") = ([⟨str "foo", 0⟩], none) ∧
    ∃ mt ∈ (Check sampleTables (New [str "foo"] []) (str "fo\u0301o\u0301")).1,
      mt.Word = str "foo" :=
  ⟨(C8_marks_do_not_hide_words sampleTables).1 (by decide) (by decide) (by decide) (by decide),
    ((C8_marks_do_not_hide_words sampleTables).2 (New [str "foo"] []) (str "foo")
      [⟨0x66, [0x66]⟩, ⟨0x6F, [0x6F]⟩, encTok 0x301, ⟨0x6F, [0x6F]⟩, encTok 0x301] (str "foo")
      rfl
      (by
        unfold MnInserted
        rw [show decodeRunes (str "foo") = [⟨0x66, [0x66]⟩, ⟨0x6F, [0x6F]⟩, ⟨0x6F, [0x6F]⟩]
          from by decide]
        have hm : isMark sampleTables (encTok 0x301) :=
          ⟨0x301, by decide, by decide, by decide, by decide, rfl⟩
        exact .keep _ (.keep _ (.ins _ hm (.keep _ (.ins _ hm .nil)))))
      (by
        intro r hr
        have hbig : 0x300 ≤ r := by
          have : (decide (0x300 ≤ r ∧ r ≤ 0x36F)) = true := hr
          rw [decide_eq_true_eq] at this
          exact this.1
        show (if 0xC0 ≤ r ∧ r ≤ 0xDE ∧ r ≠ 0xD7 then r + 0x20 else r) = r
        rw [if_neg (by omega)])
      (by
        unfold MnInserted
        rw [show decodeRunes (NFD sampleTables (ToLower sampleTables (str "foo")))
            = [⟨0x66, [0x66]⟩, ⟨0x6F, [0x6F]⟩, ⟨0x6F, [0x6F]⟩] from by decide,
          show decodeRunes (NFD sampleTables (ToLower sampleTables (tokBytes
              [⟨0x66, [0x66]⟩, ⟨0x6F, [0x6F]⟩, encTok 0x301, ⟨0x6F, [0x6F]⟩, encTok 0x301])))
            = [⟨0x66, [0x66]⟩, ⟨0x6F, [0x6F]⟩, encTok 0x301, ⟨0x6F, [0x6F]⟩, encTok 0x301]
            from by decide]
        have hm : isMark sampleTables (encTok 0x301) :=
          ⟨0x301, by decide, by decide, by decide, by decide, rfl⟩
        exact .keep _ (.keep _ (.ins _ hm (.keep _ (.ins _ hm .nil)))))
      (by decide) (by decide) (by decide)).2
      ⟨⟨str "foo", 0⟩, by decide, rfl⟩⟩

end swearfilter
